import Mathlib

/-!
# TinyFS (`fs.c`): a shallow embedding and its verified properties

The file system lives in an image of `NUM_BLOCKS` blocks.  `union tfs_block`
overlays five views on the same 4096 bytes, so a block is embedded as its raw
content, 1024 words of 32 bits, and every view is a decoding function on
that raw content:

* superblock: words 0..3 are `signature`, `num_blocks`, `num_inodes`,
  `root_inode`; words 4..67 are `block_in_use`; words 68..83 are `inode_in_use`;
* inode table: record `n` occupies words `8n .. 8n+7`
  (`type`, `size`, `direct[0..4]`, `indirect`);
* directory page: entry `j` occupies words `8j .. 8j+7`
  (`valid`, 24 bytes of `fname`, `inum`);
* pointer page: word `k` is `pointers[k]`;
* raw data: byte `k` is byte `k % 4` of word `k / 4` (little-endian, as on the
  machines the project targets).

`int` is a 32-bit two's complement integer; `/` and `%` on `int` truncate
towards zero (`Int.tdiv`, `Int.tmod`).

A run that leaves defined behaviour does not return a value: the block device
refuses an index outside `[0, NUM_BLOCKS)`, and an array subscript outside its
array is an error.  Both are reported as a `Fault`.
-/

namespace TinyFS

/-! ## Geometry (`#define`s of `fs.c`) -/

@[simp] def TFS_MAGIC : Int := 0x345f2022
@[simp] def NUM_BLOCKS : Nat := 2048
@[simp] def NUM_INODES : Nat := 512
@[simp] def NUM_DENTRIES_PER_BLOCK : Nat := 128
@[simp] def INODES_PER_BLOCK : Nat := 128
@[simp] def POINTERS_PER_INODE : Nat := 5
@[simp] def POINTERS_PER_BLOCK : Nat := 1024
@[simp] def BITS_PER_UINT : Nat := 32

/-- Modelled from the spec: `disk.h` is not among the sources.  The spec gives
`BLOCK_SIZE` as device-defined, "e.g. 4096"; 4096 is also the size of every
other member of `union tfs_block` (128 records of 32 bytes, 1024 pointers of
4 bytes). -/
@[simp] def DISK_BLOCK_SIZE : Nat := 4096

/-! ## Raw blocks and their views -/

/-- The raw content of one block: word index (0..1023) to 32-bit word. -/
abbrev Block := Nat → Nat

/-- The image: block index (0..NUM_BLOCKS-1) to block. -/
abbrev Disk := Nat → Block

/-- The 32-bit pattern stored in word `i`. -/
def word (b : Block) (i : Nat) : Nat := b i % 2 ^ 32

/-- The value of a 32-bit pattern read as a (signed) `int`. -/
def toInt32 (w : Nat) : Int :=
  if w % 2 ^ 32 < 2 ^ 31 then ((w % 2 ^ 32 : Nat) : Int) else ((w % 2 ^ 32 : Nat) : Int) - 2 ^ 32

/-- The view `block.data[k]`: byte `k` of the block. -/
def block_data (b : Block) (k : Nat) : Nat := (b (k / 4) / 256 ^ (k % 4)) % 256

/-- The view `block.pointers[k]`. -/
def pointers (b : Block) (k : Nat) : Int := toInt32 (b k)

/-- The view `block.super.signature`. -/
def signature (b : Block) : Int := toInt32 (b 0)

/-- The view `block.super.root_inode`. -/
def root_inode (b : Block) : Int := toInt32 (b 3)

/-- The view `block.super.block_in_use[idx]` (idx in 0..63). -/
def block_in_use (b : Block) (idx : Nat) : Nat := word b (4 + idx)

/-- The view `block.super.inode_in_use[idx]` (idx in 0..15). -/
def inode_in_use (b : Block) (idx : Nat) : Nat := word b (68 + idx)

/-- The view `block.dentry[j].valid`. -/
def dentry_valid (b : Block) (j : Nat) : Int := toInt32 (b (8 * j))

/-- The view `block.dentry[j].fname[t]` (t in 0..23). -/
def dentry_fname (b : Block) (j t : Nat) : Nat := block_data b (32 * j + 4 + t)

/-- The view `block.dentry[j].inum`. -/
def dentry_inum (b : Block) (j : Nat) : Int := toInt32 (b (8 * j + 7))

/-- A copy of one `struct tfs_inode`.  Only `direct 0 .. direct 4` are read. -/
structure tfs_inode where
  type : Int
  size : Int
  direct : Nat → Int
  indirect : Int

/-- What goes wrong when a run leaves defined behaviour. -/
inductive Fault where
  | disk_range
  | out_of_bounds
  deriving DecidableEq, Repr

/-- The copy `block.inode[n]`, for a subscript inside the 128 records. -/
def inode_record (b : Block) (n : Nat) : tfs_inode :=
  { type := toInt32 (b (8 * n))
    size := toInt32 (b (8 * n + 1))
    direct := fun k => toInt32 (b (8 * n + 2 + k))
    indirect := toInt32 (b (8 * n + 7)) }

/-- The expression `block.inode[n]` for an `int` subscript: a subscript outside
`inode[INODES_PER_BLOCK]` is a fault. -/
def inode_at (b : Block) (n : Int) : Except Fault tfs_inode :=
  if 0 ≤ n ∧ n < INODES_PER_BLOCK then .ok (inode_record b n.toNat) else .error .out_of_bounds

/-- The call `strcmp(filename, block.dentry[j].fname)`, comparing from position
`t` on.  `filename` is the caller's string without its terminator (a zero
inside it ends it, as it would in C).  The result is zero exactly when the two
strings are equal; C fixes only the sign of a non-zero result, and the callers
test only for zero.  Reading `fname[24]` or further is a fault. -/
def strcmp (b : Block) (j : Nat) : List Nat → Nat → Except Fault Int
  | [], t =>
    if 24 ≤ t then .error .out_of_bounds
    else .ok (0 - (dentry_fname b j t : Int))
  | c :: rest, t =>
    if 24 ≤ t then .error .out_of_bounds
    else if c ≠ dentry_fname b j t then .ok ((c : Int) - (dentry_fname b j t : Int))
    else if c = 0 then .ok 0
    else strcmp b j rest (t + 1)

/-! ## The world the operations run in -/

/-- An argument of a `printf` call. -/
inductive PArg where
  | int (v : Int)
  | str (s : List Nat)
  deriving DecidableEq, Repr

/-- The image together with what has been printed so far. -/
structure World where
  disk : Disk
  out : List (String × List PArg)

/-- An operation: from a world to its result (a value or a fault) and the
world it leaves behind.  A fault keeps the world reached so far. -/
def FS (α : Type) : Type := World → Except Fault α × World

instance : Monad FS where
  pure a := fun w => (.ok a, w)
  bind m f := fun w =>
    match m w with
    | (.ok a, w') => f a w'
    | (.error e, w') => (.error e, w')

/-- Leave defined behaviour. -/
def fault {α : Type} (e : Fault) : FS α := fun w => (.error e, w)

/-- Lift a computation that touches neither disk nor output. -/
def liftE {α : Type} (x : Except Fault α) : FS α := fun w => (x, w)

/-- Modelled from the spec: `disk_read` of `disk.c`, which is not among the
sources: "`read_block(index) -> BLOCK_SIZE bytes`: fails if index is outside
[0, NUM_BLOCKS)". -/
def disk_read (i : Int) : FS Block := fun w =>
  if 0 ≤ i ∧ i < NUM_BLOCKS then (.ok (w.disk i.toNat), w) else (.error .disk_range, w)

/-- Modelled from the spec: `disk_write` of `disk.c`, which is not among the
sources: "`write_block(index, bytes)`: fails if index is outside
[0, NUM_BLOCKS)". -/
def disk_write (i : Int) (b : Block) : FS Unit := fun w =>
  if 0 ≤ i ∧ i < NUM_BLOCKS then
    (.ok (), { w with disk := Function.update w.disk i.toNat b })
  else (.error .disk_range, w)

/-- A call of `printf` with format `fmt` and arguments `args`. -/
def printf (fmt : String) (args : List PArg) : FS Unit := fun w =>
  (.ok (), { w with out := w.out ++ [(fmt, args)] })

/-! ## The root directory scan shared by lookup, size query and delete -/

/-- Lines 155-158, 218-221 and 243-246 (the same four lines in `tfs_delete`,
`tfs_get_inumber` and `tfs_getsize`): read the superblock, read the table block
of the root inode, copy `block.inode[sBlock.root_inode]`. -/
def load_root : FS tfs_inode := do
  let block ← disk_read 0
  let sBlock := block
  let block ← disk_read (Int.tdiv (root_inode sBlock) INODES_PER_BLOCK + 1)
  liftE (inode_at block (root_inode sBlock))

/-- The loop `for (j = 0; j < NUM_DENTRIES_PER_BLOCK; j++)` with the test
`block.dentry[j].valid != 0 && !strcmp(filename, block.dentry[j].fname)`
(lines 163-164, 226-227, 251-252).  The argument counts the iterations left,
so `j = NUM_DENTRIES_PER_BLOCK - (k + 1)`.  The result is the `j` at which the
test succeeds, or `none` when the loop runs to its end. -/
def scan_entries (filename : List Nat) (block : Block) : Nat → Except Fault (Option Nat)
  | 0 => .ok none
  | k + 1 =>
    let j := NUM_DENTRIES_PER_BLOCK - (k + 1)
    if dentry_valid block j ≠ 0 then
      match strcmp block j filename 0 with
      | .error e => .error e
      | .ok c => if c = 0 then .ok (some j) else scan_entries filename block k
    else scan_entries filename block k

/-- The loop `for (i = 0; i < POINTERS_PER_INODE && rNode.direct[i] != 0; i++)`
around `disk_read(rNode.direct[i], block.data)` and the entry loop (lines
160-164, 223-227, 248-252).  The argument counts the iterations left, so
`i = POINTERS_PER_INODE - (k + 1)`.  The result is `(i, j, block)` at the
first entry that passes the test, `none` when both loops run to their end.  In
all three callers the statements under the test end in `return`, so the loops
never resume after a match. -/
def scan_dirs (filename : List Nat) (rNode : tfs_inode) : Nat → FS (Option (Nat × Nat × Block))
  | 0 => pure none
  | k + 1 =>
    let i := POINTERS_PER_INODE - (k + 1)
    if rNode.direct i ≠ 0 then do
      let block ← disk_read (rNode.direct i)
      match ← liftE (scan_entries filename block NUM_DENTRIES_PER_BLOCK) with
      | some j => pure (some (i, j, block))
      | none => scan_dirs filename rNode k
    else pure none

/-! ## `tfs_get_inumber` and `tfs_getsize` -/

/-- The function `tfs_get_inumber` (lines 211-234). -/
def tfs_get_inumber (filename : List Nat) : FS Int := do
  let rNode ← load_root
  match ← scan_dirs filename rNode POINTERS_PER_INODE with
  | some (_, j, block) => pure (dentry_inum block j)
  | none => pure 0

/-- The function `tfs_getsize` (lines 236-261). -/
def tfs_getsize (filename : List Nat) : FS Int := do
  let rNode ← load_root
  match ← scan_dirs filename rNode POINTERS_PER_INODE with
  | some (_, j, block) =>
    let n := Int.tmod (dentry_inum block j) INODES_PER_BLOCK
    let block ← disk_read (Int.tdiv (dentry_inum block j) INODES_PER_BLOCK + 1)
    let node ← liftE (inode_at block n)
    pure node.size
  | none => pure (-1)

/-! ## `tfs_delete` -/

/-- The `int` expression `~(1 << s)` converted to `unsigned int` for the `&=`
(for `s = 31` the compiler yields `INT_MIN` for `1 << 31`, whose complement is
`0x7fffffff`). -/
def not_shl1 (s : Nat) : Nat := 2 ^ 32 - 1 - 2 ^ s

/-- The statement
`block.super.block_in_use[p / BITS_PER_UINT] &= ~(1 << (p % BITS_PER_UINT))`
(lines 171, 183, 187).  A subscript outside `block_in_use[64]` or a negative
shift count is a fault. -/
def clear_block_bit (block : Block) (p : Int) : Except Fault Block :=
  if 0 ≤ p ∧ Int.tdiv p BITS_PER_UINT < ((NUM_BLOCKS / BITS_PER_UINT : Nat) : Int) then
    .ok (Function.update block (4 + (Int.tdiv p BITS_PER_UINT).toNat)
      (block_in_use block (Int.tdiv p BITS_PER_UINT).toNat
        &&& not_shl1 (Int.tmod p BITS_PER_UINT).toNat))
  else .error .out_of_bounds

/-- The statement
`block.super.inode_in_use[n / BITS_PER_UINT] &= ~(1 << (n % BITS_PER_UINT))`
(line 193).  A subscript outside `inode_in_use[16]` or a negative shift count
is a fault. -/
def clear_inode_bit (block : Block) (n : Int) : Except Fault Block :=
  if 0 ≤ n ∧ Int.tdiv n BITS_PER_UINT < ((NUM_INODES / BITS_PER_UINT : Nat) : Int) then
    .ok (Function.update block (68 + (Int.tdiv n BITS_PER_UINT).toNat)
      (inode_in_use block (Int.tdiv n BITS_PER_UINT).toNat
        &&& not_shl1 (Int.tmod n BITS_PER_UINT).toNat))
  else .error .out_of_bounds

/-- The loops `for (k = 0; k < bound && ptr[k] != 0; k++)` of lines 170-174
(`ptr = tempNode.direct`, `bound = POINTERS_PER_INODE`) and 182-186
(`ptr = tempBlock.pointers`, `bound = POINTERS_PER_BLOCK`): clear the bitmap
bit of `ptr[k]` in `block` and count it in `blocksDeleted`.  The first argument
counts the iterations left, so `k = bound - (r + 1)`. -/
def clear_ptrs (ptr : Nat → Int) (bound : Nat) : Nat → Block × Int → Except Fault (Block × Int)
  | 0, s => .ok s
  | r + 1, (block, blocksDeleted) =>
    let k := bound - (r + 1)
    if ptr k ≠ 0 then
      match clear_block_bit block (ptr k) with
      | .error e => .error e
      | .ok block' => clear_ptrs ptr bound r (block', blocksDeleted + 1)
    else .ok (block, blocksDeleted)

/-- Lines 177-189 of `tfs_delete`: the indirect block and the blocks it lists.
`block` holds the superblock as written at line 175. -/
def delete_indirect (tempNode : tfs_inode) (block : Block) (blocksDeleted : Int) :
    FS (Block × Int) :=
  if tempNode.indirect ≠ 0 then do
    let block ← disk_read tempNode.indirect
    let tempBlock := block
    let block ← disk_read 0
    let (block, blocksDeleted) ← liftE
      (clear_ptrs (pointers tempBlock) POINTERS_PER_BLOCK POINTERS_PER_BLOCK (block, blocksDeleted))
    let block ← liftE (clear_block_bit block tempNode.indirect)
    disk_write 0 block
    pure (block, blocksDeleted)
  else pure (block, blocksDeleted)

/-- Lines 165-203 of `tfs_delete`: the statements under the test, entered with
the `i`, `j` and `block` of the matching entry. -/
def delete_found (rNode : tfs_inode) (i j : Nat) (block : Block) : FS Int := do
  let n := dentry_inum block j
  let block ← disk_read (Int.tdiv n INODES_PER_BLOCK + 1)
  let tempNode ← liftE (inode_at block (Int.tmod n INODES_PER_BLOCK))
  let block ← disk_read 0
  let (block, blocksDeleted) ← liftE
    (clear_ptrs tempNode.direct POINTERS_PER_INODE POINTERS_PER_INODE (block, 0))
  disk_write 0 block
  let (block, blocksDeleted) ← delete_indirect tempNode block blocksDeleted
  if blocksDeleted ≠ 0 then do
    let block ← liftE (clear_inode_bit block n)
    disk_write 0 block
    let block ← disk_read (rNode.direct i)
    let block := Function.update block (8 * j) 0
    disk_write (rNode.direct i) block
    pure n
  else pure 0

/-- The function `tfs_delete` (lines 147-209). -/
def tfs_delete (filename : List Nat) : FS Int := do
  let rNode ← load_root
  match ← scan_dirs filename rNode POINTERS_PER_INODE with
  | some (i, j, block) => delete_found rNode i j block
  | none => pure 0

/-! ## `tfs_read` -/

/-- The call `strcpy(data, src)`: the destination now holds `src`. -/
def strcpy (_data : List Nat) (src : List Nat) : List Nat := src

/-- The call `strncat(data, &block.data[j], 1)` where `c = block.data[j]`: the
string that starts at a zero byte is empty, so nothing is appended then. -/
def strncat1 (data : List Nat) (c : Nat) : List Nat :=
  if c = 0 then data else data ++ [c]

/-- Where a block loop of `tfs_read` stands: whether `return bytesRead` was
executed, the counter, and the text in the destination buffer. -/
structure ReadState where
  returned : Bool
  bytesRead : Int
  data : List Nat

/-- The loop `for (j = 0; j < DISK_BLOCK_SIZE; j++)` of lines 277-288 and
303-314.  The first argument counts the iterations left, so
`j = DISK_BLOCK_SIZE - (k + 1)`. -/
def copy_bytes (block : Block) (size length offset : Int) : Nat → Int → List Nat → ReadState
  | 0, bytesRead, data => ⟨false, bytesRead, data⟩
  | k + 1, bytesRead, data =>
    let j := DISK_BLOCK_SIZE - (k + 1)
    if bytesRead + offset = size then ⟨true, bytesRead, data⟩
    else if bytesRead = length then ⟨true, bytesRead, data⟩
    else copy_bytes block size length offset k (bytesRead + 1) (strncat1 data (block_data block j))

/-- The loops `while (i < POINTERS_PER_INODE)` (lines 274-291, `ptr =
tempNode.direct`, `bound = POINTERS_PER_INODE`) and
`while (i - POINTERS_PER_INODE < POINTERS_PER_BLOCK)` (lines 300-317, `ptr =
tempBlock.pointers`, `bound = POINTERS_PER_BLOCK`).  The first argument counts
the iterations left, so the pointer read is `ptr[bound - (k + 1)]`. -/
def read_blocks (ptr : Nat → Int) (bound : Nat) (size length offset : Int) :
    Nat → Int → List Nat → FS ReadState
  | 0, bytesRead, data => pure ⟨false, bytesRead, data⟩
  | k + 1, bytesRead, data => do
    let block ← disk_read (ptr (bound - (k + 1)))
    let r := copy_bytes block size length offset DISK_BLOCK_SIZE bytesRead data
    if r.returned then pure r
    else read_blocks ptr bound size length offset k r.bytesRead r.data

/-- The function `tfs_read` (lines 263-320).  `data` is the text the
destination buffer holds on entry; the result is the returned count and the
text the buffer holds on return.  With `i = offset / DISK_BLOCK_SIZE < 0` the
first loop would read `tempNode.direct[i]` outside the array.  After the first
loop `i` is `max i POINTERS_PER_INODE`. -/
def tfs_read (inumber : Int) (data : List Nat) (length offset : Int) : FS (Int × List Nat) := do
  let i := Int.tdiv offset DISK_BLOCK_SIZE
  let block ← disk_read (Int.tdiv inumber INODES_PER_BLOCK + 1)
  let tempNode ← liftE (inode_at block (Int.tmod inumber INODES_PER_BLOCK))
  let data := strcpy data []
  if i < 0 then fault .out_of_bounds
  else do
    let r ← read_blocks tempNode.direct POINTERS_PER_INODE tempNode.size length offset
      (POINTERS_PER_INODE - i.toNat) 0 data
    if r.returned then pure (r.bytesRead, r.data)
    else if tempNode.indirect = 0 then pure (r.bytesRead, r.data)
    else do
      let block ← disk_read tempNode.indirect
      let tempBlock := block
      let r ← read_blocks (pointers tempBlock) POINTERS_PER_BLOCK tempNode.size length offset
        (POINTERS_PER_BLOCK - (i.toNat - POINTERS_PER_INODE)) r.bytesRead r.data
      pure (r.bytesRead, r.data)

/-! ## `tfs_debug` -/

/-- The `int` expression `1 << s` converted to `unsigned int` for the `&`
(for `s = 31` the compiler yields `INT_MIN`, that is the pattern `2 ^ 31`). -/
def shl1 (s : Nat) : Nat := 2 ^ s

/-- The loop of lines 81-85 and the inner loop of lines 92-96:
`for (i = lo; i < hi; i++) if (bitmap[i / BITS_PER_UINT] & (1 << (i % BITS_PER_UINT))) count++`.
The first argument counts the iterations left, so `i = hi - (k + 1)`. -/
def count_in_use (bitmap : Nat → Nat) (hi : Nat) : Nat → Int → Int
  | 0, count => count
  | k + 1, count =>
    let i := hi - (k + 1)
    if bitmap (i / BITS_PER_UINT) &&& shl1 (i % BITS_PER_UINT) ≠ 0 then
      count_in_use bitmap hi k (count + 1)
    else count_in_use bitmap hi k count

/-- The outer loop `for (i = 1; i <= NUM_INODES/INODES_PER_BLOCK; i++)` of lines
89-97 around the loop over
`j = INODES_PER_BLOCK * (i - 1) .. INODES_PER_BLOCK + INODES_PER_BLOCK * (i - 1) - 1`.
The first argument counts the iterations left, so
`i = NUM_INODES / INODES_PER_BLOCK - k`. -/
def count_inodes (sBlock : Block) : Nat → Int → Int
  | 0, ino_in_use => ino_in_use
  | k + 1, ino_in_use =>
    let i := NUM_INODES / INODES_PER_BLOCK - k
    count_inodes sBlock k
      (count_in_use (inode_in_use sBlock) (INODES_PER_BLOCK + INODES_PER_BLOCK * (i - 1))
        INODES_PER_BLOCK ino_in_use)

/-- The loops `for (k = 0; k < bound && ptr[k] != 0; k++) printf(" %d", ptr[k]);`
of lines 107-109, 125-127 and 135-137.  The first argument counts the
iterations left, so `k = bound - (r + 1)`. -/
def print_ptrs (ptr : Nat → Int) (bound : Nat) : Nat → FS Unit
  | 0 => pure ()
  | r + 1 =>
    if ptr (bound - (r + 1)) ≠ 0 then do
      printf " %d" [.int (ptr (bound - (r + 1)))]
      print_ptrs ptr bound r
    else pure ()

/-- The string `printf` reads for `%s` from `rootDir.dentry[j].fname`: the bytes
before the first zero.  Without a zero among the 24 bytes the read leaves the
array.  The first argument counts the bytes left, so `t = 24 - (r + 1)`. -/
def fname_string (b : Block) (j : Nat) : Nat → Except Fault (List Nat)
  | 0 => .error .out_of_bounds
  | r + 1 =>
    if dentry_fname b j (24 - (r + 1)) = 0 then .ok []
    else
      match fname_string b j r with
      | .error e => .error e
      | .ok s => .ok (dentry_fname b j (24 - (r + 1)) :: s)

/-- Lines 118-142 of `tfs_debug`: the report on entry `j` of a directory page. -/
def debug_entry (rootDir : Block) (j : Nat) : FS Unit :=
  if dentry_valid rootDir j ≠ 0 then do
    let s ← liftE (fname_string rootDir j 24)
    printf " %s inode %d:\n" [.str s, .int (dentry_inum rootDir j)]
    let n := Int.tmod (dentry_inum rootDir j) INODES_PER_BLOCK
    let block ← disk_read (Int.tdiv (dentry_inum rootDir j) INODES_PER_BLOCK + 1)
    let node ← liftE (inode_at block n)
    printf "      size: %d bytes\n" [.int node.size]
    printf "      direct blocks:" []
    print_ptrs node.direct POINTERS_PER_INODE POINTERS_PER_INODE
    printf "\n" []
    if node.indirect ≠ 0 then do
      printf "      indirect block: %d\n" [.int node.indirect]
      let block ← disk_read node.indirect
      printf "      indirect data blocks:" []
      print_ptrs (pointers block) POINTERS_PER_BLOCK POINTERS_PER_BLOCK
      printf "\n" []
    else pure ()
  else pure ()

/-- The loop `for (j = 0; j < NUM_DENTRIES_PER_BLOCK; j++)` of lines 117-143.
The argument counts the iterations left. -/
def debug_entries (rootDir : Block) : Nat → FS Unit
  | 0 => pure ()
  | r + 1 => do
    debug_entry rootDir (NUM_DENTRIES_PER_BLOCK - (r + 1))
    debug_entries rootDir r

/-- The loop `for (i = 0; i < POINTERS_PER_INODE && rNode.direct[i] != 0; i++)`
of lines 113-144.  The argument counts the iterations left. -/
def debug_dirs (rNode : tfs_inode) : Nat → FS Unit
  | 0 => pure ()
  | r + 1 =>
    if rNode.direct (POINTERS_PER_INODE - (r + 1)) ≠ 0 then do
      let block ← disk_read (rNode.direct (POINTERS_PER_INODE - (r + 1)))
      let rootDir := block
      debug_entries rootDir NUM_DENTRIES_PER_BLOCK
      debug_dirs rNode r
    else pure ()

/-- Lines 73-79 of `tfs_debug`: the signature check. -/
def debug_signature (block : Block) : FS Unit :=
  if signature block = TFS_MAGIC then printf "      signature is valid\n" []
  else printf "      signature is invalid\n" []

/-- Lines 100-144 of `tfs_debug`: the report on the root inode and on the
root directory. -/
def debug_root (sBlock : Block) : FS Unit := do
  let block ← disk_read (Int.tdiv (root_inode sBlock) INODES_PER_BLOCK + 1)
  let rNode ← liftE (inode_at block (root_inode sBlock))
  printf " root inode %d:\n" [.int (root_inode sBlock)]
  printf "      size: %d bytes\n" [.int rNode.size]
  printf "      direct blocks:" []
  print_ptrs rNode.direct POINTERS_PER_INODE POINTERS_PER_INODE
  printf "\n" []
  debug_dirs rNode POINTERS_PER_INODE

/-- The function `tfs_debug` (lines 58-145). -/
def tfs_debug : FS Unit := do
  let block ← disk_read 0
  let sBlock := block
  printf " superblock:\n" []
  debug_signature block
  let b_in_use := count_in_use (block_in_use block) NUM_BLOCKS NUM_BLOCKS 0
  printf "      %d blocks in use \n" [.int b_in_use]
  let ino_in_use := count_inodes sBlock (NUM_INODES / INODES_PER_BLOCK) 0
  printf "      %d inodes in use\n" [.int ino_in_use]
  debug_root sBlock

/-! ## Notions the properties are stated with -/

/-- The name stored in entry `j` of a directory page: the bytes of `fname`
before its first zero; `none` when `fname` holds no zero. -/
def entry_name (b : Block) (j : Nat) : Option (List Nat) :=
  match fname_string b j 24 with
  | .ok s => some s
  | .error _ => none

/-- The test of line 164 (227, 252) succeeds at entry `j` of `b`. -/
def passes (filename : List Nat) (b : Block) (j : Nat) : Prop :=
  dentry_valid b j ≠ 0 ∧ strcmp b j filename 0 = .ok 0

/-- The test of line 164 (227, 252) is evaluated at entry `j` of `b` and fails. -/
def fails (filename : List Nat) (b : Block) (j : Nat) : Prop :=
  dentry_valid b j = 0 ∨ ∃ c, c ≠ 0 ∧ strcmp b j filename 0 = .ok c

/-- Pointer `i` of `rNode` names a block the device can read, and is not the
zero that ends the directory scan. -/
def dir_ptr_ok (rNode : tfs_inode) (i : Nat) : Prop :=
  rNode.direct i ≠ 0 ∧ 0 ≤ rNode.direct i ∧ rNode.direct i < 2048

instance (rNode : tfs_inode) (i : Nat) : Decidable (dir_ptr_ok rNode i) := by
  unfold dir_ptr_ok; infer_instance


/-- The root inode number is a subscript inside `block.inode[INODES_PER_BLOCK]`,
so that `block.inode[sBlock.root_inode]` is a record of the block read. -/
def root_ok (d : Disk) : Prop :=
  0 ≤ root_inode (d 0) ∧ root_inode (d 0) < 128

instance (d : Disk) : Decidable (root_ok d) := by
  unfold root_ok; infer_instance

/-- The root inode record of an image with `root_ok`: the root inode number is
below 128, so its table block is block 1. -/
def root_node (d : Disk) : tfs_inode :=
  inode_record (d 1) (root_inode (d 0)).toNat

/-- The directory page named by direct pointer `i` of the root inode. -/
def dir_page (d : Disk) (i : Nat) : Block :=
  d ((root_node d).direct i).toNat

/-- Entry `j` of page `b` is valid and its name is `filename`. -/
def entry_is (filename : List Nat) (b : Block) (j : Nat) : Prop :=
  dentry_valid b j ≠ 0 ∧ entry_name b j = some filename

instance (filename : List Nat) (b : Block) (j : Nat) : Decidable (entry_is filename b j) := by
  unfold entry_is; infer_instance

/-- Position `(i, j)` is the first one, in scan order (root pointers `0, 1, ..`
up to the first zero, slots `0 .. 127` inside each page), that holds a valid
entry named `filename`. -/
def first_match (d : Disk) (filename : List Nat) (i j : Nat) : Prop :=
  root_ok d ∧ i < 5 ∧ j < 128 ∧
  (∀ i', i' < i + 1 → dir_ptr_ok (root_node d) i') ∧
  entry_is filename (dir_page d i) j ∧
  (∀ j', j' < j → ¬ entry_is filename (dir_page d i) j') ∧
  (∀ i', i' < i → ∀ j', j' < 128 → ¬ entry_is filename (dir_page d i') j')

instance (d : Disk) (filename : List Nat) (i j : Nat) : Decidable (first_match d filename i j) := by
  unfold first_match; infer_instance

/-- The root directory has `m` pages (root pointers `0 .. m - 1` are non-zero
and readable, and the scan ends at `m`), and none of their valid entries is
named `filename`. -/
def no_match (d : Disk) (filename : List Nat) (m : Nat) : Prop :=
  root_ok d ∧ (m = 5 ∨ (m < 5 ∧ (root_node d).direct m = 0)) ∧
  (∀ i', i' < m → dir_ptr_ok (root_node d) i') ∧
  (∀ i', i' < m → ∀ j', j' < 128 → ¬ entry_is filename (dir_page d i') j')

instance (d : Disk) (filename : List Nat) (m : Nat) : Decidable (no_match d filename m) := by
  unfold no_match; infer_instance

/-- Every valid entry of the first `m` directory pages has a terminated name. -/
def names_terminated (d : Disk) (m : Nat) : Prop :=
  ∀ i', i' < m → ∀ j', j' < 128 →
    dentry_valid (dir_page d i') j' ≠ 0 → entry_name (dir_page d i') j' ≠ none

/-! ## A concrete image

The scenario of the specification: root inode 1 with `direct[0] = 5`; block 5
holds one valid entry `a.txt` with inode number 2; inode 2 has size 10 and
`direct = [10, 0, 0, 0, 0]`; block 10 holds the text `0123456789`. -/

def exSuper : Block := fun i =>
  if i = 0 then 0x345f2022 else if i = 1 then 2048 else if i = 2 then 512
  else if i = 3 then 1 else if i = 4 then 1087 else if i = 68 then 6 else 0

def exTable : Block := fun i =>
  if i = 8 then 2 else if i = 9 then 4096 else if i = 10 then 5
  else if i = 16 then 1 else if i = 17 then 10 else if i = 18 then 10 else 0

def exDir : Block := fun i =>
  if i = 0 then 1 else if i = 1 then 97 + 46 * 256 + 116 * 65536 + 120 * 16777216
  else if i = 2 then 116 else if i = 7 then 2 else 0

def exData : Block := fun i =>
  if i = 0 then 48 + 49 * 256 + 50 * 65536 + 51 * 16777216
  else if i = 1 then 52 + 53 * 256 + 54 * 65536 + 55 * 16777216
  else if i = 2 then 56 + 57 * 256 else 0

def exDisk : Disk := fun n =>
  if n = 0 then exSuper else if n = 1 then exTable else if n = 5 then exDir
  else if n = 10 then exData else fun _ => 0

def exWorld : World := { disk := exDisk, out := [] }

/-- The string `a.txt`. -/
def a_txt : List Nat := [97, 46, 116, 120, 116]

/-- The string `b.txt`. -/
def b_txt : List Nat := [98, 46, 116, 120, 116]

/-- The directory page of the scenario with a second valid entry `a.txt`, in
slot 3 and with inode number 7, after the first. -/
def exDirDup : Block := fun i =>
  if i = 24 then 1 else if i = 25 then 97 + 46 * 256 + 116 * 65536 + 120 * 16777216
  else if i = 26 then 116 else if i = 31 then 7 else exDir i

def exWorldDup : World :=
  { disk := fun n => if n = 5 then exDirDup else exDisk n, out := [] }

/-- The table block of the scenario image with inode 2 turned into an empty
file: size 0 and no pointer. -/
def exTableEmpty : Block := fun i =>
  if i = 17 then 0 else if i = 18 then 0 else exTable i

/-- The scenario image with `a.txt` an empty file. -/
def exWorldEmpty : World :=
  { disk := fun n => if n = 1 then exTableEmpty else exDisk n, out := [] }

/-- A superblock for a file with five direct blocks 10..14, indirect block 20
and two more blocks 21, 22: bits 0..5, 10..14 and 20..22 of the block bitmap
are set. -/
def exSuperInd : Block := fun i =>
  if i = 4 then 7371839 else exSuper i

/-- The table block with inode 2 of size `7 * 4096`, direct pointers 10..14
and indirect pointer 20. -/
def exTableInd : Block := fun i =>
  if i = 17 then 28672 else if i = 18 then 10 else if i = 19 then 11
  else if i = 20 then 12 else if i = 21 then 13 else if i = 22 then 14
  else if i = 23 then 20 else exTable i

/-- The indirect block: pointers 21 and 22, then zeros. -/
def exIndirect : Block := fun i =>
  if i = 0 then 21 else if i = 1 then 22 else 0

/-- The scenario image with `a.txt` grown to seven blocks. -/
def exWorldInd : World :=
  { disk := fun n =>
      if n = 0 then exSuperInd else if n = 1 then exTableInd
      else if n = 20 then exIndirect else exDisk n,
    out := [] }

/-- An operation that writes no block and only appends to the output. -/
def quiet {α : Type} (m : FS α) : Prop :=
  ∀ w, (m w).2.disk = w.disk ∧ ∃ l, (m w).2.out = w.out ++ l

/-- The lines `tfs_debug` prints when run on image `d`, in order. -/
def debug_lines (d : Disk) : List (String × List PArg) :=
  (tfs_debug ⟨d, []⟩).2.out

/-- The line of `tfs_debug` that reports `c` blocks in use. -/
def blocks_line (c : Int) : String × List PArg :=
  ("      %d blocks in use \n", [.int c])

/-- The line of `tfs_debug` that reports `c` inodes in use. -/
def inodes_line (c : Int) : String × List PArg :=
  ("      %d inodes in use\n", [.int c])

/-- The line of `tfs_debug` that reports the signature check. -/
def signature_line (d : Disk) : String × List PArg :=
  if signature (d 0) = TFS_MAGIC then ("      signature is valid\n", [])
  else ("      signature is invalid\n", [])


/-! ## Notions for the allocation bitmaps -/

/-- Bit `p` of the block bitmap of superblock `b`: block `p` is in use. -/
def block_bit (b : Block) (p : Nat) : Bool :=
  (block_in_use b (p / 32)).testBit (p % 32)

/-- Bit `n` of the inode bitmap of superblock `b`: inode `n` is in use. -/
def inode_bit (b : Block) (n : Nat) : Bool :=
  (inode_in_use b (n / 32)).testBit (n % 32)

/-- The number of set bits among the `NUM_BLOCKS` bits of the block bitmap. -/
def blocks_set (b : Block) : Nat :=
  ((List.range NUM_BLOCKS).filter (block_bit b)).length

/-- The number of set bits among the `NUM_INODES` bits of the inode bitmap. -/
def inodes_set (b : Block) : Nat :=
  ((List.range NUM_INODES).filter (inode_bit b)).length

/-- The pointer array `ptr` of `bound` slots holds `N` non-zero pointers before
its first zero (or its end), each the number of a block of the device. -/
def ptrs_end (ptr : Nat → Int) (bound N : Nat) : Prop :=
  (∀ k, k < N → ptr k ≠ 0 ∧ 0 ≤ ptr k ∧ ptr k < 2048) ∧
  (N = bound ∨ (N < bound ∧ ptr N = 0))

instance (ptr : Nat → Int) (bound N : Nat) : Decidable (ptrs_end ptr bound N) := by
  unfold ptrs_end; infer_instance

/-- The block numbers in the first `N` slots of `ptr`. -/
def ptr_list (ptr : Nat → Int) (N : Nat) : List Nat :=
  (List.range N).map (fun k => (ptr k).toNat)

/-- The inode record of the file named by entry `j` of directory page `i`: record
`inum % INODES_PER_BLOCK` of block `inum / INODES_PER_BLOCK + 1`. -/
def file_node (d : Disk) (i j : Nat) : tfs_inode :=
  inode_record (d (Int.tdiv (dentry_inum (dir_page d i) j) 128 + 1).toNat)
    (Int.tmod (dentry_inum (dir_page d i) j) 128).toNat

/-- The inode number in entry `j` of directory page `i` yields a record
subscript inside the table block and a block index inside the device. -/
def inum_readable (d : Disk) (i j : Nat) : Prop :=
  0 ≤ Int.tmod (dentry_inum (dir_page d i) j) 128 ∧
  0 ≤ Int.tdiv (dentry_inum (dir_page d i) j) 128 + 1 ∧
  Int.tdiv (dentry_inum (dir_page d i) j) 128 + 1 < 2048

instance (d : Disk) (i j : Nat) : Decidable (inum_readable d i j) := by
  unfold inum_readable; infer_instance

/-- The superblock after `block_in_use[q / 32] &= ~(1 << (q % 32))`. -/
def clr_block (b : Block) (q : Nat) : Block :=
  Function.update b (4 + q / 32) (block_in_use b (q / 32) &&& not_shl1 (q % 32))

/-- The superblock after `inode_in_use[q / 32] &= ~(1 << (q % 32))`. -/
def clr_inode (b : Block) (q : Nat) : Block :=
  Function.update b (68 + q / 32) (inode_in_use b (q / 32) &&& not_shl1 (q % 32))

/-- The superblock after the bits of the listed blocks are cleared in turn. -/
def clear_list (b : Block) : List Nat → Block
  | [] => b
  | q :: qs => clear_list (clr_block b q) qs


/-- The number of pointers the loop over the indirect block counts: none when
the inode has no indirect block. -/
def ind_count (node : tfs_inode) (M : Nat) : Nat :=
  if node.indirect = 0 then 0 else M

/-- The blocks whose bitmap bits `tfs_delete` clears for a file with `N` direct
pointers and, when it has an indirect block, `M` pointers in it: the direct
blocks, the blocks listed in the indirect block, the indirect block itself. -/
def freed_blocks (d : Disk) (node : tfs_inode) (N M : Nat) : List Nat :=
  ptr_list node.direct N ++
    (if node.indirect = 0 then []
     else ptr_list (pointers (d node.indirect.toNat)) M ++ [node.indirect.toNat])

/-- The indirect part of an inode is well-formed: no indirect block, or an
indirect block inside the device that lists `M` non-zero pointers before its
first zero, each inside the device. -/
def indirect_ok (d : Disk) (node : tfs_inode) (M : Nat) : Prop :=
  node.indirect = 0 ∨
  (0 ≤ node.indirect ∧ node.indirect < 2048 ∧
    ptrs_end (pointers (d node.indirect.toNat)) 1024 M)

instance (d : Disk) (node : tfs_inode) (M : Nat) : Decidable (indirect_ok d node M) := by
  unfold indirect_ok; infer_instance

/-- The superblock once the bits of the freed blocks are cleared, for the file
named by entry `j` of directory page `i`. -/
def sb_after_blocks (d : Disk) (i j N M : Nat) : Block :=
  clear_list (d 0) (freed_blocks d (file_node d i j) N M)

/-- The image a deletion that frees something leaves: the superblock with the
bits of the freed blocks and of the inode cleared, and the directory page with
the `valid` word of entry `j` set to 0. -/
def disk_after_delete (d : Disk) (i j N M : Nat) : Disk :=
  Function.update
    (Function.update d 0
      (clr_inode (sb_after_blocks d i j N M) (dentry_inum (dir_page d i) j).toNat))
    ((root_node d).direct i).toNat
    (Function.update (dir_page d i) (8 * j) 0)

/-! ## Well-formed images -/

/-- Every pointer slot of the inode record `node` holds the number of a block
of the device (0 for an unused slot), and so does every slot of its indirect
block when it has one. -/
def pointers_in_range (d : Disk) (node : tfs_inode) : Prop :=
  (∀ k, k < 5 → 0 ≤ node.direct k ∧ node.direct k < 2048) ∧
  0 ≤ node.indirect ∧ node.indirect < 2048 ∧
  (node.indirect ≠ 0 →
    ∀ k, k < 1024 → 0 ≤ pointers (d node.indirect.toNat) k ∧
      pointers (d node.indirect.toNat) k < 2048)

instance (d : Disk) (node : tfs_inode) : Decidable (pointers_in_range d node) := by
  unfold pointers_in_range; infer_instance

/-- Entry `j` of directory page `i`, when valid, has a terminated name, an
inode number in `[0, NUM_INODES)` and an inode whose pointers are in range. -/
def entry_ok (d : Disk) (i j : Nat) : Prop :=
  dentry_valid (dir_page d i) j ≠ 0 →
    entry_name (dir_page d i) j ≠ none ∧
    0 ≤ dentry_inum (dir_page d i) j ∧ dentry_inum (dir_page d i) j < 512 ∧
    pointers_in_range d (file_node d i j)

instance (d : Disk) (i j : Nat) : Decidable (entry_ok d i j) := by
  unfold entry_ok; infer_instance

/-- No valid entry of the first `m` directory pages other than the one at
`(i1, j1)` has the name of the entry at `(i1, j1)`. -/
def name_unique (d : Disk) (m i1 j1 : Nat) : Prop :=
  ∀ i2, i2 < m → ∀ j2, j2 < 128 →
    (dentry_valid (dir_page d i2) j2 ≠ 0 ∧ (i1 ≠ i2 ∨ j1 ≠ j2)) →
    entry_name (dir_page d i1) j1 ≠ entry_name (dir_page d i2) j2

instance (d : Disk) (m i1 j1 : Nat) : Decidable (name_unique d m i1 j1) := by
  unfold name_unique; infer_instance

/-- A well-formed image with `m` directory pages: the root inode number is a
subscript of the first table block; root pointers `0 .. m - 1` are non-zero
block numbers of the device and the scan ends at `m`; every valid entry has a
terminated name, an inode number in `[0, NUM_INODES)` and an inode whose
pointers are in range; no two valid entries have the same name. -/
def well_formed (d : Disk) (m : Nat) : Prop :=
  root_ok d ∧ (m = 5 ∨ (m < 5 ∧ (root_node d).direct m = 0)) ∧
  (∀ i', i' < m → dir_ptr_ok (root_node d) i') ∧
  (∀ i', i' < m → ∀ j', j' < 128 → entry_ok d i' j') ∧
  (∀ i1, i1 < m → ∀ j1, j1 < 128 → dentry_valid (dir_page d i1) j1 ≠ 0 →
    name_unique d m i1 j1)

instance (d : Disk) (m : Nat) : Decidable (well_formed d m) := by
  unfold well_formed; infer_instance

/-- The inode record that `tfs_read` loads for `inumber`: record
`inumber % INODES_PER_BLOCK` of block `inumber / INODES_PER_BLOCK + 1`. -/
def inode_of (d : Disk) (inumber : Int) : tfs_inode :=
  inode_record (d (Int.tdiv inumber 128 + 1).toNat) (Int.tmod inumber 128).toNat

/-- The inode number yields a record subscript inside the table block and a
block index inside the device. -/
def inumber_readable (inumber : Int) : Prop :=
  0 ≤ Int.tmod inumber 128 ∧ 0 ≤ Int.tdiv inumber 128 + 1 ∧ Int.tdiv inumber 128 + 1 < 2048

instance (inumber : Int) : Decidable (inumber_readable inumber) := by
  unfold inumber_readable; infer_instance

/-- The number of bytes the pointers of an inode can address: 5 blocks without
an indirect block, 5 + 1024 blocks with one. -/
def capacity (node : tfs_inode) : Int :=
  if node.indirect = 0 then (POINTERS_PER_INODE : Int) * DISK_BLOCK_SIZE
  else ((POINTERS_PER_INODE : Int) + POINTERS_PER_BLOCK) * DISK_BLOCK_SIZE

instance (node : tfs_inode) (s : Int) : Decidable (s ≤ capacity node) := by
  unfold capacity; infer_instance

/-- The data block of the scenario with byte 4 replaced by a zero byte: the
file content is `0123`, a zero byte, `56789`. -/
def exDataZero : Block := fun i =>
  if i = 1 then 53 * 256 + 54 * 65536 + 55 * 16777216 else exData i

/-- The scenario image with that data block. -/
def exWorldZero : World :=
  { disk := fun n => if n = 10 then exDataZero else exDisk n, out := [] }

/-! ## More concrete images -/

/-- The superblock of the scenario with bit 20 of the block bitmap set as
well (bits 0..5, 10 and 20). -/
def exSuperIndOnly : Block := fun i =>
  if i = 4 then 1087 + 1048576 else exSuper i

/-- The table block with inode 2 holding no direct pointer and indirect
pointer 20. -/
def exTableIndOnly : Block := fun i =>
  if i = 17 then 0 else if i = 18 then 0 else if i = 23 then 20 else exTable i

/-- The scenario image with `a.txt` a file that owns only an indirect block
(block 20) that lists no pointer: block 20 is all zero. -/
def exWorldIndOnly : World :=
  { disk := fun n =>
      if n = 0 then exSuperIndOnly else if n = 1 then exTableIndOnly else exDisk n,
    out := [] }

/-- A superblock whose root inode number is 128; inode bits 2 and 128 set. -/
def exSuperRoot128 : Block := fun i =>
  if i = 3 then 128 else if i = 68 then 4 else if i = 72 then 1 else exSuper i

/-- Table block 2 with its record 0 (inode 128) the root directory: type 2,
size 4096, `direct[0] = 5`. -/
def exTable2 : Block := fun i =>
  if i = 0 then 2 else if i = 1 then 4096 else if i = 2 then 5 else 0

/-- The scenario image with the root directory moved to inode 128, that is
record `128 % 128 = 0` of table block `128 / 128 + 1 = 2`. -/
def exWorldRoot128 : World :=
  { disk := fun n =>
      if n = 0 then exSuperRoot128 else if n = 2 then exTable2 else exDisk n,
    out := [] }

/-! ## Images with in-range pointers -/

/-- An image with in-range pointers and `m` directory pages: the root inode
number is a subscript of the first table block; root pointers `0 .. m - 1` are
non-zero block numbers of the device and the scan ends at `m`; every valid
entry has a terminated name, an inode number in `[0, NUM_INODES)` and an inode
whose pointers are in range (`well_formed` without the uniqueness of names). -/
def in_range (d : Disk) (m : Nat) : Prop :=
  root_ok d ∧ (m = 5 ∨ (m < 5 ∧ (root_node d).direct m = 0)) ∧
  (∀ i', i' < m → dir_ptr_ok (root_node d) i') ∧
  (∀ i', i' < m → ∀ j', j' < 128 → entry_ok d i' j')

instance (d : Disk) (m : Nat) : Decidable (in_range d m) := by
  unfold in_range; infer_instance

/-! ## Notions for the content `tfs_read` copies -/

/-- What `strncat` keeps of a run of bytes: the non-zero ones, in order. -/
def text_of (bytes : List Nat) : List Nat :=
  bytes.filter (fun c => c ≠ 0)

/-- The block named by pointer slot `k` of a file: slot `k < 5` is
`direct[k]`, slot `5 + q` is pointer `q` of the indirect block. -/
def file_block (d : Disk) (node : tfs_inode) (k : Nat) : Block :=
  if k < 5 then d (node.direct k).toNat
  else d (pointers (d node.indirect.toNat) (k - 5)).toNat

/-- Byte `t` of the content of a file: the concatenation of the blocks named
by its direct pointers followed by the blocks named in its indirect block. -/
def file_byte (d : Disk) (node : tfs_inode) (t : Nat) : Nat :=
  block_data (file_block d node (t / 4096)) (t % 4096)

/-- The `cnt` bytes of the file from byte 0 of pointer slot `i` on. -/
def scanned (d : Disk) (node : tfs_inode) (i cnt : Nat) : List Nat :=
  (List.range cnt).map (fun t => file_byte d node (4096 * i + t))

/-- The `cnt` bytes of the blocks named by `ptr[s]`, `ptr[s + 1]`, ... -/
def stream (d : Disk) (ptr : Nat → Int) (s cnt : Nat) : List Nat :=
  (List.range cnt).map (fun t => block_data (d (ptr (s + t / 4096)).toNat) (t % 4096))

/-- The count at which the two tests of the byte loop of `tfs_read` stop a
read that starts with `bytesRead = 0`: the bytes up to end of file or
`length`, whichever comes first, when `offset <= size`; `length` when
`offset > size`, where `bytesRead + offset == size` never holds. -/
def read_stop (size length offset : Int) : Int :=
  if offset ≤ size then min length (size - offset) else length

/-- The number of pointer slots of an inode: 5, or 5 + 1024 with an indirect
block. -/
def slots (node : tfs_inode) : Int :=
  if node.indirect = 0 then POINTERS_PER_INODE else POINTERS_PER_INODE + POINTERS_PER_BLOCK

/-- The bytes in the pointer slots from slot `offset / DISK_BLOCK_SIZE` on. -/
def read_cap (node : tfs_inode) (offset : Int) : Int :=
  max 0 (slots node - offset / DISK_BLOCK_SIZE) * DISK_BLOCK_SIZE

/-- The value `tfs_read` returns, from the size of the inode, whether it has
an indirect block, `length` and `offset`. -/
def read_result (node : tfs_inode) (length offset : Int) : Int :=
  min (read_stop node.size length offset) (read_cap node offset)

/-- The value `tfs_read` returns as a function of four numbers only: the
stored size, whether the indirect pointer is zero, `length` and `offset`.
With `i = offset / BLOCK_SIZE`, `K = 5` without indirect block and
`K = 5 + 1024` with one, and `cap = max(0, K - i) * BLOCK_SIZE`, it is
`min(length, size - offset, cap)` when `offset <= size` and `min(length, cap)`
when `offset > size`. -/
def read_value (size : Int) (indirect_zero : Bool) (length offset : Int) : Int :=
  if offset ≤ size then
    min length (min (size - offset)
      (max 0 ((if indirect_zero then 5 else 5 + 1024) - offset / 4096) * 4096))
  else
    min length (max 0 ((if indirect_zero then 5 else 5 + 1024) - offset / 4096) * 4096)

/-- Every value the operation returns satisfies `P`. -/
def returns_only {α : Type} (m : FS α) (P : α → Prop) : Prop :=
  ∀ w r w', m w = (.ok r, w') → P r

/-! ## Images that differ behind the root inode's indirect pointer -/

/-- Image `d'` agrees with `d` on everything the directory scan and the
handling of a found file read on `d`: block 0; the root record up to its
direct pointers (words `8r .. 8r + 6` of block 1); the `m` directory pages;
for every valid entry, the inode record it names and, when that inode has one,
its indirect block. -/
def same_footprint (d d' : Disk) (m : Nat) : Prop :=
  d' 0 = d 0 ∧
  (∀ x, 8 * (root_inode (d 0)).toNat ≤ x → x ≤ 8 * (root_inode (d 0)).toNat + 6 →
    d' 1 x = d 1 x) ∧
  (∀ i', i' < m → d' ((root_node d).direct i').toNat = d ((root_node d).direct i').toNat) ∧
  (∀ i', i' < m → ∀ j', j' < 128 → dentry_valid (dir_page d i') j' ≠ 0 →
    (∀ x, 8 * (Int.tmod (dentry_inum (dir_page d i') j') 128).toNat ≤ x →
        x ≤ 8 * (Int.tmod (dentry_inum (dir_page d i') j') 128).toNat + 7 →
        d' (Int.tdiv (dentry_inum (dir_page d i') j') 128 + 1).toNat x =
          d (Int.tdiv (dentry_inum (dir_page d i') j') 128 + 1).toNat x) ∧
    ((file_node d i' j').indirect ≠ 0 →
      d' (file_node d i' j').indirect.toNat = d (file_node d i' j').indirect.toNat))

/-- Image `d'` differs from `d` only in the root inode's indirect pointer
(word `8r + 7` of block 1) and in blocks of the set `S`, where `S` holds only
blocks that nothing but the root inode's indirect pointer leads to: not
block 0, not the root's table block, not a directory page, not the table block
or the indirect block of a file in the directory.  The root record is not
overlaid by a directory page, by the inode of a file or by the indirect block
of a file. -/
def differ_behind_root_indirect (d d' : Disk) (m : Nat) (S : Nat → Prop) : Prop :=
  (∀ blk x, d' blk x = d blk x ∨ (blk = 1 ∧ x = 8 * (root_inode (d 0)).toNat + 7) ∨ S blk) ∧
  ¬ S 0 ∧ ¬ S 1 ∧
  (∀ i', i' < m → ¬ S ((root_node d).direct i').toNat ∧ ((root_node d).direct i').toNat ≠ 1) ∧
  (∀ i', i' < m → ∀ j', j' < 128 → dentry_valid (dir_page d i') j' ≠ 0 →
    ¬ S (Int.tdiv (dentry_inum (dir_page d i') j') 128 + 1).toNat ∧
    ((Int.tdiv (dentry_inum (dir_page d i') j') 128 + 1).toNat = 1 →
      (Int.tmod (dentry_inum (dir_page d i') j') 128).toNat ≠ (root_inode (d 0)).toNat) ∧
    ((file_node d i' j').indirect ≠ 0 →
      ¬ S (file_node d i' j').indirect.toNat ∧ (file_node d i' j').indirect.toNat ≠ 1))

/-- The table block of the scenario with the root inode's indirect pointer
(word 15) set to 30. -/
def exTableRootInd : Block := fun i =>
  if i = 15 then 30 else exTable i

/-- A pointer block that lists block 31. -/
def exRootIndirect : Block := fun i =>
  if i = 0 then 31 else 0

/-- A directory page with one valid entry `b.txt`, inode number 3. -/
def exDirBehind : Block := fun i =>
  if i = 0 then 1 else if i = 1 then 98 + 46 * 256 + 116 * 65536 + 120 * 16777216
  else if i = 2 then 116 else if i = 7 then 3 else 0

/-- The scenario image with a root indirect block (block 30) that lists a
further directory page (block 31) holding the valid entry `b.txt`. -/
def exWorldBehind : World :=
  { disk := fun n =>
      if n = 1 then exTableRootInd else if n = 30 then exRootIndirect
      else if n = 31 then exDirBehind else exDisk n,
    out := [] }
/-! ## Running the operations: basic steps -/

theorem pure_run {α : Type} (a : α) (w : World) : (pure a : FS α) w = (.ok a, w) := rfl

theorem bind_run {α β : Type} (m : FS α) (f : α → FS β) (w : World) :
    (m >>= f) w = match m w with
      | (.ok a, w') => f a w'
      | (.error e, w') => (.error e, w') := rfl

theorem bind_ok {α β : Type} (m : FS α) (f : α → FS β) (w w' : World) (a : α)
    (h : m w = (.ok a, w')) : (m >>= f) w = f a w' := by
  rw [bind_run, h]

theorem liftE_ok_bind {α β : Type} (a : α) (f : α → FS β) (w : World) :
    (liftE (.ok a) >>= f) w = f a w := rfl

theorem disk_read_ok (i : Int) (w : World) (h0 : 0 ≤ i) (h1 : i < 2048) :
    disk_read i w = (.ok (w.disk i.toNat), w) := by
  simp [disk_read, h0, h1]

theorem inode_at_ok (b : Block) (n : Int) (h0 : 0 ≤ n) (h1 : n < 128) :
    inode_at b n = .ok (inode_record b n.toNat) := by
  simp [inode_at, h0, h1]

theorem load_root_ok (w : World) (h0 : 0 ≤ root_inode (w.disk 0))
    (h1 : root_inode (w.disk 0) < 128) :
    load_root w = (.ok (inode_record (w.disk 1) (root_inode (w.disk 0)).toNat), w) := by
  have hdiv : Int.tdiv (root_inode (w.disk 0)) 128 = 0 := by
    rw [Int.tdiv_eq_ediv h0 (by norm_num)]
    omega
  unfold load_root
  rw [bind_ok _ _ w w _ (disk_read_ok 0 w (by norm_num) (by norm_num))]
  simp only [INODES_PER_BLOCK, Nat.cast_ofNat, Int.toNat_zero]
  rw [hdiv, bind_ok _ _ w w _ (disk_read_ok _ w (by norm_num) (by norm_num))]
  simp [liftE, inode_at_ok _ _ h0 h1]

/-! ## `strcmp` and the stored name -/

theorem fname_string_succ (b : Block) (j r : Nat) (s : List Nat) :
    fname_string b j (r + 1) = .ok s ↔
      (dentry_fname b j (24 - (r + 1)) = 0 ∧ s = []) ∨
      (dentry_fname b j (24 - (r + 1)) ≠ 0 ∧
        ∃ s', fname_string b j r = .ok s' ∧ s = dentry_fname b j (24 - (r + 1)) :: s') := by
  rw [fname_string]
  by_cases hz : dentry_fname b j (24 - (r + 1)) = 0
  · rw [if_pos hz]
    constructor
    · intro h; left; exact ⟨hz, by cases h; rfl⟩
    · rintro (⟨_, rfl⟩ | ⟨h, _⟩)
      · rfl
      · exact absurd hz h
  · rw [if_neg hz]
    cases hrec : fname_string b j r with
    | error e =>
      constructor
      · intro h; cases h
      · rintro (⟨h, _⟩ | ⟨_, s', h, _⟩)
        · exact absurd h hz
        · cases h
    | ok s' =>
      constructor
      · intro h; right; exact ⟨hz, s', rfl, by cases h; rfl⟩
      · rintro (⟨h, _⟩ | ⟨_, s'', h, rfl⟩)
        · exact absurd h hz
        · cases h; rfl

theorem fname_string_zero_free (b : Block) (j : Nat) :
    ∀ (r : Nat) (s : List Nat), fname_string b j r = .ok s → 0 ∉ s ∧ s.length < r := by
  intro r
  induction r with
  | zero => intro s h; simp [fname_string] at h
  | succ r ih =>
    intro s h
    rcases (fname_string_succ b j r s).mp h with ⟨_, rfl⟩ | ⟨hne, s', hrec, rfl⟩
    · simp
    · obtain ⟨h0, hl⟩ := ih s' hrec
      refine ⟨?_, by simp; omega⟩
      intro hmem
      rcases List.mem_cons.mp hmem with h | h
      · exact hne h.symm
      · exact h0 h

theorem strcmp_nil (b : Block) (j t : Nat) (ht : t < 24) :
    strcmp b j [] t = .ok (0 - (dentry_fname b j t : Int)) := by
  rw [strcmp, if_neg (by omega)]

theorem strcmp_cons_ne (b : Block) (j t c : Nat) (rest : List Nat) (ht : t < 24)
    (hne : c ≠ dentry_fname b j t) :
    strcmp b j (c :: rest) t = .ok ((c : Int) - (dentry_fname b j t : Int)) := by
  rw [strcmp, if_neg (by omega), if_pos hne]

theorem strcmp_cons_eq (b : Block) (j t c : Nat) (rest : List Nat) (ht : t < 24)
    (heq : c = dentry_fname b j t) (hc : c ≠ 0) :
    strcmp b j (c :: rest) t = strcmp b j rest (t + 1) := by
  rw [strcmp, if_neg (by omega), if_neg (by simpa using heq), if_neg hc]

/-- With a string short enough for the field, `strcmp` returns, and returns
zero exactly when the stored name is that string. -/
theorem strcmp_short (b : Block) (j : Nat) :
    ∀ (s : List Nat) (r : Nat), r ≤ 24 → 0 ∉ s → s.length < r →
      ∃ c, strcmp b j s (24 - r) = .ok c ∧ (c = 0 ↔ fname_string b j r = .ok s) := by
  intro s
  induction s with
  | nil =>
    intro r hr _ hl
    obtain ⟨r', rfl⟩ : ∃ r', r = r' + 1 := ⟨r - 1, by simp at hl; omega⟩
    refine ⟨_, strcmp_nil b j _ (by omega), ?_⟩
    rw [fname_string_succ]
    constructor
    · intro h; left; exact ⟨by omega, rfl⟩
    · rintro (⟨h, _⟩ | ⟨_, s', _, h⟩)
      · omega
      · cases h
  | cons c rest ih =>
    intro r hr h0 hl
    obtain ⟨r', rfl⟩ : ∃ r', r = r' + 1 := ⟨r - 1, by simp at hl; omega⟩
    have hc : c ≠ 0 := fun h => h0 (by simp [h])
    have hrest : 0 ∉ rest := fun h => h0 (List.mem_cons_of_mem _ h)
    have hl' : rest.length < r' := by simp at hl; omega
    by_cases hcf : c = dentry_fname b j (24 - (r' + 1))
    · rw [strcmp_cons_eq b j _ c rest (by omega) hcf hc]
      have ht : 24 - (r' + 1) + 1 = 24 - r' := by omega
      rw [ht]
      obtain ⟨c', hc', hiff⟩ := ih r' (by omega) hrest hl'
      refine ⟨c', hc', ?_⟩
      rw [hiff, fname_string_succ]
      constructor
      · intro h; right; exact ⟨by rw [← hcf]; exact hc, rest, h, by rw [← hcf]⟩
      · rintro (⟨_, h⟩ | ⟨_, s', h, h2⟩)
        · cases h
        · cases h2; exact h
    · refine ⟨_, strcmp_cons_ne b j _ c rest (by omega) hcf, ?_⟩
      rw [fname_string_succ]
      constructor
      · intro h; exfalso; apply hcf; omega
      · rintro (⟨_, h⟩ | ⟨_, s', _, h2⟩)
        · cases h
        · exfalso; apply hcf; cases h2; rfl

/-- Against a stored name that is terminated, `strcmp` returns whatever the
length of the string, and returns zero exactly when the two are equal. -/
theorem strcmp_terminated (b : Block) (j : Nat) :
    ∀ (s : List Nat) (r : Nat) (nm : List Nat), r ≤ 24 → 0 ∉ s → fname_string b j r = .ok nm →
      ∃ c, strcmp b j s (24 - r) = .ok c ∧ (c = 0 ↔ nm = s) := by
  intro s
  induction s with
  | nil =>
    intro r nm hr _ hnm
    cases r with
    | zero => simp [fname_string] at hnm
    | succ r' =>
      refine ⟨_, strcmp_nil b j _ (by omega), ?_⟩
      rcases (fname_string_succ b j r' nm).mp hnm with ⟨hz, rfl⟩ | ⟨hne, s', _, rfl⟩
      · constructor
        · intro _; rfl
        · intro _; omega
      · constructor
        · intro h; omega
        · intro h; cases h
  | cons c rest ih =>
    intro r nm hr h0 hnm
    cases r with
    | zero => simp [fname_string] at hnm
    | succ r' =>
      have hc : c ≠ 0 := fun h => h0 (by simp [h])
      have hrest : 0 ∉ rest := fun h => h0 (List.mem_cons_of_mem _ h)
      by_cases hcf : c = dentry_fname b j (24 - (r' + 1))
      · rw [strcmp_cons_eq b j _ c rest (by omega) hcf hc]
        have ht : 24 - (r' + 1) + 1 = 24 - r' := by omega
        rw [ht]
        rcases (fname_string_succ b j r' nm).mp hnm with ⟨hz, rfl⟩ | ⟨hne, s', hrec, rfl⟩
        · exact absurd (hcf.trans hz) hc
        · obtain ⟨c', hc', hiff⟩ := ih r' s' (by omega) hrest hrec
          refine ⟨c', hc', ?_⟩
          rw [hiff, ← hcf]
          simp
      · refine ⟨_, strcmp_cons_ne b j _ c rest (by omega) hcf, ?_⟩
        constructor
        · intro h; exfalso; apply hcf; omega
        · intro h
          exfalso
          subst h
          rcases (fname_string_succ b j r' _).mp hnm with ⟨_, h⟩ | ⟨_, s', _, h2⟩
          · cases h
          · apply hcf; cases h2; rfl

/-! ## The directory scan -/

theorem scan_entries_step_pass (filename : List Nat) (b : Block) (k : Nat)
    (h : passes filename b (128 - (k + 1))) :
    scan_entries filename b (k + 1) = .ok (some (128 - (k + 1))) := by
  rw [scan_entries]
  simp only [NUM_DENTRIES_PER_BLOCK]
  rw [if_pos h.1, h.2]
  simp

theorem scan_entries_step_fail (filename : List Nat) (b : Block) (k : Nat)
    (h : fails filename b (128 - (k + 1))) :
    scan_entries filename b (k + 1) = scan_entries filename b k := by
  rw [scan_entries]
  simp only [NUM_DENTRIES_PER_BLOCK]
  rcases h with h | ⟨c, hc, h⟩
  · rw [if_neg (not_not.mpr h)]
  · rw [h]
    simp [hc]

theorem scan_entries_found (filename : List Nat) (b : Block) (j : Nat) (hj : j < 128)
    (hp : passes filename b j) :
    ∀ k, k ≤ 128 → 128 - k ≤ j → (∀ j', 128 - k ≤ j' → j' < j → fails filename b j') →
      scan_entries filename b k = .ok (some j) := by
  intro k
  induction k with
  | zero => intro _ h; omega
  | succ k ih =>
    intro hk hle hf
    by_cases hcur : 128 - (k + 1) = j
    · rw [scan_entries_step_pass filename b k (by rw [hcur]; exact hp), hcur]
    · rw [scan_entries_step_fail filename b k (hf _ (le_refl _) (by omega))]
      exact ih (by omega) (by omega) (fun j' h1 h2 => hf j' (by omega) h2)

theorem scan_entries_none (filename : List Nat) (b : Block) :
    ∀ k, k ≤ 128 → (∀ j', 128 - k ≤ j' → j' < 128 → fails filename b j') →
      scan_entries filename b k = .ok none := by
  intro k
  induction k with
  | zero => intro _ _; rfl
  | succ k ih =>
    intro hk hf
    rw [scan_entries_step_fail filename b k (hf _ (le_refl _) (by omega))]
    exact ih (by omega) (fun j' h1 h2 => hf j' (by omega) h2)

theorem scan_dirs_step (filename : List Nat) (rNode : tfs_inode) (k : Nat) (w : World)
    (hp : dir_ptr_ok rNode (5 - (k + 1))) :
    scan_dirs filename rNode (k + 1) w =
      match scan_entries filename (w.disk (rNode.direct (5 - (k + 1))).toNat) 128 with
      | .ok (some j) => (.ok (some (5 - (k + 1), j, w.disk (rNode.direct (5 - (k + 1))).toNat)), w)
      | .ok none => scan_dirs filename rNode k w
      | .error e => (.error e, w) := by
  rw [scan_dirs]
  simp only [POINTERS_PER_INODE, NUM_DENTRIES_PER_BLOCK]
  rw [if_pos hp.1, bind_ok _ _ w w _ (disk_read_ok _ w hp.2.1 hp.2.2)]
  cases hs : scan_entries filename (w.disk (rNode.direct (5 - (k + 1))).toNat) 128 with
  | error e => simp [bind_run, liftE, hs]
  | ok o =>
    cases o with
    | none => simp [bind_run, liftE, hs]
    | some j => simp [bind_run, liftE, hs, pure_run]

theorem scan_dirs_found (filename : List Nat) (rNode : tfs_inode) (w : World) (i j : Nat)
    (hi : i < 5) (hj : j < 128)
    (hp : passes filename (w.disk (rNode.direct i).toNat) j)
    (hbefore : ∀ j', j' < j → fails filename (w.disk (rNode.direct i).toNat) j') :
    ∀ k, k ≤ 5 → 5 - k ≤ i → (∀ i', 5 - k ≤ i' → i' ≤ i → dir_ptr_ok rNode i') →
      (∀ i', 5 - k ≤ i' → i' < i → ∀ j', j' < 128 →
        fails filename (w.disk (rNode.direct i').toNat) j') →
      scan_dirs filename rNode k w = (.ok (some (i, j, w.disk (rNode.direct i).toNat)), w) := by
  intro k
  induction k with
  | zero => intro _ h; omega
  | succ k ih =>
    intro hk hle hptr hf
    rw [scan_dirs_step filename rNode k w (hptr _ (le_refl _) (by omega))]
    by_cases hcur : 5 - (k + 1) = i
    · rw [hcur, scan_entries_found filename _ j hj hp 128 (le_refl _) (by omega)
        (fun j' _ h2 => hbefore j' h2)]
    · rw [scan_entries_none filename _ 128 (le_refl _)
        (fun j' _ h2 => hf _ (le_refl _) (by omega) j' h2)]
      exact ih (by omega) (by omega) (fun i' h1 h2 => hptr i' (by omega) h2)
        (fun i' h1 h2 => hf i' (by omega) h2)

theorem scan_dirs_none (filename : List Nat) (rNode : tfs_inode) (w : World) (m : Nat)
    (hend : m = 5 ∨ rNode.direct m = 0) :
    ∀ k, k ≤ 5 → 5 - k ≤ m → (∀ i', 5 - k ≤ i' → i' < m → dir_ptr_ok rNode i') →
      (∀ i', 5 - k ≤ i' → i' < m → ∀ j', j' < 128 →
        fails filename (w.disk (rNode.direct i').toNat) j') →
      scan_dirs filename rNode k w = (.ok none, w) := by
  intro k
  induction k with
  | zero => intro _ _ _ _; rfl
  | succ k ih =>
    intro hk hle hptr hf
    by_cases hcur : 5 - (k + 1) = m
    · have hz : rNode.direct (5 - (k + 1)) = 0 := by
        rcases hend with h | h
        · omega
        · rw [hcur]; exact h
      rw [scan_dirs]
      simp only [POINTERS_PER_INODE]
      rw [if_neg (not_not.mpr hz)]
      rfl
    · rw [scan_dirs_step filename rNode k w (hptr _ (le_refl _) (by omega))]
      rw [scan_entries_none filename _ 128 (le_refl _)
        (fun j' _ h2 => hf _ (le_refl _) (by omega) j' h2)]
      exact ih (by omega) (by omega) (fun i' h1 h2 => hptr i' (by omega) h2)
        (fun i' h1 h2 => hf i' (by omega) h2)

/-! ## Lookup and size query -/

theorem passes_of_entry_is (filename : List Nat) (b : Block) (j : Nat)
    (h : entry_is filename b j) : passes filename b j := by
  refine ⟨h.1, ?_⟩
  have hn : fname_string b j 24 = .ok filename := by
    have h2 := h.2
    unfold entry_name at h2
    cases hs : fname_string b j 24 with
    | error e => rw [hs] at h2; cases h2
    | ok s => rw [hs] at h2; cases h2; rfl
  obtain ⟨h0, hl⟩ := fname_string_zero_free b j 24 filename hn
  obtain ⟨c, hc, hiff⟩ := strcmp_short b j filename 24 (le_refl _) h0 hl
  rw [hiff.mpr hn] at hc
  exact hc

theorem entry_is_fits (filename : List Nat) (b : Block) (j : Nat)
    (h : entry_is filename b j) : 0 ∉ filename ∧ filename.length < 24 := by
  have h2 := h.2
  unfold entry_name at h2
  cases hs : fname_string b j 24 with
  | error e => rw [hs] at h2; cases h2
  | ok s =>
    rw [hs] at h2
    cases h2
    exact fname_string_zero_free b j 24 filename hs

theorem fails_of_short (filename : List Nat) (b : Block) (j : Nat)
    (h0 : 0 ∉ filename) (hl : filename.length < 24) (h : ¬ entry_is filename b j) :
    fails filename b j := by
  by_cases hv : dentry_valid b j = 0
  · exact Or.inl hv
  · right
    obtain ⟨c, hc, hiff⟩ := strcmp_short b j filename 24 (le_refl _) h0 hl
    refine ⟨c, ?_, hc⟩
    intro hc0
    apply h
    refine ⟨hv, ?_⟩
    unfold entry_name
    rw [hiff.mp hc0]

theorem fails_of_terminated (filename : List Nat) (b : Block) (j : Nat)
    (h0 : 0 ∉ filename) (ht : dentry_valid b j ≠ 0 → entry_name b j ≠ none)
    (h : ¬ entry_is filename b j) : fails filename b j := by
  by_cases hv : dentry_valid b j = 0
  · exact Or.inl hv
  · right
    have hne := ht hv
    cases hs : fname_string b j 24 with
    | error e => exfalso; apply hne; unfold entry_name; rw [hs]
    | ok nm =>
      obtain ⟨c, hc, hiff⟩ := strcmp_terminated b j filename 24 nm (le_refl _) h0 hs
      refine ⟨c, ?_, hc⟩
      intro hc0
      apply h
      refine ⟨hv, ?_⟩
      unfold entry_name
      rw [hs, hiff.mp hc0]

/-- The scan of the three operations stops at the first match. -/
theorem scan_first_match (w : World) (filename : List Nat) (i j : Nat)
    (h : first_match w.disk filename i j) :
    scan_dirs filename (root_node w.disk) 5 w = (.ok (some (i, j, dir_page w.disk i)), w) := by
  obtain ⟨_, hi, hj, hptr, hm, hb, ha⟩ := h
  obtain ⟨h0, hl⟩ := entry_is_fits filename _ j hm
  exact scan_dirs_found filename (root_node w.disk) w i j hi hj
    (passes_of_entry_is filename _ j hm)
    (fun j' hj' => fails_of_short filename _ j' h0 hl (hb j' hj'))
    5 (le_refl _) (by omega) (fun i' _ h2 => hptr i' (by omega))
    (fun i' _ h2 j' hj' => fails_of_short filename _ j' h0 hl (ha i' h2 j' hj'))

/-- The scan of the three operations runs to its end when nothing matches. -/
theorem scan_no_match (w : World) (filename : List Nat) (m : Nat)
    (h0 : 0 ∉ filename) (hfit : filename.length < 24 ∨ names_terminated w.disk m)
    (h : no_match w.disk filename m) :
    scan_dirs filename (root_node w.disk) 5 w = (.ok none, w) := by
  obtain ⟨_, hend, hptr, hno⟩ := h
  have hm : m ≤ 5 := by rcases hend with h | h <;> omega
  refine scan_dirs_none filename (root_node w.disk) w m
    (hend.imp id (fun h => h.2)) 5 (le_refl _) (by omega) (fun i' _ h2 => hptr i' h2) ?_
  intro i' _ h2 j' hj'
  rcases hfit with hl | ht
  · exact fails_of_short filename _ j' h0 hl (hno i' h2 j' hj')
  · exact fails_of_terminated filename _ j' h0 (ht i' h2 j' hj') (hno i' h2 j' hj')

theorem load_root_run (w : World) (h : root_ok w.disk) :
    load_root w = (.ok (root_node w.disk), w) :=
  load_root_ok w h.1 h.2

theorem get_inumber_found (w : World) (filename : List Nat) (i j : Nat)
    (h : first_match w.disk filename i j) :
    tfs_get_inumber filename w = (.ok (dentry_inum (dir_page w.disk i) j), w) := by
  unfold tfs_get_inumber
  rw [bind_ok _ _ w w _ (load_root_run w h.1)]
  simp only [POINTERS_PER_INODE]
  rw [bind_ok _ _ w w _ (scan_first_match w filename i j h)]
  rfl

/-- C1: `tfs_get_inumber` returns the inode number stored in the first valid
entry whose name equals the filename, in the order of the root inode's direct
pointers (from 0, up to the first zero pointer or 5 of them) and of the slots
0..127 inside each page.  Nothing is assumed about the entries after that
first one, so a later entry of the same name never decides the result. -/
theorem C1_get_inumber_first_match (w : World) (filename : List Nat) (i j : Nat)
    (h : first_match w.disk filename i j) :
    tfs_get_inumber filename w = (.ok (dentry_inum (dir_page w.disk i) j), w) :=
  get_inumber_found w filename i j h

/-- C1 on the scenario image with a second entry `a.txt` (inode 7) in slot 3:
the lookup returns 2, the inode number of the entry in slot 0. -/
theorem C1_get_inumber_first_match_witness :
    entry_is a_txt (dir_page exWorldDup.disk 0) 3 ∧
    dentry_inum (dir_page exWorldDup.disk 0) 3 = 7 ∧
    dentry_inum (dir_page exWorldDup.disk 0) 0 = 2 ∧
    tfs_get_inumber a_txt exWorldDup = (.ok (dentry_inum (dir_page exWorldDup.disk 0) 0), exWorldDup) :=
  ⟨by decide, by decide, by decide,
    C1_get_inumber_first_match exWorldDup a_txt 0 0 (by decide)⟩

theorem tmod_128_lt (n : Int) : Int.tmod n 128 < 128 :=
  Int.tmod_lt_of_pos n (by norm_num)

theorem getsize_found (w : World) (filename : List Nat) (i j : Nat)
    (h : first_match w.disk filename i j)
    (hslot : 0 ≤ Int.tmod (dentry_inum (dir_page w.disk i) j) 128)
    (hblk0 : 0 ≤ Int.tdiv (dentry_inum (dir_page w.disk i) j) 128 + 1)
    (hblk1 : Int.tdiv (dentry_inum (dir_page w.disk i) j) 128 + 1 < 2048) :
    tfs_getsize filename w =
      (.ok (inode_record (w.disk (Int.tdiv (dentry_inum (dir_page w.disk i) j) 128 + 1).toNat)
        (Int.tmod (dentry_inum (dir_page w.disk i) j) 128).toNat).size, w) := by
  unfold tfs_getsize
  rw [bind_ok _ _ w w _ (load_root_run w h.1)]
  simp only [POINTERS_PER_INODE]
  rw [bind_ok _ _ w w _ (scan_first_match w filename i j h)]
  simp only [INODES_PER_BLOCK, Nat.cast_ofNat]
  rw [bind_ok _ _ w w _ (disk_read_ok _ w hblk0 hblk1)]
  rw [inode_at_ok _ _ hslot (tmod_128_lt _)]
  rfl

/-- C6: when the filename matches a valid directory entry, `tfs_getsize`
returns the `size` word (word `8 * slot + 1`) of record
`slot = inum % INODES_PER_BLOCK` of table block `inum / INODES_PER_BLOCK + 1`,
where `inum` is the inode number in the first matching entry, the value
`tfs_get_inumber` returns for the same filename on the same image.  The result
is that one word: neither the pointers of the inode nor any data block enters
it.  The record subscript and the block index are those the code computes; they
are assumed to be inside the record array and inside the device. -/
theorem C6_getsize_returns_size_field (w : World) (filename : List Nat) (i j : Nat)
    (h : first_match w.disk filename i j)
    (hslot : 0 ≤ Int.tmod (dentry_inum (dir_page w.disk i) j) INODES_PER_BLOCK)
    (hblk0 : 0 ≤ Int.tdiv (dentry_inum (dir_page w.disk i) j) INODES_PER_BLOCK + 1)
    (hblk1 : Int.tdiv (dentry_inum (dir_page w.disk i) j) INODES_PER_BLOCK + 1 < NUM_BLOCKS) :
    tfs_get_inumber filename w = (.ok (dentry_inum (dir_page w.disk i) j), w) ∧
    tfs_getsize filename w =
      (.ok (toInt32
        (w.disk (Int.tdiv (dentry_inum (dir_page w.disk i) j) INODES_PER_BLOCK + 1).toNat
          (8 * (Int.tmod (dentry_inum (dir_page w.disk i) j) INODES_PER_BLOCK).toNat + 1))), w) :=
  ⟨get_inumber_found w filename i j h,
    getsize_found w filename i j h (by simpa using hslot) (by simpa using hblk0)
      (by simpa using hblk1)⟩

/-- C6 on the scenario image: `a.txt` resolves to inode 2, and the size query
returns word 17 of block 1, which holds 10. -/
theorem C6_getsize_returns_size_field_witness :
    tfs_get_inumber a_txt exWorld = (.ok (dentry_inum (dir_page exWorld.disk 0) 0), exWorld) ∧
    tfs_getsize a_txt exWorld =
      (.ok (toInt32
        (exWorld.disk (Int.tdiv (dentry_inum (dir_page exWorld.disk 0) 0) INODES_PER_BLOCK + 1).toNat
          (8 * (Int.tmod (dentry_inum (dir_page exWorld.disk 0) 0) INODES_PER_BLOCK).toNat + 1))),
        exWorld) :=
  C6_getsize_returns_size_field exWorld a_txt 0 0 (by decide) (by decide) (by decide) (by decide)

theorem get_inumber_not_found (w : World) (filename : List Nat) (m : Nat)
    (h0 : 0 ∉ filename) (hfit : filename.length < 24 ∨ names_terminated w.disk m)
    (h : no_match w.disk filename m) :
    tfs_get_inumber filename w = (.ok 0, w) := by
  unfold tfs_get_inumber
  rw [bind_ok _ _ w w _ (load_root_run w h.1)]
  simp only [POINTERS_PER_INODE]
  rw [bind_ok _ _ w w _ (scan_no_match w filename m h0 hfit h)]
  rfl

theorem getsize_not_found (w : World) (filename : List Nat) (m : Nat)
    (h0 : 0 ∉ filename) (hfit : filename.length < 24 ∨ names_terminated w.disk m)
    (h : no_match w.disk filename m) :
    tfs_getsize filename w = (.ok (-1), w) := by
  unfold tfs_getsize
  rw [bind_ok _ _ w w _ (load_root_run w h.1)]
  simp only [POINTERS_PER_INODE]
  rw [bind_ok _ _ w w _ (scan_no_match w filename m h0 hfit h)]
  rfl

/-- C7: when the filename (a C string: no zero byte inside) equals the name
of no valid entry in any of the `m` directory pages of the root inode,
`tfs_get_inumber` returns 0 and `tfs_getsize` returns -1.  The filename is of
any length when the valid entries hold terminated names; against a name field
without terminator it has to be shorter than the field for `strcmp` to stay
inside the field. -/
theorem C7_not_found_sentinels (w : World) (filename : List Nat) (m : Nat)
    (h0 : 0 ∉ filename) (hfit : filename.length < 24 ∨ names_terminated w.disk m)
    (h : no_match w.disk filename m) :
    tfs_get_inumber filename w = (.ok 0, w) ∧ tfs_getsize filename w = (.ok (-1), w) :=
  ⟨get_inumber_not_found w filename m h0 hfit h, getsize_not_found w filename m h0 hfit h⟩

/-- C7 on the scenario image: `b.txt` is the name of no entry. -/
theorem C7_not_found_sentinels_witness :
    tfs_get_inumber b_txt exWorld = (.ok 0, exWorld) ∧
    tfs_getsize b_txt exWorld = (.ok (-1), exWorld) :=
  C7_not_found_sentinels exWorld b_txt 1 (by decide) (Or.inl (by decide)) (by decide)

/-! ## Clearing bits of the bitmaps -/

theorem testBit_not_shl1 (s t : Nat) (hs : s < 32) (ht : t < 32) :
    (not_shl1 s).testBit t = decide (t ≠ s) := by
  unfold not_shl1
  rw [Nat.sub_sub, Nat.add_comm 1 (2 ^ s),
    Nat.testBit_two_pow_sub_succ (Nat.pow_lt_pow_right (by norm_num) hs)]
  rw [Nat.testBit_two_pow]
  by_cases hts : t = s
  · simp [hts, hs]
  · have : ¬ s = t := fun h => hts h.symm
    simp [hts, ht, this]

theorem not_shl1_lt (s : Nat) : not_shl1 s < 2 ^ 32 := by
  unfold not_shl1
  have : 0 < 2 ^ s := Nat.two_pow_pos s
  omega

theorem and_not_shl1_lt (x s : Nat) : x &&& not_shl1 s < 2 ^ 32 :=
  lt_of_le_of_lt Nat.and_le_right (not_shl1_lt s)

/-- The word written by `word &= ~(1 << s)`: bit `s` is off, the others stay. -/
theorem testBit_cleared (x s t : Nat) (hs : s < 32) (ht : t < 32) :
    ((x &&& not_shl1 s) % 2 ^ 32).testBit t = (x.testBit t && decide (t ≠ s)) := by
  rw [Nat.mod_eq_of_lt (and_not_shl1_lt x s), Nat.testBit_and, testBit_not_shl1 s t hs ht]

theorem tdiv_32 (p : Int) (h : 0 ≤ p) : (Int.tdiv p 32).toNat = p.toNat / 32 := by
  rw [Int.tdiv_eq_ediv h (by norm_num)]
  omega

theorem tmod_32 (p : Int) (h : 0 ≤ p) : (Int.tmod p 32).toNat = p.toNat % 32 := by
  rw [Int.tmod_eq_emod h (by norm_num)]
  omega

theorem clear_block_bit_ok (b : Block) (p : Int) (h0 : 0 ≤ p) (h1 : p < 2048) :
    clear_block_bit b p = .ok (clr_block b p.toNat) := by
  unfold clear_block_bit clr_block
  have hd : Int.tdiv p 32 < 64 := by
    rw [Int.tdiv_eq_ediv h0 (by norm_num)]
    omega
  simp only [BITS_PER_UINT, NUM_BLOCKS, Nat.cast_ofNat]
  rw [if_pos ⟨h0, by norm_num; exact hd⟩, tdiv_32 p h0, tmod_32 p h0]

theorem clear_inode_bit_ok (b : Block) (n : Int) (h0 : 0 ≤ n) (h1 : n < 512) :
    clear_inode_bit b n = .ok (clr_inode b n.toNat) := by
  unfold clear_inode_bit clr_inode
  have hd : Int.tdiv n 32 < 16 := by
    rw [Int.tdiv_eq_ediv h0 (by norm_num)]
    omega
  simp only [BITS_PER_UINT, NUM_INODES, Nat.cast_ofNat]
  rw [if_pos ⟨h0, by norm_num; exact hd⟩, tdiv_32 n h0, tmod_32 n h0]

theorem block_bit_clr_block (b : Block) (q p : Nat) :
    block_bit (clr_block b q) p = (block_bit b p && decide (p ≠ q)) := by
  unfold block_bit block_in_use word clr_block
  by_cases hw : p / 32 = q / 32
  · rw [hw, Function.update_same]
    rw [testBit_cleared _ _ _ (Nat.mod_lt _ (by norm_num)) (Nat.mod_lt _ (by norm_num))]
    have hiff : (p % 32 ≠ q % 32) ↔ (p ≠ q) := by omega
    simp only [hiff]
    unfold block_in_use word
    rfl
  · rw [Function.update_noteq (by omega)]
    have : p ≠ q := fun h => hw (by rw [h])
    simp [this]

theorem inode_bit_clr_inode (b : Block) (q n : Nat) :
    inode_bit (clr_inode b q) n = (inode_bit b n && decide (n ≠ q)) := by
  unfold inode_bit inode_in_use word clr_inode
  by_cases hw : n / 32 = q / 32
  · rw [hw, Function.update_same]
    rw [testBit_cleared _ _ _ (Nat.mod_lt _ (by norm_num)) (Nat.mod_lt _ (by norm_num))]
    have hiff : (n % 32 ≠ q % 32) ↔ (n ≠ q) := by omega
    simp only [hiff]
    unfold inode_in_use word
    rfl
  · rw [Function.update_noteq (by omega)]
    have : n ≠ q := fun h => hw (by rw [h])
    simp [this]

theorem clr_block_frame (b : Block) (q x : Nat) (hq : q < 2048) (hx : x < 4 ∨ 68 ≤ x) :
    clr_block b q x = b x := by
  unfold clr_block
  rw [Function.update_noteq (by omega)]

theorem clr_inode_frame (b : Block) (q x : Nat) (hq : q < 512) (hx : x < 68 ∨ 84 ≤ x) :
    clr_inode b q x = b x := by
  unfold clr_inode
  rw [Function.update_noteq (by omega)]

theorem inode_bit_clr_block (b : Block) (q n : Nat) (hq : q < 2048) (hn : n < 512) :
    inode_bit (clr_block b q) n = inode_bit b n := by
  unfold inode_bit inode_in_use word
  rw [clr_block_frame b q _ hq (by omega)]

theorem block_bit_clr_inode (b : Block) (q p : Nat) (hq : q < 512) (hp : p < 2048) :
    block_bit (clr_inode b q) p = block_bit b p := by
  unfold block_bit block_in_use word
  rw [clr_inode_frame b q _ hq (by omega)]

theorem block_bit_clear_list (qs : List Nat) :
    ∀ (b : Block) (p : Nat), block_bit (clear_list b qs) p = (block_bit b p && decide (p ∉ qs)) := by
  induction qs with
  | nil => intro b p; simp [clear_list]
  | cons q qs ih =>
    intro b p
    rw [clear_list, ih, block_bit_clr_block]
    by_cases h1 : p = q <;> by_cases h2 : p ∈ qs <;> simp [h1, h2]

theorem clear_list_frame (qs : List Nat) :
    ∀ (b : Block) (x : Nat), (∀ q ∈ qs, q < 2048) → (x < 4 ∨ 68 ≤ x) →
      clear_list b qs x = b x := by
  induction qs with
  | nil => intro b x _ _; rfl
  | cons q qs ih =>
    intro b x hq hx
    rw [clear_list, ih _ _ (fun q' h => hq q' (List.mem_cons_of_mem _ h)) hx,
      clr_block_frame b q x (hq q (List.mem_cons_self _ _)) hx]

theorem clear_list_append (qs rs : List Nat) :
    ∀ b : Block, clear_list b (qs ++ rs) = clear_list (clear_list b qs) rs := by
  induction qs with
  | nil => intro b; rfl
  | cons q qs ih => intro b; simp [clear_list, ih]

/-! ## Running `tfs_delete` -/

theorem disk_write_ok (i : Int) (b : Block) (w : World) (h0 : 0 ≤ i) (h1 : i < 2048) :
    disk_write i b w = (.ok (), ⟨Function.update w.disk i.toNat b, w.out⟩) := by
  simp [disk_write, h0, h1]

theorem clear_ptrs_run (ptr : Nat → Int) (bound N : Nat) (h : ptrs_end ptr bound N) :
    ∀ r, r ≤ bound → bound - r ≤ N → ∀ (b : Block) (c : Int),
      clear_ptrs ptr bound r (b, c) =
        .ok (clear_list b
              ((List.range' (bound - r) (N - (bound - r))).map (fun k => (ptr k).toNat)),
             c + ((N - (bound - r) : Nat) : Int)) := by
  have hNb : N ≤ bound := by rcases h.2 with h | h <;> omega
  intro r
  induction r with
  | zero =>
    intro _ hle b c
    have : N - (bound - 0) = 0 := by omega
    rw [this]
    simp [clear_ptrs, clear_list]
  | succ r ih =>
    intro hr hle b c
    rw [clear_ptrs]
    by_cases hs : bound - (r + 1) < N
    · obtain ⟨hnz, h0, h1⟩ := h.1 _ hs
      rw [if_pos hnz, clear_block_bit_ok _ _ h0 h1]
      show clear_ptrs ptr bound r (_, _) = _
      rw [ih (by omega) (by omega)]
      have e1 : N - (bound - (r + 1)) = (N - (bound - r)) + 1 := by omega
      have e2 : bound - r = (bound - (r + 1)) + 1 := by omega
      rw [e1, List.range'_succ, List.map_cons, clear_list, ← e2]
      congr 2
      push_cast
      ring
    · have hN : bound - (r + 1) = N := by omega
      have hz : ptr (bound - (r + 1)) = 0 := by
        rcases h.2 with h | h
        · omega
        · rw [hN]; exact h.2
      rw [if_neg (not_not.mpr hz)]
      have : N - (bound - (r + 1)) = 0 := by omega
      rw [this]
      simp [clear_list]

theorem clear_ptrs_all (ptr : Nat → Int) (bound N : Nat) (h : ptrs_end ptr bound N)
    (b : Block) (c : Int) :
    clear_ptrs ptr bound bound (b, c) = .ok (clear_list b (ptr_list ptr N), c + (N : Int)) := by
  rw [clear_ptrs_run ptr bound N h bound (le_refl _) (by omega)]
  simp [ptr_list, List.range_eq_range']

theorem ptr_list_lt (ptr : Nat → Int) (bound N : Nat) (h : ptrs_end ptr bound N) :
    ∀ q ∈ ptr_list ptr N, q < 2048 ∧ q ≠ 0 := by
  intro q hq
  unfold ptr_list at hq
  obtain ⟨k, hk, rfl⟩ := List.mem_map.mp hq
  obtain ⟨hnz, h0, h1⟩ := h.1 k (List.mem_range.mp hk)
  omega

theorem delete_indirect_none (node : tfs_inode) (b : Block) (c : Int) (w : World)
    (h : node.indirect = 0) :
    delete_indirect node b c w = (.ok (b, c), w) := by
  unfold delete_indirect
  rw [if_neg (not_not.mpr h)]
  rfl

theorem delete_indirect_some (node : tfs_inode) (b : Block) (c : Int) (w : World) (M : Nat)
    (hnz : node.indirect ≠ 0) (h0 : 0 ≤ node.indirect) (h1 : node.indirect < 2048)
    (hM : ptrs_end (pointers (w.disk node.indirect.toNat)) 1024 M) :
    delete_indirect node b c w =
      (.ok (clr_block (clear_list (w.disk 0) (ptr_list (pointers (w.disk node.indirect.toNat)) M))
              node.indirect.toNat, c + (M : Int)),
        ⟨Function.update w.disk 0
          (clr_block (clear_list (w.disk 0) (ptr_list (pointers (w.disk node.indirect.toNat)) M))
            node.indirect.toNat), w.out⟩) := by
  unfold delete_indirect
  rw [if_pos hnz]
  rw [bind_ok _ _ w w _ (disk_read_ok _ w h0 h1)]
  rw [bind_ok _ _ w w _ (disk_read_ok 0 w (by norm_num) (by norm_num))]
  simp only [POINTERS_PER_BLOCK, Int.toNat_zero]
  rw [clear_ptrs_all _ 1024 M hM]
  rw [liftE_ok_bind]
  simp only []
  rw [clear_block_bit_ok _ _ h0 h1, liftE_ok_bind]
  rw [bind_ok _ _ w _ _ (disk_write_ok 0 _ w (by norm_num) (by norm_num))]
  rfl

theorem clear_list_snoc (b : Block) (qs : List Nat) (q : Nat) :
    clear_list b (qs ++ [q]) = clr_block (clear_list b qs) q := by
  rw [clear_list_append]
  rfl

theorem toNat_ne_zero (p : Int) (hnz : p ≠ 0) (h0 : 0 ≤ p) : p.toNat ≠ 0 := by
  omega

theorem delete_found_run (w : World) (rNode : tfs_inode) (i j : Nat) (block : Block)
    (N M : Nat) (hdi : dir_ptr_ok rNode i)
    (hslot : 0 ≤ Int.tmod (dentry_inum block j) 128)
    (hblk0 : 0 ≤ Int.tdiv (dentry_inum block j) 128 + 1)
    (hblk1 : Int.tdiv (dentry_inum block j) 128 + 1 < 2048)
    (hN : ptrs_end (inode_record (w.disk (Int.tdiv (dentry_inum block j) 128 + 1).toNat)
      (Int.tmod (dentry_inum block j) 128).toNat).direct 5 N)
    (hI : indirect_ok w.disk (inode_record (w.disk (Int.tdiv (dentry_inum block j) 128 + 1).toNat)
      (Int.tmod (dentry_inum block j) 128).toNat) M)
    (hn : N + ind_count (inode_record (w.disk (Int.tdiv (dentry_inum block j) 128 + 1).toNat)
      (Int.tmod (dentry_inum block j) 128).toNat) M ≠ 0 →
        0 ≤ dentry_inum block j ∧ dentry_inum block j < 512) :
    delete_found rNode i j block w =
      if N + ind_count (inode_record (w.disk (Int.tdiv (dentry_inum block j) 128 + 1).toNat)
          (Int.tmod (dentry_inum block j) 128).toNat) M ≠ 0 then
        (.ok (dentry_inum block j),
          ⟨Function.update
            (Function.update w.disk 0
              (clr_inode (clear_list (w.disk 0)
                (freed_blocks w.disk
                  (inode_record (w.disk (Int.tdiv (dentry_inum block j) 128 + 1).toNat)
                    (Int.tmod (dentry_inum block j) 128).toNat) N M))
                (dentry_inum block j).toNat))
            (rNode.direct i).toNat
            (Function.update (w.disk (rNode.direct i).toNat) (8 * j) 0), w.out⟩)
      else
        (.ok 0,
          ⟨Function.update w.disk 0
            (clear_list (w.disk 0)
              (freed_blocks w.disk
                (inode_record (w.disk (Int.tdiv (dentry_inum block j) 128 + 1).toNat)
                  (Int.tmod (dentry_inum block j) 128).toNat) N M)), w.out⟩) := by
  generalize hnode : inode_record (w.disk (Int.tdiv (dentry_inum block j) 128 + 1).toNat)
      (Int.tmod (dentry_inum block j) 128).toNat = node at hN hI hn ⊢
  generalize hnn : dentry_inum block j = n at hslot hblk0 hblk1 hn hnode ⊢
  have hdnz : (rNode.direct i).toNat ≠ 0 := toNat_ne_zero _ hdi.1 hdi.2.1
  unfold delete_found
  simp only [INODES_PER_BLOCK, Nat.cast_ofNat, POINTERS_PER_INODE, hnn]
  rw [bind_ok _ _ w w _ (disk_read_ok _ w hblk0 hblk1)]
  rw [inode_at_ok _ _ hslot (tmod_128_lt _), liftE_ok_bind, hnode]
  rw [bind_ok _ _ w w _ (disk_read_ok 0 w (by norm_num) (by norm_num))]
  simp only [Int.toNat_zero]
  rw [clear_ptrs_all _ 5 N hN, liftE_ok_bind]
  simp only [zero_add]
  rw [bind_ok _ _ w _ _ (disk_write_ok 0 _ w (by norm_num) (by norm_num))]
  simp only [Int.toNat_zero]
  by_cases hind : node.indirect = 0
  · rw [bind_ok _ _ _ _ _ (delete_indirect_none node _ _ _ hind)]
    have hfreed : freed_blocks w.disk node N M = ptr_list node.direct N := by
      simp [freed_blocks, hind]
    have hcnt : ind_count node M = 0 := by simp [ind_count, hind]
    rw [hfreed, hcnt]
    simp only [add_zero]
    by_cases hN0 : N = 0
    · subst hN0
      simp
      rfl
    · have hNi : ((N : Int) ≠ 0) := by exact_mod_cast hN0
      obtain ⟨hn0, hn1⟩ := hn (by rw [hcnt]; simpa using hN0)
      simp only [hNi, hN0, ne_eq, not_false_eq_true, if_true]
      rw [clear_inode_bit_ok _ _ hn0 hn1, liftE_ok_bind]
      rw [bind_ok _ _ _ _ _ (disk_write_ok 0 _ _ (by norm_num) (by norm_num))]
      rw [bind_ok _ _ _ _ _ (disk_read_ok _ _ hdi.2.1 hdi.2.2)]
      rw [bind_ok _ _ _ _ _ (disk_write_ok _ _ _ hdi.2.1 hdi.2.2)]
      simp only [Int.toNat_zero, Function.update_idem, pure_run,
        Function.update_noteq hdnz]
  · rcases hI with hI | ⟨hi0, hi1, hM⟩
    · exact absurd hI hind
    · have hinz : node.indirect.toNat ≠ 0 := toNat_ne_zero _ hind hi0
      have hrd : (Function.update w.disk 0 (clear_list (w.disk 0) (ptr_list node.direct N)))
          node.indirect.toNat = w.disk node.indirect.toNat := Function.update_noteq hinz _ _
      rw [bind_ok _ _ _ _ _ (delete_indirect_some node _ _ _ M hind hi0 hi1 (by
        show ptrs_end (pointers ((Function.update w.disk 0 _) node.indirect.toNat)) 1024 M
        rw [hrd]; exact hM))]
      have hfreed : freed_blocks w.disk node N M = ptr_list node.direct N ++
          (ptr_list (pointers (w.disk node.indirect.toNat)) M ++ [node.indirect.toNat]) := by
        simp [freed_blocks, hind]
      have hcnt : ind_count node M = M := by simp [ind_count, hind]
      rw [hfreed, hcnt]
      simp only [hrd, Function.update_same, Function.update_idem]
      rw [clear_list_append, clear_list_snoc]
      by_cases hNM : N + M = 0
      · have hNM' : ((N : Int) + (M : Int) = 0) := by exact_mod_cast hNM
        simp [hNM, hNM']
        rfl
      · have hNM' : ¬ ((N : Int) + (M : Int) = 0) := by exact_mod_cast hNM
        obtain ⟨hn0, hn1⟩ := hn (by rw [hcnt]; exact hNM)
        simp only [hNM, hNM', ne_eq, not_false_eq_true, if_true]
        rw [clear_inode_bit_ok _ _ hn0 hn1, liftE_ok_bind]
        rw [bind_ok _ _ _ _ _ (disk_write_ok 0 _ _ (by norm_num) (by norm_num))]
        rw [bind_ok _ _ _ _ _ (disk_read_ok _ _ hdi.2.1 hdi.2.2)]
        rw [bind_ok _ _ _ _ _ (disk_write_ok _ _ _ hdi.2.1 hdi.2.2)]
        simp only [Int.toNat_zero, Function.update_idem, pure_run,
          Function.update_noteq hdnz]

theorem delete_run (w : World) (filename : List Nat) (i j N M : Nat)
    (h : first_match w.disk filename i j) (hread : inum_readable w.disk i j)
    (hN : ptrs_end (file_node w.disk i j).direct 5 N)
    (hI : indirect_ok w.disk (file_node w.disk i j) M)
    (hn : N + ind_count (file_node w.disk i j) M ≠ 0 →
      0 ≤ dentry_inum (dir_page w.disk i) j ∧ dentry_inum (dir_page w.disk i) j < 512) :
    tfs_delete filename w =
      if N + ind_count (file_node w.disk i j) M ≠ 0 then
        (.ok (dentry_inum (dir_page w.disk i) j), ⟨disk_after_delete w.disk i j N M, w.out⟩)
      else (.ok 0, ⟨Function.update w.disk 0 (sb_after_blocks w.disk i j N M), w.out⟩) := by
  unfold tfs_delete
  rw [bind_ok _ _ w w _ (load_root_run w h.1)]
  simp only [POINTERS_PER_INODE]
  rw [bind_ok _ _ w w _ (scan_first_match w filename i j h)]
  exact delete_found_run w (root_node w.disk) i j (dir_page w.disk i) N M
    (h.2.2.2.1 i (by omega)) hread.1 hread.2.1 hread.2.2 hN hI hn

theorem inum_readable_of_range (d : Disk) (i j : Nat)
    (h0 : 0 ≤ dentry_inum (dir_page d i) j) (h1 : dentry_inum (dir_page d i) j < 512) :
    inum_readable d i j := by
  unfold inum_readable
  rw [Int.tmod_eq_emod h0 (by norm_num), Int.tdiv_eq_ediv h0 (by norm_num)]
  omega

theorem world_eta (w : World) : (⟨w.disk, w.out⟩ : World) = w := rfl

theorem delete_empty_file (w : World) (filename : List Nat) (i j : Nat)
    (h : first_match w.disk filename i j) (hread : inum_readable w.disk i j)
    (hd : (file_node w.disk i j).direct 0 = 0) (hind : (file_node w.disk i j).indirect = 0) :
    tfs_delete filename w = (.ok 0, w) := by
  rw [delete_run w filename i j 0 0 h hread ⟨fun k hk => by omega, Or.inr ⟨by norm_num, hd⟩⟩
    (Or.inl hind) (by simp [ind_count, hind])]
  simp [ind_count, hind, sb_after_blocks, freed_blocks, ptr_list, clear_list]

/-- C8: when the first entry matching the filename belongs to a file with no
allocated block (first direct pointer 0 and indirect pointer 0), `tfs_delete`
returns 0 and the whole image is the same before and after (so the inode bit
and the directory entry are unchanged); a second call with the same name
again returns 0 and again leaves the image unchanged. -/
theorem C8_delete_empty_file_noop (w : World) (filename : List Nat) (i j : Nat)
    (h : first_match w.disk filename i j) (hread : inum_readable w.disk i j)
    (hd : (file_node w.disk i j).direct 0 = 0) (hind : (file_node w.disk i j).indirect = 0) :
    tfs_delete filename w = (.ok 0, w) ∧
    tfs_delete filename (tfs_delete filename w).2 = (.ok 0, w) := by
  have h1 := delete_empty_file w filename i j h hread hd hind
  refine ⟨h1, ?_⟩
  rw [h1]
  exact h1

/-- C8 on the scenario image with `a.txt` turned into an empty file. -/
theorem C8_delete_empty_file_noop_witness :
    tfs_delete a_txt exWorldEmpty = (.ok 0, exWorldEmpty) ∧
    tfs_delete a_txt (tfs_delete a_txt exWorldEmpty).2 = (.ok 0, exWorldEmpty) :=
  C8_delete_empty_file_noop exWorldEmpty a_txt 0 0 (by decide) (by decide) (by decide) (by decide)

theorem freed_blocks_lt (d : Disk) (node : tfs_inode) (N M : Nat)
    (hN : ptrs_end node.direct 5 N) (hI : indirect_ok d node M) :
    ∀ q ∈ freed_blocks d node N M, q < 2048 := by
  intro q hq
  unfold freed_blocks at hq
  rcases List.mem_append.mp hq with h | h
  · exact (ptr_list_lt _ 5 N hN q h).1
  · by_cases hind : node.indirect = 0
    · simp [hind] at h
    · rcases hI with hI | ⟨h0, h1, hM⟩
      · exact absurd hI hind
      · rw [if_neg hind] at h
        rcases List.mem_append.mp h with h | h
        · exact (ptr_list_lt _ 1024 M hM q h).1
        · simp at h
          omega

theorem inode_bit_clear_list (b : Block) (qs : List Nat) (n : Nat)
    (hq : ∀ q ∈ qs, q < 2048) (hn : n < 512) :
    inode_bit (clear_list b qs) n = inode_bit b n := by
  unfold inode_bit inode_in_use word
  rw [clear_list_frame qs b _ hq (by omega)]

theorem after_delete_block0 (d : Disk) (i j N M : Nat)
    (hdi : dir_ptr_ok (root_node d) i) :
    disk_after_delete d i j N M 0 =
      clr_inode (sb_after_blocks d i j N M) (dentry_inum (dir_page d i) j).toNat := by
  unfold disk_after_delete
  rw [Function.update_noteq (Ne.symm (toNat_ne_zero _ hdi.1 hdi.2.1)), Function.update_same]

theorem after_delete_dir (d : Disk) (i j N M : Nat) :
    disk_after_delete d i j N M ((root_node d).direct i).toNat =
      Function.update (dir_page d i) (8 * j) 0 := by
  unfold disk_after_delete
  rw [Function.update_same]

theorem after_delete_other (d : Disk) (i j N M blk : Nat) (h0 : blk ≠ 0)
    (h1 : blk ≠ ((root_node d).direct i).toNat) :
    disk_after_delete d i j N M blk = d blk := by
  unfold disk_after_delete
  rw [Function.update_noteq h1, Function.update_noteq h0]

theorem after_delete_block_bit (d : Disk) (i j N M p : Nat)
    (hdi : dir_ptr_ok (root_node d) i)
    (hn : (dentry_inum (dir_page d i) j).toNat < 512) (hp : p < 2048) :
    block_bit (disk_after_delete d i j N M 0) p =
      (block_bit (d 0) p && decide (p ∉ freed_blocks d (file_node d i j) N M)) := by
  rw [after_delete_block0 d i j N M hdi, block_bit_clr_inode _ _ _ hn hp]
  unfold sb_after_blocks
  rw [block_bit_clear_list]

theorem after_delete_inode_bit (d : Disk) (i j N M m : Nat)
    (hdi : dir_ptr_ok (root_node d) i)
    (hN : ptrs_end (file_node d i j).direct 5 N) (hI : indirect_ok d (file_node d i j) M)
    (hm : m < 512) :
    inode_bit (disk_after_delete d i j N M 0) m =
      (inode_bit (d 0) m && decide (m ≠ (dentry_inum (dir_page d i) j).toNat)) := by
  rw [after_delete_block0 d i j N M hdi, inode_bit_clr_inode]
  unfold sb_after_blocks
  rw [inode_bit_clear_list _ _ _ (freed_blocks_lt d _ N M hN hI) hm]

/-- Outside block 0, a deletion changes one word: the `valid` word of the
matched entry. -/
theorem after_delete_words (d : Disk) (i j N M blk x : Nat) (h0 : blk ≠ 0) :
    disk_after_delete d i j N M blk x =
      if blk = ((root_node d).direct i).toNat ∧ x = 8 * j then 0 else d blk x := by
  by_cases hb : blk = ((root_node d).direct i).toNat
  · rw [hb, after_delete_dir]
    by_cases hx : x = 8 * j
    · rw [hx, Function.update_same]; simp
    · rw [Function.update_noteq hx]; simp [hx, dir_page]
  · rw [after_delete_other d i j N M blk h0 hb]
    simp [hb]

/-- In block 0, a deletion changes words of the two bitmaps only. -/
theorem after_delete_super_frame (d : Disk) (i j N M x : Nat)
    (hdi : dir_ptr_ok (root_node d) i)
    (hN : ptrs_end (file_node d i j).direct 5 N) (hI : indirect_ok d (file_node d i j) M)
    (hn : (dentry_inum (dir_page d i) j).toNat < 512) (hx : x < 4 ∨ 84 ≤ x) :
    disk_after_delete d i j N M 0 x = d 0 x := by
  rw [after_delete_block0 d i j N M hdi, clr_inode_frame _ _ _ hn (by omega)]
  unfold sb_after_blocks
  rw [clear_list_frame _ _ _ (freed_blocks_lt d _ N M hN hI) (by omega)]

/-- A deletion leaves the root inode number and the root inode's pointers as
they were. -/
theorem after_delete_root (d : Disk) (i j N M : Nat)
    (hdi : dir_ptr_ok (root_node d) i)
    (hN : ptrs_end (file_node d i j).direct 5 N) (hI : indirect_ok d (file_node d i j) M)
    (hn : (dentry_inum (dir_page d i) j).toNat < 512) :
    root_inode (disk_after_delete d i j N M 0) = root_inode (d 0) ∧
    ∀ k, k < 5 → (root_node (disk_after_delete d i j N M)).direct k = (root_node d).direct k := by
  have hr : root_inode (disk_after_delete d i j N M 0) = root_inode (d 0) := by
    unfold root_inode
    rw [after_delete_super_frame d i j N M 3 hdi hN hI hn (by omega)]
  refine ⟨hr, ?_⟩
  intro k hk
  unfold root_node
  rw [hr]
  unfold inode_record
  simp only []
  rw [after_delete_words d i j N M 1 _ (by norm_num), if_neg (by omega)]

/-! ## Counting set bits -/

theorem count_range_succ (f : Nat → Bool) (n : Nat) :
    ((List.range (n + 1)).filter f).length =
      ((List.range n).filter f).length + (if f n then 1 else 0) := by
  rw [List.range_succ, List.filter_append, List.length_append]
  by_cases h : f n <;> simp [h]

/-- Turning off one set bit lowers the count by one. -/
theorem count_remove_one (f g : Nat → Bool) (q : Nat) (hq : f q = true) :
    ∀ n, (∀ p, p < n → g p = (f p && decide (p ≠ q))) →
      ((List.range n).filter g).length + (if q < n then 1 else 0) =
        ((List.range n).filter f).length := by
  intro n
  induction n with
  | zero => intro _; simp
  | succ n ih =>
    intro hg
    rw [count_range_succ, count_range_succ, ← ih (fun p hp => hg p (by omega))]
    rw [hg n (by omega)]
    by_cases hnq : n = q
    · subst hnq
      simp [hq]
    · have h1 : (q < n + 1) = (q < n) := by
        apply propext
        constructor <;> intro h <;> omega
      simp only [h1]
      by_cases hf : f n
      · simp [hf, hnq]
        omega
      · simp [hf]

/-- Turning off a list of distinct set bits lowers the count by its length. -/
theorem count_remove_list (n : Nat) (L : List Nat) :
    ∀ (f g : Nat → Bool), L.Nodup → (∀ q ∈ L, q < n ∧ f q = true) →
      (∀ p, p < n → g p = (f p && decide (p ∉ L))) →
      ((List.range n).filter g).length + L.length = ((List.range n).filter f).length := by
  induction L with
  | nil =>
    intro f g _ _ hg
    have : (List.range n).filter g = (List.range n).filter f := by
      apply List.filter_congr
      intro p hp
      rw [hg p (List.mem_range.mp hp)]
      simp
    rw [this]
    rfl
  | cons q qs ih =>
    intro f g hnd hL hg
    have hq := hL q (List.mem_cons_self _ _)
    have h1 := count_remove_one f (fun p => f p && decide (p ≠ q)) q hq.2 n (fun p _ => rfl)
    rw [if_pos hq.1] at h1
    have hnd' := List.nodup_cons.mp hnd
    have h2 := ih (fun p => f p && decide (p ≠ q)) g hnd'.2
      (fun q' hq' => by
        have := hL q' (List.mem_cons_of_mem _ hq')
        refine ⟨this.1, ?_⟩
        have hne : q' ≠ q := fun h => hnd'.1 (h ▸ hq')
        simp [this.2, hne])
      (fun p hp => by
        rw [hg p hp]
        by_cases hpq : p = q <;> by_cases hpm : p ∈ qs <;> simp [hpq, hpm])
    rw [List.length_cons, ← h1, ← h2]
    omega

/-! ## What `tfs_delete` frees -/

theorem delete_direct_only (w : World) (filename : List Nat) (i j N : Nat)
    (h : first_match w.disk filename i j)
    (hn0 : 0 ≤ dentry_inum (dir_page w.disk i) j)
    (hn1 : dentry_inum (dir_page w.disk i) j < 512)
    (hN1 : 1 ≤ N) (hN : ptrs_end (file_node w.disk i j).direct 5 N)
    (hind : (file_node w.disk i j).indirect = 0) :
    tfs_delete filename w =
      (.ok (dentry_inum (dir_page w.disk i) j), ⟨disk_after_delete w.disk i j N 0, w.out⟩) := by
  rw [delete_run w filename i j N 0 h (inum_readable_of_range _ i j hn0 hn1) hN (Or.inl hind)
    (fun _ => ⟨hn0, hn1⟩)]
  rw [if_pos (by omega)]

/-- C2: for a file found by name whose inode has `N >= 1` non-zero direct
pointers before the first zero (each a block number of the device), indirect
pointer 0 and an inode number `n` in `[0, NUM_INODES)`: `tfs_delete` returns
`n`; every bit of the block bitmap is as before except that the bits of those
`N` blocks are off; every bit of the inode bitmap is as before except that bit
`n` is off; the matched entry was valid and is invalid afterwards; the `valid`
flag of every other entry slot of every block other than block 0 is unchanged,
and so are the root inode's directory pointers. -/
theorem C2_delete_frees_direct_blocks (w : World) (filename : List Nat) (i j N : Nat)
    (h : first_match w.disk filename i j)
    (hn0 : 0 ≤ dentry_inum (dir_page w.disk i) j)
    (hn1 : dentry_inum (dir_page w.disk i) j < NUM_INODES)
    (hN1 : 1 ≤ N) (hN : ptrs_end (file_node w.disk i j).direct POINTERS_PER_INODE N)
    (hind : (file_node w.disk i j).indirect = 0) :
    (tfs_delete filename w).1 = .ok (dentry_inum (dir_page w.disk i) j) ∧
    (∀ p, p < NUM_BLOCKS →
      block_bit ((tfs_delete filename w).2.disk 0) p =
        (block_bit (w.disk 0) p && decide (p ∉ ptr_list (file_node w.disk i j).direct N))) ∧
    (∀ m, m < NUM_INODES →
      inode_bit ((tfs_delete filename w).2.disk 0) m =
        (inode_bit (w.disk 0) m && decide (m ≠ (dentry_inum (dir_page w.disk i) j).toNat))) ∧
    dentry_valid (dir_page w.disk i) j ≠ 0 ∧
    dentry_valid (dir_page (tfs_delete filename w).2.disk i) j = 0 ∧
    (∀ blk j', blk ≠ 0 → ¬ (blk = ((root_node w.disk).direct i).toNat ∧ j' = j) →
      dentry_valid ((tfs_delete filename w).2.disk blk) j' = dentry_valid (w.disk blk) j') ∧
    (∀ k, k < POINTERS_PER_INODE →
      (root_node (tfs_delete filename w).2.disk).direct k = (root_node w.disk).direct k) := by
  simp only [NUM_INODES, NUM_BLOCKS, POINTERS_PER_INODE] at *
  have hdi : dir_ptr_ok (root_node w.disk) i := h.2.2.2.1 i (by omega)
  have hI : indirect_ok w.disk (file_node w.disk i j) 0 := Or.inl hind
  have hnn : (dentry_inum (dir_page w.disk i) j).toNat < 512 := by omega
  have hroot := after_delete_root w.disk i j N 0 hdi hN hI hnn
  rw [delete_direct_only w filename i j N h hn0 hn1 hN1 hN hind]
  refine ⟨rfl, ?_, ?_, h.2.2.2.2.1.1, ?_, ?_, hroot.2⟩
  · intro p hp
    show block_bit (disk_after_delete w.disk i j N 0 0) p = _
    rw [after_delete_block_bit w.disk i j N 0 p hdi hnn hp]
    simp [freed_blocks, hind]
  · intro m hm
    exact after_delete_inode_bit w.disk i j N 0 m hdi hN hI hm
  · show dentry_valid (dir_page (disk_after_delete w.disk i j N 0) i) j = 0
    unfold dir_page
    rw [hroot.2 i h.2.1, after_delete_dir]
    unfold dentry_valid
    rw [Function.update_same]
    decide
  · intro blk j' hb hne
    show dentry_valid (disk_after_delete w.disk i j N 0 blk) j' = _
    unfold dentry_valid
    rw [after_delete_words w.disk i j N 0 blk _ hb, if_neg (by omega)]

/-- C2 on the scenario image: deleting `a.txt` returns 2, turns off bit 10
of the block bitmap and bit 2 of the inode bitmap, and invalidates entry 0 of
block 5. -/
theorem C2_delete_frees_direct_blocks_witness :
    (tfs_delete a_txt exWorld).1 = .ok 2 ∧
    block_bit (exWorld.disk 0) 10 = true ∧
    block_bit ((tfs_delete a_txt exWorld).2.disk 0) 10 = false ∧
    inode_bit (exWorld.disk 0) 2 = true ∧
    inode_bit ((tfs_delete a_txt exWorld).2.disk 0) 2 = false ∧
    dentry_valid (dir_page (tfs_delete a_txt exWorld).2.disk 0) 0 = 0 := by
  have h := C2_delete_frees_direct_blocks exWorld a_txt 0 0 1 (by decide) (by decide)
    (by decide) (by decide) (by decide) (by decide)
  refine ⟨h.1, by decide, ?_, by decide, ?_, h.2.2.2.2.1⟩
  · rw [h.2.1 10 (by decide)]
    decide
  · rw [h.2.2.1 2 (by decide)]
    decide

theorem freed_blocks_length (d : Disk) (node : tfs_inode) (N M : Nat)
    (hind : node.indirect ≠ 0) : (freed_blocks d node N M).length = N + M + 1 := by
  simp [freed_blocks, hind, ptr_list]
  omega

theorem delete_with_indirect (w : World) (filename : List Nat) (i j N M : Nat)
    (h : first_match w.disk filename i j) (hread : inum_readable w.disk i j)
    (hN : ptrs_end (file_node w.disk i j).direct 5 N)
    (hI : indirect_ok w.disk (file_node w.disk i j) M)
    (hinz : (file_node w.disk i j).indirect ≠ 0)
    (hn : N + M ≠ 0 →
      0 ≤ dentry_inum (dir_page w.disk i) j ∧ dentry_inum (dir_page w.disk i) j < 512) :
    ∀ p, p < 2048 →
      block_bit ((tfs_delete filename w).2.disk 0) p =
        (block_bit (w.disk 0) p && decide (p ∉ freed_blocks w.disk (file_node w.disk i j) N M)) := by
  have hcnt : ind_count (file_node w.disk i j) M = M := by simp [ind_count, hinz]
  have hdi : dir_ptr_ok (root_node w.disk) i := h.2.2.2.1 i (by omega)
  rw [delete_run w filename i j N M h hread hN hI (by rw [hcnt]; exact hn), hcnt]
  intro p hp
  by_cases hNM : N + M = 0
  · rw [if_neg (not_not.mpr hNM)]
    show block_bit (Function.update w.disk 0 (sb_after_blocks w.disk i j N M) 0) p = _
    rw [Function.update_same]
    unfold sb_after_blocks
    rw [block_bit_clear_list]
  · rw [if_pos hNM]
    have hnn := hn hNM
    exact after_delete_block_bit w.disk i j N M p hdi (by omega) hp

/-- C3: for a file found by name whose inode has `N` non-zero direct pointers
before the first zero and a non-zero indirect pointer whose block lists `M`
non-zero pointers before the first zero, these `N + M + 1` block numbers being
pairwise distinct, inside the device, and set in the block bitmap: after
`tfs_delete` every bit of the block bitmap is as before except that the bits
of the `N` direct blocks, of the `M` listed blocks and of the indirect block
are off, and the number of set bits is lower by exactly `N + M + 1`.  The
inode number is assumed to yield a readable record, and to lie in
`[0, NUM_INODES)` when the freed-block counter is non-zero. -/
theorem C3_delete_frees_indirect_blocks (w : World) (filename : List Nat) (i j N M : Nat)
    (h : first_match w.disk filename i j) (hread : inum_readable w.disk i j)
    (hN : ptrs_end (file_node w.disk i j).direct POINTERS_PER_INODE N)
    (hinz : (file_node w.disk i j).indirect ≠ 0)
    (hi0 : 0 ≤ (file_node w.disk i j).indirect)
    (hi1 : (file_node w.disk i j).indirect < NUM_BLOCKS)
    (hM : ptrs_end (pointers (w.disk (file_node w.disk i j).indirect.toNat))
      POINTERS_PER_BLOCK M)
    (hn : N + M ≠ 0 →
      0 ≤ dentry_inum (dir_page w.disk i) j ∧ dentry_inum (dir_page w.disk i) j < NUM_INODES)
    (hdistinct : (freed_blocks w.disk (file_node w.disk i j) N M).Nodup)
    (hset : ∀ q ∈ freed_blocks w.disk (file_node w.disk i j) N M, block_bit (w.disk 0) q = true) :
    freed_blocks w.disk (file_node w.disk i j) N M =
      ptr_list (file_node w.disk i j).direct N ++
        (ptr_list (pointers (w.disk (file_node w.disk i j).indirect.toNat)) M ++
          [(file_node w.disk i j).indirect.toNat]) ∧
    (freed_blocks w.disk (file_node w.disk i j) N M).length = N + M + 1 ∧
    (∀ p, p < NUM_BLOCKS →
      block_bit ((tfs_delete filename w).2.disk 0) p =
        (block_bit (w.disk 0) p &&
          decide (p ∉ freed_blocks w.disk (file_node w.disk i j) N M))) ∧
    blocks_set ((tfs_delete filename w).2.disk 0) + (N + M + 1) = blocks_set (w.disk 0) := by
  simp only [NUM_INODES, NUM_BLOCKS, POINTERS_PER_INODE, POINTERS_PER_BLOCK] at *
  have hI : indirect_ok w.disk (file_node w.disk i j) M := Or.inr ⟨hi0, hi1, hM⟩
  have hbits := delete_with_indirect w filename i j N M h hread hN hI hinz hn
  refine ⟨by simp [freed_blocks, hinz], freed_blocks_length _ _ N M hinz, hbits, ?_⟩
  rw [← freed_blocks_length w.disk (file_node w.disk i j) N M hinz]
  unfold blocks_set
  exact count_remove_list 2048 _ _ _ hdistinct
    (fun q hq => ⟨freed_blocks_lt _ _ N M hN hI q hq, hset q hq⟩) hbits

/-- C3 on the image whose file `a.txt` has direct blocks 10..14, indirect
block 20 and listed blocks 21, 22: eight bits are turned off. -/
theorem C3_delete_frees_indirect_blocks_witness :
    freed_blocks exWorldInd.disk (file_node exWorldInd.disk 0 0) 5 2 =
      [10, 11, 12, 13, 14, 21, 22, 20] ∧
    blocks_set ((tfs_delete a_txt exWorldInd).2.disk 0) + (5 + 2 + 1) =
      blocks_set (exWorldInd.disk 0) :=
  ⟨by decide,
    (C3_delete_frees_indirect_blocks exWorldInd a_txt 0 0 5 2 (by decide) (by decide)
      (by decide) (by decide) (by decide) (by decide) (by decide) (by decide) (by decide)
      (by decide)).2.2.2⟩

/-! ## Operations that write no block -/

theorem quiet_pure {α : Type} (a : α) : quiet (pure a : FS α) :=
  fun w => ⟨rfl, [], by simp [pure_run]⟩

theorem quiet_fault {α : Type} (e : Fault) : quiet (fault e : FS α) :=
  fun w => ⟨rfl, [], by simp [fault]⟩

theorem quiet_liftE {α : Type} (x : Except Fault α) : quiet (liftE x) :=
  fun w => ⟨rfl, [], by simp [liftE]⟩

theorem quiet_disk_read (i : Int) : quiet (disk_read i) := by
  intro w
  unfold disk_read
  split <;> exact ⟨rfl, [], by simp⟩

theorem quiet_printf (fmt : String) (args : List PArg) : quiet (printf fmt args) :=
  fun _ => ⟨rfl, [(fmt, args)], rfl⟩

theorem quiet_bind {α β : Type} (m : FS α) (f : α → FS β) (hm : quiet m)
    (hf : ∀ a, quiet (f a)) : quiet (m >>= f) := by
  intro w
  rw [bind_run]
  obtain ⟨hd, l, hl⟩ := hm w
  cases hmw : m w with
  | mk r w' =>
    rw [hmw] at hd hl
    cases r with
    | error e => exact ⟨hd, l, hl⟩
    | ok a =>
      obtain ⟨hd2, l2, hl2⟩ := hf a w'
      refine ⟨hd2.trans hd, l ++ l2, ?_⟩
      show (f a w').2.out = _
      rw [hl2]
      simp only [] at hl
      rw [hl, List.append_assoc]

theorem quiet_load_root : quiet load_root := by
  unfold load_root
  exact quiet_bind _ _ (quiet_disk_read _) (fun _ =>
    quiet_bind _ _ (quiet_disk_read _) (fun _ => quiet_liftE _))

theorem quiet_scan_dirs (filename : List Nat) (rNode : tfs_inode) :
    ∀ k, quiet (scan_dirs filename rNode k) := by
  intro k
  induction k with
  | zero => exact quiet_pure _
  | succ k ih =>
    rw [scan_dirs]
    split
    · refine quiet_bind _ _ (quiet_disk_read _) (fun block => ?_)
      refine quiet_bind _ _ (quiet_liftE _) (fun o => ?_)
      cases o with
      | none => exact ih
      | some j => exact quiet_pure _
    · exact quiet_pure _

theorem quiet_get_inumber (filename : List Nat) : quiet (tfs_get_inumber filename) := by
  unfold tfs_get_inumber
  refine quiet_bind _ _ quiet_load_root (fun rNode => ?_)
  refine quiet_bind _ _ (quiet_scan_dirs _ _ _) (fun o => ?_)
  rcases o with _ | ⟨i, j, block⟩
  · exact quiet_pure _
  · exact quiet_pure _

theorem quiet_getsize (filename : List Nat) : quiet (tfs_getsize filename) := by
  unfold tfs_getsize
  refine quiet_bind _ _ quiet_load_root (fun rNode => ?_)
  refine quiet_bind _ _ (quiet_scan_dirs _ _ _) (fun o => ?_)
  rcases o with _ | ⟨i, j, block⟩
  · exact quiet_pure _
  · exact quiet_bind _ _ (quiet_disk_read _) (fun _ =>
      quiet_bind _ _ (quiet_liftE _) (fun _ => quiet_pure _))

theorem quiet_read_blocks (ptr : Nat → Int) (bound : Nat) (size length offset : Int) :
    ∀ k bytesRead data, quiet (read_blocks ptr bound size length offset k bytesRead data) := by
  intro k
  induction k with
  | zero => intro _ _; exact quiet_pure _
  | succ k ih =>
    intro bytesRead data
    rw [read_blocks]
    refine quiet_bind _ _ (quiet_disk_read _) (fun block => ?_)
    simp only []
    split
    · exact quiet_pure _
    · exact ih _ _

theorem quiet_read (inumber : Int) (data : List Nat) (length offset : Int) :
    quiet (tfs_read inumber data length offset) := by
  unfold tfs_read
  refine quiet_bind _ _ (quiet_disk_read _) (fun block => ?_)
  refine quiet_bind _ _ (quiet_liftE _) (fun tempNode => ?_)
  simp only []
  split
  · exact quiet_fault _
  · refine quiet_bind _ _ (quiet_read_blocks _ _ _ _ _ _ _ _) (fun r => ?_)
    split
    · exact quiet_pure _
    · split
      · exact quiet_pure _
      · exact quiet_bind _ _ (quiet_disk_read _) (fun _ =>
          quiet_bind _ _ (quiet_read_blocks _ _ _ _ _ _ _ _) (fun _ => quiet_pure _))

theorem quiet_print_ptrs (ptr : Nat → Int) (bound : Nat) :
    ∀ r, quiet (print_ptrs ptr bound r) := by
  intro r
  induction r with
  | zero => exact quiet_pure _
  | succ r ih =>
    rw [print_ptrs]
    split
    · exact quiet_bind _ _ (quiet_printf _ _) (fun _ => ih)
    · exact quiet_pure _

theorem quiet_debug_entry (rootDir : Block) (j : Nat) : quiet (debug_entry rootDir j) := by
  unfold debug_entry
  split
  · refine quiet_bind _ _ (quiet_liftE _) (fun s => ?_)
    refine quiet_bind _ _ (quiet_printf _ _) (fun _ => ?_)
    refine quiet_bind _ _ (quiet_disk_read _) (fun block => ?_)
    refine quiet_bind _ _ (quiet_liftE _) (fun node => ?_)
    refine quiet_bind _ _ (quiet_printf _ _) (fun _ => ?_)
    refine quiet_bind _ _ (quiet_printf _ _) (fun _ => ?_)
    refine quiet_bind _ _ (quiet_print_ptrs _ _ _) (fun _ => ?_)
    refine quiet_bind _ _ (quiet_printf _ _) (fun _ => ?_)
    split
    · refine quiet_bind _ _ (quiet_printf _ _) (fun _ => ?_)
      refine quiet_bind _ _ (quiet_disk_read _) (fun block => ?_)
      refine quiet_bind _ _ (quiet_printf _ _) (fun _ => ?_)
      refine quiet_bind _ _ (quiet_print_ptrs _ _ _) (fun _ => ?_)
      exact quiet_printf _ _
    · exact quiet_pure _
  · exact quiet_pure _

theorem quiet_debug_entries (rootDir : Block) : ∀ r, quiet (debug_entries rootDir r) := by
  intro r
  induction r with
  | zero => exact quiet_pure _
  | succ r ih =>
    rw [debug_entries]
    exact quiet_bind _ _ (quiet_debug_entry _ _) (fun _ => ih)

theorem quiet_debug_dirs (rNode : tfs_inode) : ∀ r, quiet (debug_dirs rNode r) := by
  intro r
  induction r with
  | zero => exact quiet_pure _
  | succ r ih =>
    rw [debug_dirs]
    split
    · refine quiet_bind _ _ (quiet_disk_read _) (fun block => ?_)
      exact quiet_bind _ _ (quiet_debug_entries _ _) (fun _ => ih)
    · exact quiet_pure _

theorem quiet_debug_signature (block : Block) : quiet (debug_signature block) := by
  unfold debug_signature
  split
  · exact quiet_printf _ _
  · exact quiet_printf _ _

theorem quiet_debug_root (sBlock : Block) : quiet (debug_root sBlock) := by
  unfold debug_root
  refine quiet_bind _ _ (quiet_disk_read _) (fun block => ?_)
  refine quiet_bind _ _ (quiet_liftE _) (fun rNode => ?_)
  refine quiet_bind _ _ (quiet_printf _ _) (fun _ => ?_)
  refine quiet_bind _ _ (quiet_printf _ _) (fun _ => ?_)
  refine quiet_bind _ _ (quiet_printf _ _) (fun _ => ?_)
  refine quiet_bind _ _ (quiet_print_ptrs _ _ _) (fun _ => ?_)
  refine quiet_bind _ _ (quiet_printf _ _) (fun _ => ?_)
  exact quiet_debug_dirs _ _

theorem quiet_debug : quiet tfs_debug := by
  unfold tfs_debug
  refine quiet_bind _ _ (quiet_disk_read _) (fun block => ?_)
  refine quiet_bind _ _ (quiet_printf _ _) (fun _ => ?_)
  refine quiet_bind _ _ (quiet_debug_signature _) (fun _ => ?_)
  refine quiet_bind _ _ (quiet_printf _ _) (fun _ => ?_)
  refine quiet_bind _ _ (quiet_printf _ _) (fun _ => ?_)
  exact quiet_debug_root block

/-! ## The counts of `tfs_debug` -/

theorem and_shl1_ne_zero (x s : Nat) : (x &&& shl1 s ≠ 0) ↔ x.testBit s = true := by
  unfold shl1
  rw [Nat.and_comm, Nat.two_pow_and]
  cases h : x.testBit s
  · simp
  · simp

theorem count_in_use_eq (bitmap : Nat → Nat) (hi : Nat) :
    ∀ k, k ≤ hi → ∀ c : Int,
      count_in_use bitmap hi k c =
        c + (((List.range' (hi - k) k).filter
          (fun i => (bitmap (i / 32)).testBit (i % 32))).length : Int) := by
  intro k
  induction k with
  | zero => intro _ c; simp [count_in_use]
  | succ k ih =>
    intro hk c
    rw [count_in_use]
    simp only [BITS_PER_UINT]
    have e : hi - k = (hi - (k + 1)) + 1 := by omega
    rw [List.range'_succ, ← e]
    by_cases hb : (bitmap ((hi - (k + 1)) / 32)).testBit ((hi - (k + 1)) % 32) = true
    · rw [if_pos ((and_shl1_ne_zero _ _).mpr hb), ih (by omega)]
      rw [List.filter_cons_of_pos (by simpa using hb)]
      simp only [List.length_cons]
      push_cast
      ring
    · rw [if_neg (fun h => hb ((and_shl1_ne_zero _ _).mp h)), ih (by omega)]
      rw [List.filter_cons_of_neg (by simpa using hb)]

theorem count_inodes_eq (sBlock : Block) :
    ∀ k, k ≤ 4 → ∀ c : Int,
      count_inodes sBlock k c =
        c + (((List.range' (128 * (4 - k)) (128 * k)).filter (inode_bit sBlock)).length : Int) := by
  intro k
  induction k with
  | zero => intro _ c; simp [count_inodes]
  | succ k ih =>
    intro hk c
    rw [count_inodes]
    simp only [NUM_INODES, INODES_PER_BLOCK]
    have e1 : 512 / 128 - k = 4 - k := by norm_num
    rw [e1, count_in_use_eq _ _ 128 (by omega), ih (by omega)]
    have e2 : 128 + 128 * (4 - k - 1) - 128 = 128 * (4 - (k + 1)) := by omega
    have hsplit : List.range' (128 * (4 - (k + 1))) (128 * (k + 1)) =
        List.range' (128 * (4 - (k + 1))) 128 ++ List.range' (128 * (4 - k)) (128 * k) := by
      have ha : 128 * (4 - k) = 128 * (4 - (k + 1)) + 128 := by omega
      have hb : 128 * (k + 1) = 128 + 128 * k := by omega
      rw [ha, List.range'_append_1, hb, Nat.add_comm 128 (128 * k)]
    have ef : (fun i => (inode_in_use sBlock (i / 32)).testBit (i % 32)) = inode_bit sBlock := by
      funext i
      rfl
    rw [e2, hsplit, List.filter_append, List.length_append, ef]
    omega

/-- The second count of `tfs_debug` is the number of set bits among the 512
bits of the inode bitmap. -/
theorem count_inodes_set (sBlock : Block) :
    count_inodes sBlock (NUM_INODES / INODES_PER_BLOCK) 0 = (inodes_set sBlock : Int) := by
  have h := count_inodes_eq sBlock 4 (le_refl _) 0
  simp only [NUM_INODES, INODES_PER_BLOCK, inodes_set, List.range_eq_range']
  have e : 512 / 128 = 4 := by norm_num
  rw [e, h]
  simp

theorem printf_run (fmt : String) (args : List PArg) (w : World) :
    printf fmt args w = (.ok (), ⟨w.disk, w.out ++ [(fmt, args)]⟩) := rfl

theorem debug_signature_run (block : Block) (w : World) :
    debug_signature block w =
      (.ok (), ⟨w.disk, w.out ++ [if signature block = TFS_MAGIC
        then ("      signature is valid\n", []) else ("      signature is invalid\n", [])]⟩) := by
  unfold debug_signature
  split <;> rfl

/-- The first four lines `tfs_debug` prints, whatever happens afterwards: the
header, the signature check, the count of blocks in use, the count of inodes
in use. -/
theorem debug_lines_head (d : Disk) :
    ∃ rest, debug_lines d =
      [(" superblock:\n", []), signature_line d,
        blocks_line (count_in_use (block_in_use (d 0)) NUM_BLOCKS NUM_BLOCKS 0),
        inodes_line (inodes_set (d 0))] ++ rest := by
  unfold debug_lines tfs_debug
  rw [bind_ok _ _ _ _ _ (disk_read_ok 0 _ (by norm_num) (by norm_num))]
  rw [bind_ok _ _ _ _ _ (printf_run _ _ _)]
  rw [bind_ok _ _ _ _ _ (debug_signature_run _ _)]
  simp only []
  rw [bind_ok _ _ _ _ _ (printf_run _ _ _)]
  rw [bind_ok _ _ _ _ _ (printf_run _ _ _)]
  obtain ⟨_, l, hl⟩ := quiet_debug_root (d 0) ⟨d, [] ++ [(" superblock:\n", [])] ++
    [if signature (d 0) = TFS_MAGIC then ("      signature is valid\n", [])
      else ("      signature is invalid\n", [])] ++
    [("      %d blocks in use \n", [.int (count_in_use (block_in_use (d 0)) NUM_BLOCKS NUM_BLOCKS 0)])] ++
    [("      %d inodes in use\n", [.int (count_inodes (d 0) (NUM_INODES / INODES_PER_BLOCK) 0)])]⟩
  refine ⟨l, ?_⟩
  simp only [Int.toNat_zero]
  rw [hl, count_inodes_set]
  simp [signature_line, blocks_line, inodes_line]

/-! ## Lookup after a deletion -/

theorem entry_word (j t : Nat) (ht : t < 24) :
    8 * j + 1 ≤ (32 * j + 4 + t) / 4 ∧ (32 * j + 4 + t) / 4 ≤ 8 * j + 6 := by
  omega

theorem fname_string_congr (b b' : Block) (j : Nat)
    (h : ∀ x, 8 * j + 1 ≤ x → x ≤ 8 * j + 6 → b x = b' x) :
    ∀ r, r ≤ 24 → fname_string b j r = fname_string b' j r := by
  have hf : ∀ t, t < 24 → dentry_fname b j t = dentry_fname b' j t := by
    intro t ht
    unfold dentry_fname block_data
    rw [h _ (entry_word j t ht).1 (entry_word j t ht).2]
  intro r
  induction r with
  | zero => intro _; rfl
  | succ r ih =>
    intro hr
    rw [fname_string, fname_string, ih (by omega), hf _ (by omega)]

theorem entry_is_congr (filename : List Nat) (b b' : Block) (j : Nat)
    (h : ∀ x, 8 * j ≤ x → x ≤ 8 * j + 6 → b x = b' x) :
    entry_is filename b j ↔ entry_is filename b' j := by
  unfold entry_is entry_name dentry_valid
  rw [h (8 * j) (le_refl _) (by omega),
    fname_string_congr b b' j (fun x h1 h2 => h x (by omega) h2) 24 (le_refl _)]

theorem exists_ptrs_end (ptr : Nat → Int) :
    ∀ bound, (∀ k, k < bound → 0 ≤ ptr k ∧ ptr k < 2048) → ∃ N, ptrs_end ptr bound N := by
  intro bound
  induction bound with
  | zero => intro _; exact ⟨0, fun k hk => by omega, Or.inl rfl⟩
  | succ bound ih =>
    intro h
    obtain ⟨N, hN, hend⟩ := ih (fun k hk => h k (by omega))
    rcases hend with hend | ⟨hlt, hz⟩
    · subst hend
      by_cases hz : ptr N = 0
      · exact ⟨N, hN, Or.inr ⟨by omega, hz⟩⟩
      · refine ⟨N + 1, ?_, Or.inl rfl⟩
        intro k hk
        by_cases hkN : k = N
        · subst hkN
          exact ⟨hz, h k (by omega)⟩
        · exact hN k (by omega)
    · exact ⟨N, hN, Or.inr ⟨by omega, hz⟩⟩

theorem exists_indirect_ok (d : Disk) (node : tfs_inode) (h : pointers_in_range d node) :
    ∃ M, indirect_ok d node M := by
  by_cases hind : node.indirect = 0
  · exact ⟨0, Or.inl hind⟩
  · obtain ⟨M, hM⟩ := exists_ptrs_end (pointers (d node.indirect.toNat)) 1024 (h.2.2.2 hind)
    exact ⟨M, Or.inr ⟨h.2.1, h.2.2.1, hM⟩⟩

/-- A directory whose pages can all be read either holds a first entry named
`filename` or holds none. -/
theorem match_cases (d : Disk) (filename : List Nat) (m : Nat) (hroot : root_ok d)
    (hend : m = 5 ∨ (m < 5 ∧ (root_node d).direct m = 0))
    (hptr : ∀ i', i' < m → dir_ptr_ok (root_node d) i') :
    (∃ i j, i < m ∧ first_match d filename i j) ∨ no_match d filename m := by
  by_cases hex : ∃ p, p < m * 128 ∧ entry_is filename (dir_page d (p / 128)) (p % 128)
  · left
    refine ⟨Nat.find hex / 128, Nat.find hex % 128, ?_, hroot, ?_, Nat.mod_lt _ (by norm_num),
      ?_, (Nat.find_spec hex).2, ?_, ?_⟩
    · have := (Nat.find_spec hex).1
      omega
    · have := (Nat.find_spec hex).1
      rcases hend with h | h <;> omega
    · intro i' hi'
      have := (Nat.find_spec hex).1
      exact hptr i' (by omega)
    · intro j' hj' hm
      have hlt : Nat.find hex / 128 * 128 + j' < Nat.find hex := by omega
      apply Nat.find_min hex hlt
      have h1 : (Nat.find hex / 128 * 128 + j') / 128 = Nat.find hex / 128 := by omega
      have h2 : (Nat.find hex / 128 * 128 + j') % 128 = j' := by omega
      rw [h1, h2]
      exact ⟨by have := (Nat.find_spec hex).1; omega, hm⟩
    · intro i' hi' j' hj' hm
      have hlt : i' * 128 + j' < Nat.find hex := by omega
      apply Nat.find_min hex hlt
      have h1 : (i' * 128 + j') / 128 = i' := by omega
      have h2 : (i' * 128 + j') % 128 = j' := by omega
      rw [h1, h2]
      exact ⟨by have := (Nat.find_spec hex).1; omega, hm⟩
  · right
    refine ⟨hroot, hend, hptr, ?_⟩
    intro i' hi' j' hj' hm
    apply hex
    refine ⟨i' * 128 + j', by omega, ?_⟩
    have h1 : (i' * 128 + j') / 128 = i' := by omega
    have h2 : (i' * 128 + j') % 128 = j' := by omega
    rw [h1, h2]
    exact hm

theorem delete_not_found (w : World) (filename : List Nat) (m : Nat)
    (h0 : 0 ∉ filename) (hfit : filename.length < 24 ∨ names_terminated w.disk m)
    (h : no_match w.disk filename m) :
    tfs_delete filename w = (.ok 0, w) := by
  unfold tfs_delete
  rw [bind_ok _ _ w w _ (load_root_run w h.1)]
  simp only [POINTERS_PER_INODE]
  rw [bind_ok _ _ w w _ (scan_no_match w filename m h0 hfit h)]
  rfl

theorem after_delete_no_match (d : Disk) (filename : List Nat) (i j N M m : Nat)
    (h : first_match d filename i j)
    (hN : ptrs_end (file_node d i j).direct 5 N) (hI : indirect_ok d (file_node d i j) M)
    (hn : (dentry_inum (dir_page d i) j).toNat < 512)
    (hend : m = 5 ∨ (m < 5 ∧ (root_node d).direct m = 0))
    (hptr : ∀ i', i' < m → dir_ptr_ok (root_node d) i')
    (hother : ∀ i', i' < m → ∀ j', j' < 128 → (i' ≠ i ∨ j' ≠ j) →
      ¬ entry_is filename (dir_page d i') j') :
    no_match (disk_after_delete d i j N M) filename m := by
  have hdi : dir_ptr_ok (root_node d) i := h.2.2.2.1 i (by omega)
  have hroot := after_delete_root d i j N M hdi hN hI hn
  have hm5 : m ≤ 5 := by rcases hend with h | h <;> omega
  refine ⟨?_, ?_, ?_, ?_⟩
  · unfold root_ok
    rw [hroot.1]
    exact h.1
  · rcases hend with h | ⟨h1, h2⟩
    · exact Or.inl h
    · exact Or.inr ⟨h1, by rw [hroot.2 m h1]; exact h2⟩
  · intro i' hi'
    unfold dir_ptr_ok
    rw [hroot.2 i' (by omega)]
    exact hptr i' hi'
  · intro i' hi' j' hj' hm
    have hp := hptr i' hi'
    have hbnz : ((root_node d).direct i').toNat ≠ 0 := toNat_ne_zero _ hp.1 hp.2.1
    have hpage : dir_page (disk_after_delete d i j N M) i' =
        disk_after_delete d i j N M ((root_node d).direct i').toNat := by
      unfold dir_page
      rw [hroot.2 i' (by omega)]
    rw [hpage] at hm
    by_cases hsame : ((root_node d).direct i').toNat = ((root_node d).direct i).toNat ∧ j' = j
    · apply hm.1
      unfold dentry_valid
      rw [after_delete_words d i j N M _ _ hbnz, if_pos ⟨hsame.1, by rw [hsame.2]⟩]
      rfl
    · have hcongr := entry_is_congr filename
        (disk_after_delete d i j N M ((root_node d).direct i').toNat)
        (d ((root_node d).direct i').toNat) j'
        (fun x h1 h2 => by
          rw [after_delete_words d i j N M _ _ hbnz, if_neg]
          intro hx
          apply hsame
          exact ⟨hx.1, by omega⟩)
      apply hother i' hi' j' hj' _ (hcongr.mp hm)
      by_cases hii : i' = i
      · right
        intro hjj
        exact hsame ⟨by rw [hii], hjj⟩
      · exact Or.inl hii

theorem inodes_set_after_delete (d : Disk) (i j N M : Nat)
    (hdi : dir_ptr_ok (root_node d) i)
    (hN : ptrs_end (file_node d i j).direct 5 N) (hI : indirect_ok d (file_node d i j) M)
    (hn : (dentry_inum (dir_page d i) j).toNat < 512)
    (hbit : inode_bit (d 0) (dentry_inum (dir_page d i) j).toNat = true) :
    inodes_set (disk_after_delete d i j N M 0) + 1 = inodes_set (d 0) := by
  have h := count_remove_one (inode_bit (d 0)) (inode_bit (disk_after_delete d i j N M 0))
    (dentry_inum (dir_page d i) j).toNat hbit 512
    (fun p hp => after_delete_inode_bit d i j N M p hdi hN hI hp)
  rw [if_pos hn] at h
  exact h

theorem delete_then_absent (w : World) (filename : List Nat) (m : Nat) (n : Int)
    (hwf : well_formed w.disk m) (h0 : 0 ∉ filename)
    (hbit : ∀ i', i' < m → ∀ j', j' < 128 → entry_is filename (dir_page w.disk i') j' →
      inode_bit (w.disk 0) (dentry_inum (dir_page w.disk i') j').toNat = true)
    (hret : (tfs_delete filename w).1 = .ok n) (hn : n ≠ 0) :
    tfs_get_inumber filename (tfs_delete filename w).2 = (.ok 0, (tfs_delete filename w).2) ∧
    ∃ c : Int, (debug_lines w.disk)[3]? = some (inodes_line c) ∧
      (debug_lines (tfs_delete filename w).2.disk)[3]? = some (inodes_line (c - 1)) := by
  obtain ⟨hroot, hend, hptr, hentries, huniq⟩ := hwf
  have hterm : names_terminated w.disk m := fun i' hi' j' hj' hv => (hentries i' hi' j' hj' hv).1
  rcases match_cases w.disk filename m hroot hend hptr with ⟨i, j, him, hfm⟩ | hno
  · have hj : j < 128 := hfm.2.2.1
    have hval : dentry_valid (dir_page w.disk i) j ≠ 0 := hfm.2.2.2.2.1.1
    obtain ⟨_, hn0, hn1, hpir⟩ := hentries i him j hj hval
    obtain ⟨N, hN⟩ := exists_ptrs_end (file_node w.disk i j).direct 5 hpir.1
    obtain ⟨M, hI⟩ := exists_indirect_ok w.disk (file_node w.disk i j) hpir
    have hrun := delete_run w filename i j N M hfm (inum_readable_of_range _ i j hn0 hn1) hN hI
      (fun _ => ⟨hn0, hn1⟩)
    have hdi : dir_ptr_ok (root_node w.disk) i := hptr i him
    have hnn : (dentry_inum (dir_page w.disk i) j).toNat < 512 := by omega
    by_cases hc : N + ind_count (file_node w.disk i j) M ≠ 0
    · rw [if_pos hc] at hrun
      rw [hrun]
      refine ⟨?_, (inodes_set (w.disk 0) : Int), ?_, ?_⟩
      · refine get_inumber_not_found _ filename m h0
          (Or.inl (entry_is_fits filename _ j hfm.2.2.2.2.1).2)
          (after_delete_no_match w.disk filename i j N M m hfm hN hI hnn hend hptr ?_)
        intro i' hi' j' hj' hne hm
        apply huniq i him j hj hval i' hi' j' hj' ⟨hm.1, by
          rcases hne with h | h
          · exact Or.inl (Ne.symm h)
          · exact Or.inr (Ne.symm h)⟩
        rw [hfm.2.2.2.2.1.2, hm.2]
      · obtain ⟨rest, hr⟩ := debug_lines_head w.disk
        rw [hr]
        simp
      · obtain ⟨rest, hr⟩ := debug_lines_head (disk_after_delete w.disk i j N M)
        show (debug_lines (disk_after_delete w.disk i j N M))[3]? = _
        rw [hr]
        have hcount := inodes_set_after_delete w.disk i j N M hdi hN hI hnn
          (hbit i him j hj hfm.2.2.2.2.1)
        have e : ((inodes_set (w.disk 0) : Int) - 1) =
            (inodes_set (disk_after_delete w.disk i j N M 0) : Int) := by
          omega
        rw [e]
        simp
    · rw [if_neg hc] at hrun
      rw [hrun] at hret
      exact absurd (Except.ok.inj hret).symm hn
  · rw [delete_not_found w filename m h0 (Or.inr hterm) hno] at hret
    exact absurd (Except.ok.inj hret).symm hn

/-- C9: on a well-formed image (names unique among valid entries, directory
pages readable, inode numbers and pointers of valid entries in range, the
inode bit of the file set) on which `tfs_delete` returns a non-zero inode
number, `tfs_get_inumber` of the same name on the resulting image returns 0,
and the count of inodes in use that `tfs_debug` prints (its fourth line) is
one less on the resulting image than on the image before. -/
theorem C9_delete_then_absent_and_one_inode_less (w : World) (filename : List Nat) (m : Nat)
    (n : Int) (hwf : well_formed w.disk m) (h0 : 0 ∉ filename)
    (hbit : ∀ i', i' < m → ∀ j', j' < 128 → entry_is filename (dir_page w.disk i') j' →
      inode_bit (w.disk 0) (dentry_inum (dir_page w.disk i') j').toNat = true)
    (hret : (tfs_delete filename w).1 = .ok n) (hn : n ≠ 0) :
    tfs_get_inumber filename (tfs_delete filename w).2 = (.ok 0, (tfs_delete filename w).2) ∧
    ∃ c : Int, (debug_lines w.disk)[3]? = some (inodes_line c) ∧
      (debug_lines (tfs_delete filename w).2.disk)[3]? = some (inodes_line (c - 1)) :=
  delete_then_absent w filename m n hwf h0 hbit hret hn

set_option maxRecDepth 100000 in
/-- C9 on the scenario image: after `a.txt` (inode 2) is deleted the lookup
of `a.txt` returns 0 and `tfs_debug` counts one inode less. -/
theorem C9_delete_then_absent_and_one_inode_less_witness :
    tfs_get_inumber a_txt (tfs_delete a_txt exWorld).2 = (.ok 0, (tfs_delete a_txt exWorld).2) ∧
    ∃ c : Int, (debug_lines exWorld.disk)[3]? = some (inodes_line c) ∧
      (debug_lines (tfs_delete a_txt exWorld).2.disk)[3]? = some (inodes_line (c - 1)) :=
  C9_delete_then_absent_and_one_inode_less exWorld a_txt 1 2 (by decide) (by decide)
    (by decide) (by rfl) (by decide)

/-- C10: `tfs_debug`, `tfs_get_inumber`, `tfs_getsize` and `tfs_read` write no
block: for every image and every argument, whether the call returns or
faults, the image after the call is the image before it.  `tfs_delete` does
change blocks: on the scenario image it changes block 5. -/
theorem C10_only_delete_writes :
    (∀ w : World, (tfs_debug w).2.disk = w.disk) ∧
    (∀ (filename : List Nat) (w : World), (tfs_get_inumber filename w).2.disk = w.disk) ∧
    (∀ (filename : List Nat) (w : World), (tfs_getsize filename w).2.disk = w.disk) ∧
    (∀ (inumber : Int) (data : List Nat) (length offset : Int) (w : World),
      (tfs_read inumber data length offset w).2.disk = w.disk) ∧
    (tfs_delete a_txt exWorld).2.disk 5 ≠ exWorld.disk 5 := by
  refine ⟨fun w => (quiet_debug w).1, fun f w => (quiet_get_inumber f w).1,
    fun f w => (quiet_getsize f w).1, fun i d l o w => (quiet_read i d l o w).1, ?_⟩
  intro h
  have h2 : (tfs_delete a_txt exWorld).2.disk 5 0 = exWorld.disk 5 0 := by rw [h]
  revert h2
  decide

/-! ## Running `tfs_read`: the count -/

theorem copy_bytes_count (block : Block) (size length offset : Int) :
    ∀ (k : Nat) (c : Int) (data : List Nat) (rem : Nat),
      c + rem ≤ length → c + rem + offset ≤ size →
      (c + rem = length ∨ c + rem + offset = size) →
      (copy_bytes block size length offset k c data).returned = decide (rem < k) ∧
      (copy_bytes block size length offset k c data).bytesRead = c + (min rem k : Nat) := by
  intro k
  induction k with
  | zero => intro c data rem _ _ _; simp [copy_bytes]
  | succ k ih =>
    intro c data rem h1 h2 h3
    rw [copy_bytes]
    by_cases hr : rem = 0
    · subst hr
      simp only [Nat.cast_zero, add_zero] at h1 h2 h3
      by_cases hs : c + offset = size
      · simp [hs]
      · have hl : c = length := by
          rcases h3 with h | h
          · exact h
          · exact absurd h hs
        simp [hs, hl]
    · have hs : ¬ (c + offset = size) := by omega
      have hl : ¬ (c = length) := by omega
      simp only [hs, hl, if_false]
      obtain ⟨ih1, ih2⟩ := ih (c + 1) (strncat1 data (block_data block (DISK_BLOCK_SIZE - (k + 1))))
        (rem - 1) (by omega) (by omega) (by omega)
      rw [ih1, ih2]
      refine ⟨?_, ?_⟩
      · simp only [decide_eq_decide]
        omega
      · omega

theorem read_blocks_count (ptr : Nat → Int) (bound : Nat) (size length offset : Int)
    (hptr : ∀ x, x < bound → 0 ≤ ptr x ∧ ptr x < 2048) (w : World) :
    ∀ (k : Nat), k ≤ bound → ∀ (c : Int) (data : List Nat) (rem : Nat),
      c + rem ≤ length → c + rem + offset ≤ size →
      (c + rem = length ∨ c + rem + offset = size) →
      ∃ data', read_blocks ptr bound size length offset k c data w =
        (.ok ⟨decide (rem < 4096 * k), c + (min rem (4096 * k) : Nat), data'⟩, w) := by
  intro k
  induction k with
  | zero =>
    intro _ c data rem _ _ _
    exact ⟨data, by simp [read_blocks, pure_run]⟩
  | succ k ih =>
    intro hk c data rem h1 h2 h3
    rw [read_blocks]
    obtain ⟨hp0, hp1⟩ := hptr (bound - (k + 1)) (by omega)
    rw [bind_ok _ _ w w _ (disk_read_ok _ w hp0 hp1)]
    obtain ⟨hc1, hc2⟩ := copy_bytes_count (w.disk (ptr (bound - (k + 1))).toNat) size length offset
      4096 c data rem h1 h2 h3
    simp only [DISK_BLOCK_SIZE]
    generalize copy_bytes (w.disk (ptr (bound - (k + 1))).toNat) size length offset
      4096 c data = r at hc1 hc2 ⊢
    obtain ⟨ret, br, dt⟩ := r
    simp only [] at hc1 hc2
    subst hc1 hc2
    by_cases hr : rem < 4096
    · refine ⟨dt, ?_⟩
      have e1 : decide (rem < 4096 * (k + 1)) = true := by
        rw [decide_eq_true_eq]
        omega
      have e2 : min rem (4096 * (k + 1)) = rem := by omega
      have e3 : min rem 4096 = rem := by omega
      have e4 : decide (rem < 4096) = true := by
        rw [decide_eq_true_eq]
        exact hr
      rw [e1, e2, e3, e4]
      rfl
    · have e3 : min rem 4096 = 4096 := by omega
      have e4 : decide (rem < 4096) = false := by
        rw [decide_eq_false_iff_not]
        exact hr
      obtain ⟨data', hd⟩ := ih (by omega) (c + (4096 : Nat)) dt
        (rem - 4096) (by omega) (by omega) (by omega)
      refine ⟨data', ?_⟩
      rw [e3, e4]
      simp only [Bool.false_eq_true, if_false]
      rw [hd]
      have e5 : decide (rem - 4096 < 4096 * k) = decide (rem < 4096 * (k + 1)) := by
        rw [decide_eq_decide]
        omega
      have e6 : c + ((4096 : Nat) : Int) + ((min (rem - 4096) (4096 * k) : Nat) : Int) =
          c + ((min rem (4096 * (k + 1)) : Nat) : Int) := by
        omega
      rw [e5, e6]

theorem read_count (w : World) (inumber : Int) (data : List Nat) (length offset : Int)
    (hino : inumber_readable inumber)
    (hptr : pointers_in_range w.disk (inode_of w.disk inumber))
    (hoff0 : 0 ≤ offset) (halign : offset % 4096 = 0)
    (hoff1 : offset ≤ (inode_of w.disk inumber).size) (hlen : 0 ≤ length)
    (hcap : (inode_of w.disk inumber).size ≤ capacity (inode_of w.disk inumber)) :
    ∃ buf, tfs_read inumber data length offset w =
      (.ok (min length ((inode_of w.disk inumber).size - offset), buf), w) := by
  unfold tfs_read
  simp only [INODES_PER_BLOCK, DISK_BLOCK_SIZE, POINTERS_PER_INODE, POINTERS_PER_BLOCK,
    Nat.cast_ofNat, strcpy]
  rw [bind_ok _ _ w w _ (disk_read_ok _ w hino.2.1 hino.2.2)]
  rw [inode_at_ok _ _ hino.1 (tmod_128_lt _), liftE_ok_bind]
  generalize hnode : inode_of w.disk inumber = node at hptr hoff1 hcap ⊢
  have hnode' : inode_record (w.disk (Int.tdiv inumber 128 + 1).toNat)
      (Int.tmod inumber 128).toNat = node := hnode
  rw [hnode']
  have hi : Int.tdiv offset 4096 = offset / 4096 := Int.tdiv_eq_ediv hoff0 (by norm_num)
  rw [hi, if_neg (by omega)]
  obtain ⟨T, hT⟩ : ∃ T : Nat, (T : Int) = min length (node.size - offset) :=
    ⟨(min length (node.size - offset)).toNat, by omega⟩
  obtain ⟨i, hio⟩ : ∃ i : Nat, offset = 4096 * (i : Int) := ⟨(offset / 4096).toNat, by omega⟩
  have hidiv : (offset / 4096).toNat = i := by omega
  rw [hidiv, ← hT]
  unfold capacity at hcap
  simp only [POINTERS_PER_INODE, POINTERS_PER_BLOCK, DISK_BLOCK_SIZE, Nat.cast_ofNat] at hcap
  obtain ⟨d1, hd1⟩ := read_blocks_count node.direct 5 node.size length offset hptr.1 w
    (5 - i) (by omega) 0 [] T (by omega) (by omega) (by omega)
  rw [bind_ok _ _ w w _ hd1]
  simp only [zero_add]
  by_cases hr1 : T < 4096 * (5 - i)
  · refine ⟨d1, ?_⟩
    rw [if_pos (by simpa using hr1), pure_run]
    have : min T (4096 * (5 - i)) = T := by omega
    rw [this]
  · rw [if_neg (by simpa using hr1)]
    by_cases hind : node.indirect = 0
    · refine ⟨d1, ?_⟩
      rw [if_pos hind, pure_run]
      rw [if_pos hind] at hcap
      have : min T (4096 * (5 - i)) = T := by omega
      rw [this]
    · rw [if_neg hind]
      rw [if_neg hind] at hcap
      rw [bind_ok _ _ w w _ (disk_read_ok _ w hptr.2.1 hptr.2.2.1)]
      obtain ⟨d2, hd2⟩ := read_blocks_count (pointers (w.disk node.indirect.toNat)) 1024
        node.size length offset (hptr.2.2.2 hind) w (1024 - (i - 5)) (by omega)
        ((min T (4096 * (5 - i)) : Nat) : Int) d1 (T - 4096 * (5 - i))
        (by omega) (by omega) (by omega)
      rw [bind_ok _ _ w w _ hd2]
      refine ⟨d2, ?_⟩
      rw [pure_run]
      have : ((min T (4096 * (5 - i)) : Nat) : Int) +
          ((min (T - 4096 * (5 - i)) (4096 * (1024 - (i - 5))) : Nat) : Int) = (T : Int) := by
        omega
      rw [this]

/-- C4: for an inode whose stored size does not exceed the capacity of its
pointers (5 blocks when the indirect pointer is 0, 5 + 1024 blocks otherwise),
a block-aligned offset with `0 <= offset <= size` and a length `>= 0`,
`tfs_read` returns `size - offset` when `length >= size - offset` and returns
`length` when `length < size - offset`.  The pointer slots of the inode (and
of its indirect block) are assumed to hold block numbers of the device, and
the inode number to yield a readable record. -/
theorem C4_read_returns_remaining_or_length (w : World) (inumber : Int) (data : List Nat)
    (length offset : Int) (hino : inumber_readable inumber)
    (hptr : pointers_in_range w.disk (inode_of w.disk inumber))
    (hoff0 : 0 ≤ offset) (halign : offset % DISK_BLOCK_SIZE = 0)
    (hoff1 : offset ≤ (inode_of w.disk inumber).size) (hlen : 0 ≤ length)
    (hcap : (inode_of w.disk inumber).size ≤ capacity (inode_of w.disk inumber)) :
    ((inode_of w.disk inumber).size - offset ≤ length →
      ∃ buf, tfs_read inumber data length offset w =
        (.ok ((inode_of w.disk inumber).size - offset, buf), w)) ∧
    (length < (inode_of w.disk inumber).size - offset →
      ∃ buf, tfs_read inumber data length offset w = (.ok (length, buf), w)) := by
  obtain ⟨buf, h⟩ := read_count w inumber data length offset hino hptr hoff0
    (by simpa using halign) hoff1 hlen hcap
  constructor
  · intro hle
    exact ⟨buf, by rw [h, min_eq_right hle]⟩
  · intro hlt
    exact ⟨buf, by rw [h, min_eq_left (le_of_lt hlt)]⟩

/-- C4 on the scenario image (inode 2 has size 10): a read of 40 bytes from
offset 0 returns 10, a read of 4 bytes returns 4. -/
theorem C4_read_returns_remaining_or_length_witness :
    (∃ buf, tfs_read 2 [] 40 0 exWorld = (.ok ((inode_of exWorld.disk 2).size - 0, buf), exWorld)) ∧
    (∃ buf, tfs_read 2 [] 4 0 exWorld = (.ok (4, buf), exWorld)) :=
  ⟨(C4_read_returns_remaining_or_length exWorld 2 [] 40 0 (by decide) (by decide) (by decide)
      (by decide) (by decide) (by decide) (by decide)).1 (by decide),
    (C4_read_returns_remaining_or_length exWorld 2 [] 4 0 (by decide) (by decide) (by decide)
      (by decide) (by decide) (by decide) (by decide)).2 (by decide)⟩

/-- C5 fails on the code: on the scenario image whose file content has a zero
byte at position 4, `tfs_read(2, buf, 10, 0)` returns 10 while the destination
holds 9 bytes, and byte 4 of the destination is byte 5 of the file:
`strncat` appends nothing for a zero byte, yet the byte is counted. -/
theorem C5_read_counts_zero_byte_without_copying :
    block_data (exWorldZero.disk 10) 4 = 0 ∧
    (tfs_read 2 [] 10 0 exWorldZero).1 = .ok (10, [48, 49, 50, 51, 53, 54, 55, 56, 57]) := by
  constructor
  · decide
  · rfl

/-! ## Both counts of `tfs_debug` -/

/-- The first count of `tfs_debug` is the number of set bits among the 2048
bits of the block bitmap. -/
theorem count_blocks_set (block : Block) :
    count_in_use (block_in_use block) NUM_BLOCKS NUM_BLOCKS 0 = (blocks_set block : Int) := by
  have h := count_in_use_eq (block_in_use block) 2048 2048 (le_refl _) 0
  simp only [NUM_BLOCKS, blocks_set, List.range_eq_range']
  rw [h]
  have ef : (fun i => (block_in_use block (i / 32)).testBit (i % 32)) = block_bit block := by
    funext i
    rfl
  rw [ef]
  simp

theorem debug_lines_counts (d : Disk) :
    ∃ rest, debug_lines d =
      [(" superblock:\n", []), signature_line d,
        blocks_line (blocks_set (d 0)), inodes_line (inodes_set (d 0))] ++ rest := by
  obtain ⟨rest, h⟩ := debug_lines_head d
  exact ⟨rest, by rw [h, count_blocks_set]⟩

/-- C11: for every superblock, the number `tfs_debug` prints as blocks in use
is the number of set bits among the `NUM_BLOCKS = 2048` bits of the block
bitmap, and the number it prints as inodes in use is the number of set bits
among the `NUM_INODES = 512` bits of the inode bitmap: every bit index is
counted once, bit 31 of each word included.  The two counts are the third and
fourth line printed, whatever the rest of the image holds. -/
theorem C11_debug_counts_are_popcounts (d : Disk) :
    (debug_lines d)[2]? =
      some (blocks_line (((List.range NUM_BLOCKS).filter
        (fun p => (block_in_use (d 0) (p / BITS_PER_UINT)).testBit (p % BITS_PER_UINT))).length)) ∧
    (debug_lines d)[3]? =
      some (inodes_line (((List.range NUM_INODES).filter
        (fun n => (inode_in_use (d 0) (n / BITS_PER_UINT)).testBit (n % BITS_PER_UINT))).length)) := by
  obtain ⟨rest, h⟩ := debug_lines_counts d
  rw [h]
  constructor
  · simp
    rfl
  · simp
    rfl

/-! ## The indirect block is freed without being counted -/

/-- C12 fails on the code: for the file `a.txt` of `exWorldIndOnly`, found by
name, with no direct pointer and a non-zero indirect pointer (block 20, which
lists no pointer), `tfs_delete` turns off bit 20 of the block bitmap but does
not count it: the counter stays 0, the call returns 0 instead of the inode
number 2, the inode bit stays set and the directory entry stays valid. -/
theorem C12_indirect_block_freed_but_not_counted :
    first_match exWorldIndOnly.disk a_txt 0 0 ∧
    (file_node exWorldIndOnly.disk 0 0).direct 0 = 0 ∧
    (file_node exWorldIndOnly.disk 0 0).indirect = 20 ∧
    pointers (exWorldIndOnly.disk 20) 0 = 0 ∧
    dentry_inum (dir_page exWorldIndOnly.disk 0) 0 = 2 ∧
    (tfs_delete a_txt exWorldIndOnly).1 = .ok 0 ∧
    block_bit (exWorldIndOnly.disk 0) 20 = true ∧
    block_bit ((tfs_delete a_txt exWorldIndOnly).2.disk 0) 20 = false ∧
    inode_bit ((tfs_delete a_txt exWorldIndOnly).2.disk 0) 2 = true ∧
    dentry_valid (dir_page (tfs_delete a_txt exWorldIndOnly).2.disk 0) 0 = 1 := by
  refine ⟨by decide, by decide, by decide, by decide, by decide, by rfl, by decide, by decide,
    by decide, by decide⟩

theorem exIndOnly_pointers :
    pointers_in_range exWorldIndOnly.disk (file_node exWorldIndOnly.disk 0 0) := by
  refine ⟨by decide, by decide, by decide, ?_⟩
  intro _ k _
  have h20 : (file_node exWorldIndOnly.disk 0 0).indirect.toNat = 20 := by decide
  rw [h20]
  have : pointers (exWorldIndOnly.disk 20) k = 0 := rfl
  rw [this]
  decide

theorem exIndOnly_invalid : ∀ j, j < 128 → j ≠ 0 →
    dentry_valid (dir_page exWorldIndOnly.disk 0) j = 0 := by
  decide

set_option maxRecDepth 100000 in
theorem exIndOnly_well_formed : well_formed exWorldIndOnly.disk 1 := by
  refine ⟨by decide, by decide, by decide, ?_, by decide⟩
  intro i' hi' j' hj' hv
  have hi0 : i' = 0 := by omega
  subst hi0
  by_cases hj0 : j' = 0
  · subst hj0
    exact ⟨by decide, by decide, by decide, exIndOnly_pointers⟩
  · exact absurd (exIndOnly_invalid j' hj' hj0) hv

/-- C13 fails on the code: `exWorldIndOnly` is well formed (all pointers in
range), its only valid entry carries inode number 2, and `tfs_delete` of
`a.txt` returns 0; yet the image after the call is not the image before it:
bit 20 of the block bitmap (word 4 of block 0) has been turned off. -/
theorem C13_delete_returns_zero_after_freeing :
    well_formed exWorldIndOnly.disk 1 ∧
    (∀ j, j < 128 → dentry_valid (dir_page exWorldIndOnly.disk 0) j ≠ 0 →
      dentry_inum (dir_page exWorldIndOnly.disk 0) j ≠ 0) ∧
    (tfs_delete a_txt exWorldIndOnly).1 = .ok 0 ∧
    block_bit (exWorldIndOnly.disk 0) 20 = true ∧
    block_bit ((tfs_delete a_txt exWorldIndOnly).2.disk 0) 20 = false ∧
    (tfs_delete a_txt exWorldIndOnly).2.disk ≠ exWorldIndOnly.disk := by
  refine ⟨exIndOnly_well_formed, by decide, by rfl, by decide, by decide, ?_⟩
  intro h
  have h2 : (tfs_delete a_txt exWorldIndOnly).2.disk 0 4 = exWorldIndOnly.disk 0 4 := by rw [h]
  revert h2
  decide

/-! ## The root inode record -/

/-- C18 fails on the code: in `exWorldRoot128` the root inode number is 128,
inside `[0, NUM_INODES)`; record `128 % 128 = 0` of table block
`128 / 128 + 1 = 2` is the root directory, whose page (block 5) holds the valid
entry `a.txt`.  The four operations read table block 2 and then subscript it
with 128, not with `128 % 128`: the subscript is outside the 128 records of the
block, and no operation returns.  A file inode is subscripted with
`n % INODES_PER_BLOCK` (here `inode_at` of `130 % 128`), which is inside. -/
theorem C18_root_record_subscript_unreduced :
    root_inode (exWorldRoot128.disk 0) = 128 ∧
    (inode_record (exWorldRoot128.disk (128 / 128 + 1)) (128 % 128)).direct 0 = 5 ∧
    entry_is a_txt (exWorldRoot128.disk 5) 0 ∧
    (load_root exWorldRoot128).1.toOption.isNone = true ∧
    (tfs_get_inumber a_txt exWorldRoot128).1.toOption = none ∧
    (tfs_getsize a_txt exWorldRoot128).1.toOption = none ∧
    (tfs_delete a_txt exWorldRoot128).1.toOption = none ∧
    (tfs_debug exWorldRoot128).1.toOption = none ∧
    (inode_at (exWorldRoot128.disk 2) (root_inode (exWorldRoot128.disk 0))).toOption.isNone = true ∧
    (inode_at (exWorldRoot128.disk 2) (Int.tmod 130 INODES_PER_BLOCK)).toOption.isSome = true := by
  refine ⟨by decide, by decide, by decide, by rfl, by rfl, by rfl, by rfl, by decide, by rfl, by rfl⟩

/-! ## What `tfs_delete` leaves alone -/

theorem in_range_of_well_formed (d : Disk) (m : Nat) (h : well_formed d m) : in_range d m :=
  ⟨h.1, h.2.1, h.2.2.1, h.2.2.2.1⟩

/-- What a call of `tfs_delete` can be on an image with in-range pointers: the
name is not found; or it is found at `(i, j)` with `N` direct and `M` listed
pointers, and the call either frees nothing that it counts or runs to the
end. -/
theorem delete_cases (w : World) (filename : List Nat) (m : Nat)
    (h0 : 0 ∉ filename) (hr : in_range w.disk m) :
    tfs_delete filename w = (.ok 0, w) ∨
    ∃ i j N M, i < m ∧ first_match w.disk filename i j ∧
      ptrs_end (file_node w.disk i j).direct 5 N ∧
      indirect_ok w.disk (file_node w.disk i j) M ∧
      0 ≤ dentry_inum (dir_page w.disk i) j ∧ dentry_inum (dir_page w.disk i) j < 512 ∧
      ((N + ind_count (file_node w.disk i j) M = 0 ∧
          tfs_delete filename w =
            (.ok 0, ⟨Function.update w.disk 0 (sb_after_blocks w.disk i j N M), w.out⟩)) ∨
        (N + ind_count (file_node w.disk i j) M ≠ 0 ∧
          tfs_delete filename w =
            (.ok (dentry_inum (dir_page w.disk i) j),
              ⟨disk_after_delete w.disk i j N M, w.out⟩))) := by
  obtain ⟨hroot, hend, hptr, hentries⟩ := hr
  have hterm : names_terminated w.disk m := fun i' hi' j' hj' hv => (hentries i' hi' j' hj' hv).1
  rcases match_cases w.disk filename m hroot hend hptr with ⟨i, j, him, hfm⟩ | hno
  · right
    have hj : j < 128 := hfm.2.2.1
    have hval : dentry_valid (dir_page w.disk i) j ≠ 0 := hfm.2.2.2.2.1.1
    obtain ⟨_, hn0, hn1, hpir⟩ := hentries i him j hj hval
    obtain ⟨N, hN⟩ := exists_ptrs_end (file_node w.disk i j).direct 5 hpir.1
    obtain ⟨M, hI⟩ := exists_indirect_ok w.disk (file_node w.disk i j) hpir
    have hrun := delete_run w filename i j N M hfm (inum_readable_of_range _ i j hn0 hn1) hN hI
      (fun _ => ⟨hn0, hn1⟩)
    refine ⟨i, j, N, M, him, hfm, hN, hI, hn0, hn1, ?_⟩
    by_cases hc : N + ind_count (file_node w.disk i j) M ≠ 0
    · rw [if_pos hc] at hrun
      exact Or.inr ⟨hc, hrun⟩
    · rw [if_neg hc] at hrun
      exact Or.inl ⟨not_not.mp hc, hrun⟩
  · left
    exact delete_not_found w filename m h0 (Or.inr hterm) hno

theorem delete_frame (w : World) (filename : List Nat) (m : Nat)
    (h0 : 0 ∉ filename) (hr : in_range w.disk m) :
    (∀ x, (x < 4 ∨ 84 ≤ x) → (tfs_delete filename w).2.disk 0 x = w.disk 0 x) ∧
    ((∀ blk, blk ≠ 0 → (tfs_delete filename w).2.disk blk = w.disk blk) ∨
      ∃ i j, first_match w.disk filename i j ∧
        ∀ blk x, blk ≠ 0 → ¬ (blk = ((root_node w.disk).direct i).toNat ∧ x = 8 * j) →
          (tfs_delete filename w).2.disk blk x = w.disk blk x) := by
  rcases delete_cases w filename m h0 hr with h | ⟨i, j, N, M, him, hfm, hN, hI, hn0, hn1, h⟩
  · rw [h]
    exact ⟨fun _ _ => rfl, Or.inl (fun _ _ => rfl)⟩
  · have hdi : dir_ptr_ok (root_node w.disk) i := hfm.2.2.2.1 i (by omega)
    rcases h with ⟨_, h⟩ | ⟨_, h⟩
    · rw [h]
      refine ⟨?_, Or.inl ?_⟩
      · intro x hx
        show Function.update w.disk 0 (sb_after_blocks w.disk i j N M) 0 x = _
        rw [Function.update_same]
        unfold sb_after_blocks
        rw [clear_list_frame _ _ _ (freed_blocks_lt w.disk _ N M hN hI) (by omega)]
      · intro blk hb
        show Function.update w.disk 0 (sb_after_blocks w.disk i j N M) blk = _
        rw [Function.update_noteq hb]
    · rw [h]
      refine ⟨?_, Or.inr ⟨i, j, hfm, ?_⟩⟩
      · intro x hx
        exact after_delete_super_frame w.disk i j N M x hdi hN hI (by omega) hx
      · intro blk x hb hne
        show disk_after_delete w.disk i j N M blk x = _
        rw [after_delete_words w.disk i j N M blk x hb, if_neg hne]

/-- C14: on an image with in-range pointers, for every filename, `tfs_delete`
changes nothing except words of the two bitmaps in block 0 and the `valid`
word of the matched entry.  In block 0 every word outside the bitmaps is
unchanged, among them `signature`, `num_blocks`, `num_inodes` and `root_inode`
(words 0..3).  Outside block 0 either nothing changes, or the name has a first
match at `(i, j)` and every word of every block other than word `8 * j` (the
`valid` flag of entry `j`) of the directory block is unchanged: every block
other than block 0 and that directory block (inode records, data blocks and
indirect blocks among them), the name and inode number of the matched entry,
and every other entry of the directory block. -/
theorem C14_delete_changes_only_bitmaps_and_valid (w : World) (filename : List Nat) (m : Nat)
    (h0 : 0 ∉ filename) (hr : in_range w.disk m) :
    (∀ x, (x < 4 ∨ 84 ≤ x) → (tfs_delete filename w).2.disk 0 x = w.disk 0 x) ∧
    ((∀ blk, blk ≠ 0 → (tfs_delete filename w).2.disk blk = w.disk blk) ∨
      ∃ i j, first_match w.disk filename i j ∧
        (∀ blk, blk ≠ 0 → blk ≠ ((root_node w.disk).direct i).toNat →
          (tfs_delete filename w).2.disk blk = w.disk blk) ∧
        (∀ x, x ≠ 8 * j →
          (tfs_delete filename w).2.disk ((root_node w.disk).direct i).toNat x =
            w.disk ((root_node w.disk).direct i).toNat x) ∧
        entry_name ((tfs_delete filename w).2.disk ((root_node w.disk).direct i).toNat) j =
          entry_name (dir_page w.disk i) j ∧
        dentry_inum ((tfs_delete filename w).2.disk ((root_node w.disk).direct i).toNat) j =
          dentry_inum (dir_page w.disk i) j) := by
  obtain ⟨hsb, hrest⟩ := delete_frame w filename m h0 hr
  refine ⟨hsb, ?_⟩
  rcases hrest with h | ⟨i, j, hfm, h⟩
  · exact Or.inl h
  · right
    have hdi : dir_ptr_ok (root_node w.disk) i := hfm.2.2.2.1 i (by omega)
    have hdnz : ((root_node w.disk).direct i).toNat ≠ 0 := toNat_ne_zero _ hdi.1 hdi.2.1
    refine ⟨i, j, hfm, ?_, ?_, ?_, ?_⟩
    · intro blk hb hne
      funext x
      exact h blk x hb (fun hh => hne hh.1)
    · intro x hx
      exact h _ x hdnz (fun hh => hx hh.2)
    · unfold entry_name
      rw [fname_string_congr _ (dir_page w.disk i) j
        (fun x h1 h2 => h _ x hdnz (fun hh => by omega)) 24 (le_refl _)]
    · unfold dentry_inum
      rw [h _ _ hdnz (fun hh => by omega)]
      rfl

set_option maxRecDepth 100000 in
/-- C14 on the scenario image, for the deletion of `a.txt`. -/
theorem C14_delete_changes_only_bitmaps_and_valid_witness :
    (∀ x, (x < 4 ∨ 84 ≤ x) → (tfs_delete a_txt exWorld).2.disk 0 x = exWorld.disk 0 x) ∧
    ((∀ blk, blk ≠ 0 → (tfs_delete a_txt exWorld).2.disk blk = exWorld.disk blk) ∨
      ∃ i j, first_match exWorld.disk a_txt i j ∧
        (∀ blk, blk ≠ 0 → blk ≠ ((root_node exWorld.disk).direct i).toNat →
          (tfs_delete a_txt exWorld).2.disk blk = exWorld.disk blk) ∧
        (∀ x, x ≠ 8 * j →
          (tfs_delete a_txt exWorld).2.disk ((root_node exWorld.disk).direct i).toNat x =
            exWorld.disk ((root_node exWorld.disk).direct i).toNat x) ∧
        entry_name ((tfs_delete a_txt exWorld).2.disk ((root_node exWorld.disk).direct i).toNat) j =
          entry_name (dir_page exWorld.disk i) j ∧
        dentry_inum ((tfs_delete a_txt exWorld).2.disk ((root_node exWorld.disk).direct i).toNat) j =
          dentry_inum (dir_page exWorld.disk i) j) :=
  C14_delete_changes_only_bitmaps_and_valid exWorld a_txt 1 (by decide) (by decide)

/-! ## Running `tfs_read`: count and content -/

theorem strncat1_eq (data : List Nat) (c : Nat) : strncat1 data c = data ++ text_of [c] := by
  unfold strncat1 text_of
  by_cases h : c = 0 <;> simp [h]

theorem text_of_append (a b : List Nat) : text_of (a ++ b) = text_of a ++ text_of b := by
  unfold text_of
  rw [List.filter_append]

theorem text_of_length_le (a : List Nat) : (text_of a).length ≤ a.length :=
  List.length_filter_le _ _

/-- The byte loop: with the first stop `rem` bytes ahead, it runs to the stop
when that lies inside the `k` bytes left of the block, and through the block
otherwise. -/
theorem copy_bytes_run (block : Block) (size length offset : Int) :
    ∀ (k : Nat), k ≤ 4096 → ∀ (c : Int) (data : List Nat) (rem : Nat),
      c + rem ≤ length → (c + rem + offset ≤ size ∨ size < c + offset) →
      (c + rem = length ∨ c + rem + offset = size) →
      copy_bytes block size length offset k c data =
        ⟨decide (rem < k), c + (min rem k : Nat),
          data ++ text_of ((List.range' (4096 - k) (min rem k)).map (block_data block))⟩ := by
  intro k
  induction k with
  | zero =>
    intro _ c data rem _ _ _
    simp [copy_bytes, text_of]
  | succ k ih =>
    intro hk c data rem h1 h2 h3
    rw [copy_bytes]
    by_cases hr : rem = 0
    · subst hr
      simp only [Nat.cast_zero, add_zero] at h1 h2 h3
      have hstop : c + offset = size ∨ c = length := by
        rcases h3 with h | h
        · exact Or.inr h
        · exact Or.inl h
      have e1 : decide (0 < k + 1) = true := by simp
      have e2 : min 0 (k + 1) = 0 := by omega
      rw [e1, e2]
      rcases hstop with h | h
      · rw [if_pos h]
        simp [text_of]
      · by_cases hs : c + offset = size
        · rw [if_pos hs]
          simp [text_of]
        · rw [if_neg hs, if_pos h]
          simp [text_of]
    · have hs : ¬ (c + offset = size) := by omega
      have hl : ¬ (c = length) := by omega
      rw [if_neg hs, if_neg hl]
      rw [ih (by omega) (c + 1) _ (rem - 1) (by omega) (by omega) (by omega)]
      have e1 : decide (rem - 1 < k) = decide (rem < k + 1) := by
        rw [decide_eq_decide]
        omega
      have e2 : min rem (k + 1) = min (rem - 1) k + 1 := by omega
      have e3 : c + 1 + ((min (rem - 1) k : Nat) : Int) = c + ((min rem (k + 1) : Nat) : Int) := by
        omega
      have e4 : 4096 - k = (4096 - (k + 1)) + 1 := by omega
      rw [e1, e3, e2, List.range'_succ, List.map_cons, ← e4, strncat1_eq]
      simp only [DISK_BLOCK_SIZE]
      have e5 : block_data block (4096 - (k + 1)) ::
          List.map (block_data block) (List.range' (4096 - k) (min (rem - 1) k)) =
          [block_data block (4096 - (k + 1))] ++
            List.map (block_data block) (List.range' (4096 - k) (min (rem - 1) k)) := rfl
      rw [e5, text_of_append, List.append_assoc]

theorem stream_small (d : Disk) (ptr : Nat → Int) (s cnt : Nat) (h : cnt ≤ 4096) :
    stream d ptr s cnt = (List.range' 0 cnt).map (block_data (d (ptr s).toNat)) := by
  unfold stream
  rw [← List.range_eq_range']
  apply List.map_congr_left
  intro t ht
  have hlt : t < cnt := List.mem_range.mp ht
  have h1 : t / 4096 = 0 := by omega
  have h2 : t % 4096 = t := by omega
  rw [h1, h2]
  rfl

theorem stream_add (d : Disk) (ptr : Nat → Int) (s cnt : Nat) :
    stream d ptr s (4096 + cnt) = stream d ptr s 4096 ++ stream d ptr (s + 1) cnt := by
  unfold stream
  rw [List.range_add, List.map_append, List.map_map]
  congr 1
  apply List.map_congr_left
  intro t _
  have h1 : (4096 + t) / 4096 = 1 + t / 4096 := by omega
  have h2 : (4096 + t) % 4096 = t % 4096 := by omega
  simp only [Function.comp, h1, h2]
  rw [Nat.add_assoc]

/-- The block loop: with the first stop `rem` bytes ahead, it runs to the stop
when that lies inside the `k` blocks left, and through them otherwise. -/
theorem read_blocks_run (ptr : Nat → Int) (bound : Nat) (size length offset : Int)
    (hptr : ∀ x, x < bound → 0 ≤ ptr x ∧ ptr x < 2048) (w : World) :
    ∀ (k : Nat), k ≤ bound → ∀ (c : Int) (data : List Nat) (rem : Nat),
      c + rem ≤ length → (c + rem + offset ≤ size ∨ size < c + offset) →
      (c + rem = length ∨ c + rem + offset = size) →
      read_blocks ptr bound size length offset k c data w =
        (.ok ⟨decide (rem < 4096 * k), c + (min rem (4096 * k) : Nat),
          data ++ text_of (stream w.disk ptr (bound - k) (min rem (4096 * k)))⟩, w) := by
  intro k
  induction k with
  | zero =>
    intro _ c data rem _ _ _
    simp [read_blocks, pure_run, stream, text_of]
  | succ k ih =>
    intro hk c data rem h1 h2 h3
    rw [read_blocks]
    obtain ⟨hp0, hp1⟩ := hptr (bound - (k + 1)) (by omega)
    rw [bind_ok _ _ w w _ (disk_read_ok _ w hp0 hp1)]
    simp only [DISK_BLOCK_SIZE]
    rw [copy_bytes_run _ size length offset 4096 (le_refl _) c data rem h1 h2 h3]
    simp only [Nat.sub_self]
    by_cases hr : rem < 4096
    · have e1 : decide (rem < 4096 * (k + 1)) = true := by
        rw [decide_eq_true_eq]
        omega
      have e2 : min rem (4096 * (k + 1)) = rem := by omega
      have e3 : min rem 4096 = rem := by omega
      have e4 : decide (rem < 4096) = true := by
        rw [decide_eq_true_eq]
        exact hr
      rw [e1, e2, e3, e4, if_pos rfl, pure_run, stream_small _ _ _ _ (by omega)]
    · have e3 : min rem 4096 = 4096 := by omega
      have e4 : decide (rem < 4096) = false := by
        rw [decide_eq_false_iff_not]
        exact hr
      rw [e3, e4]
      simp only [Bool.false_eq_true, if_false]
      rw [ih (by omega) (c + (4096 : Nat)) _ (rem - 4096) (by omega) (by omega) (by omega)]
      have e5 : decide (rem - 4096 < 4096 * k) = decide (rem < 4096 * (k + 1)) := by
        rw [decide_eq_decide]
        omega
      have e6 : c + ((4096 : Nat) : Int) + ((min (rem - 4096) (4096 * k) : Nat) : Int) =
          c + ((min rem (4096 * (k + 1)) : Nat) : Int) := by
        omega
      have e7 : min rem (4096 * (k + 1)) = 4096 + min (rem - 4096) (4096 * k) := by omega
      have e8 : bound - k = (bound - (k + 1)) + 1 := by omega
      rw [e5, e6, e7, stream_add, ← e8, text_of_append, List.append_assoc,
        stream_small _ _ _ 4096 (le_refl _)]

theorem scanned_direct (d : Disk) (node : tfs_inode) (i cnt : Nat)
    (h : cnt ≤ 4096 * (5 - i)) :
    stream d node.direct i cnt = scanned d node i cnt := by
  unfold stream scanned
  apply List.map_congr_left
  intro t ht
  have hlt : t < cnt := List.mem_range.mp ht
  unfold file_byte file_block
  have h1 : (4096 * i + t) / 4096 = i + t / 4096 := by omega
  have h2 : (4096 * i + t) % 4096 = t % 4096 := by omega
  rw [h1, h2, if_pos (by omega)]

theorem scanned_indirect (d : Disk) (node : tfs_inode) (i cnt : Nat) (h : 5 ≤ i) :
    stream d (pointers (d node.indirect.toNat)) (i - 5) cnt = scanned d node i cnt := by
  unfold stream scanned
  apply List.map_congr_left
  intro t _
  unfold file_byte file_block
  have h1 : (4096 * i + t) / 4096 = i + t / 4096 := by omega
  have h2 : (4096 * i + t) % 4096 = t % 4096 := by omega
  have h3 : i + t / 4096 - 5 = i - 5 + t / 4096 := by omega
  rw [h1, h2, if_neg (by omega), h3]

theorem scanned_add (d : Disk) (node : tfs_inode) (i q cnt : Nat) :
    scanned d node i (4096 * q + cnt) = scanned d node i (4096 * q) ++ scanned d node (i + q) cnt := by
  unfold scanned
  rw [List.range_add, List.map_append, List.map_map]
  congr 1
  apply List.map_congr_left
  intro t _
  simp only [Function.comp]
  congr 1
  ring

theorem scanned_zero (d : Disk) (node : tfs_inode) (i : Nat) : scanned d node i 0 = [] := rfl

theorem stream_zero (d : Disk) (ptr : Nat → Int) (s : Nat) : stream d ptr s 0 = [] := rfl

/-- What `tfs_read` returns and copies, for every offset and length that are
not negative: the count is `read_result`, and the destination holds the
non-zero bytes among the first `read_result` bytes of the file from byte 0 of
pointer slot `offset / 4096` on. -/
theorem read_run (w : World) (inumber : Int) (data : List Nat) (length offset : Int)
    (hino : inumber_readable inumber)
    (hptr : pointers_in_range w.disk (inode_of w.disk inumber))
    (hoff0 : 0 ≤ offset) (hlen : 0 ≤ length) :
    tfs_read inumber data length offset w =
      (.ok (read_result (inode_of w.disk inumber) length offset,
        text_of (scanned w.disk (inode_of w.disk inumber) (offset / 4096).toNat
          (read_result (inode_of w.disk inumber) length offset).toNat)), w) := by
  unfold tfs_read
  simp only [INODES_PER_BLOCK, DISK_BLOCK_SIZE, POINTERS_PER_INODE, POINTERS_PER_BLOCK,
    Nat.cast_ofNat, strcpy]
  rw [bind_ok _ _ w w _ (disk_read_ok _ w hino.2.1 hino.2.2)]
  rw [inode_at_ok _ _ hino.1 (tmod_128_lt _), liftE_ok_bind]
  generalize hnode : inode_of w.disk inumber = node at hptr ⊢
  have hnode' : inode_record (w.disk (Int.tdiv inumber 128 + 1).toNat)
      (Int.tmod inumber 128).toNat = node := hnode
  rw [hnode']
  have hi : Int.tdiv offset 4096 = offset / 4096 := Int.tdiv_eq_ediv hoff0 (by norm_num)
  rw [hi, if_neg (by omega)]
  obtain ⟨i, hio⟩ : ∃ i : Nat, offset / 4096 = (i : Int) := ⟨(offset / 4096).toNat, by omega⟩
  obtain ⟨rem0, hrem⟩ : ∃ r : Nat, (r : Int) = read_stop node.size length offset := by
    refine ⟨(read_stop node.size length offset).toNat, ?_⟩
    unfold read_stop
    split <;> omega
  have hstop1 : (0 : Int) + rem0 ≤ length := by
    rw [hrem]; unfold read_stop; split <;> omega
  have hstop2 : (0 : Int) + rem0 + offset ≤ node.size ∨ node.size < 0 + offset := by
    rw [hrem]; unfold read_stop; split <;> omega
  have hstop3 : (0 : Int) + rem0 = length ∨ (0 : Int) + rem0 + offset = node.size := by
    rw [hrem]; unfold read_stop; split <;> omega
  have hres : read_result node length offset =
      min (rem0 : Int) (max 0 (slots node - (i : Int)) * 4096) := by
    unfold read_result read_cap
    simp only [DISK_BLOCK_SIZE, Nat.cast_ofNat]
    rw [← hrem, hio]
  have hitn : (offset / 4096).toNat = i := by omega
  rw [hitn]
  rw [bind_ok _ _ w w _ (read_blocks_run node.direct 5 node.size length offset hptr.1 w
    (5 - i) (by omega) 0 [] rem0 hstop1 hstop2 hstop3)]
  have hs1 : stream w.disk node.direct (5 - (5 - i)) (min rem0 (4096 * (5 - i))) =
      scanned w.disk node i (min rem0 (4096 * (5 - i))) := by
    by_cases h5 : i ≤ 5
    · have : 5 - (5 - i) = i := by omega
      rw [this]
      exact scanned_direct _ _ _ _ (by omega)
    · have : min rem0 (4096 * (5 - i)) = 0 := by omega
      rw [this]
      rfl
  simp only [zero_add, List.nil_append]
  rw [hs1]
  by_cases hr1 : rem0 < 4096 * (5 - i)
  · rw [if_pos (by simpa using hr1), pure_run]
    have hR : read_result node length offset = ((min rem0 (4096 * (5 - i)) : Nat) : Int) := by
      rw [hres]
      unfold slots
      simp only [POINTERS_PER_INODE, POINTERS_PER_BLOCK, Nat.cast_ofNat]
      split <;> omega
    rw [hR, Int.toNat_ofNat]
  · rw [if_neg (by simpa using hr1)]
    have hc1 : min rem0 (4096 * (5 - i)) = 4096 * (5 - i) := by omega
    by_cases hind : node.indirect = 0
    · rw [if_pos hind, pure_run]
      have hR : read_result node length offset = ((min rem0 (4096 * (5 - i)) : Nat) : Int) := by
        rw [hres]
        unfold slots
        simp only [POINTERS_PER_INODE, Nat.cast_ofNat]
        rw [if_pos hind]
        omega
      rw [hR, Int.toNat_ofNat]
    · rw [if_neg hind]
      rw [bind_ok _ _ w w _ (disk_read_ok _ w hptr.2.1 hptr.2.2.1)]
      rw [bind_ok _ _ w w _ (read_blocks_run (pointers (w.disk node.indirect.toNat)) 1024
        node.size length offset (hptr.2.2.2 hind) w (1024 - (i - 5)) (by omega)
        ((min rem0 (4096 * (5 - i)) : Nat) : Int) _ (rem0 - 4096 * (5 - i))
        (by omega) (by omega) (by omega))]
      rw [pure_run]
      have hs2 : stream w.disk (pointers (w.disk node.indirect.toNat))
          (1024 - (1024 - (i - 5)))
          (min (rem0 - 4096 * (5 - i)) (4096 * (1024 - (i - 5)))) =
          scanned w.disk node (i + (5 - i))
            (min (rem0 - 4096 * (5 - i)) (4096 * (1024 - (i - 5)))) := by
        by_cases h1029 : i - 5 ≤ 1024
        · have e1 : 1024 - (1024 - (i - 5)) = (i + (5 - i)) - 5 := by omega
          rw [e1]
          exact scanned_indirect _ _ _ _ (by omega)
        · have : min (rem0 - 4096 * (5 - i)) (4096 * (1024 - (i - 5))) = 0 := by omega
          rw [this]
          rfl
      have hR : read_result node length offset =
          ((4096 * (5 - i) + min (rem0 - 4096 * (5 - i)) (4096 * (1024 - (i - 5))) : Nat) : Int) := by
        rw [hres]
        unfold slots
        simp only [POINTERS_PER_INODE, POINTERS_PER_BLOCK, Nat.cast_ofNat]
        rw [if_neg hind]
        omega
      rw [hs2, hR, Int.toNat_ofNat, scanned_add, text_of_append, hc1, Nat.cast_add]

/-! ## The value `tfs_read` returns -/

theorem read_result_eq_value (node : tfs_inode) (length offset : Int) :
    read_result node length offset =
      read_value node.size (decide (node.indirect = 0)) length offset := by
  unfold read_result read_value read_stop read_cap slots
  simp only [POINTERS_PER_INODE, POINTERS_PER_BLOCK, DISK_BLOCK_SIZE, Nat.cast_ofNat,
    decide_eq_true_eq]
  by_cases h1 : offset ≤ node.size <;> by_cases h2 : node.indirect = 0 <;>
    simp only [h1, h2, if_true, if_false] <;> omega

/-- C20: for every inode, every `length >= 0` and every `offset >= 0`,
`tfs_read` returns `read_value size (indirect = 0) length offset`: with
`i = offset / BLOCK_SIZE`, `K = 5` when the indirect pointer is 0 and
`K = 5 + 1024` otherwise, and `cap = max(0, K - i) * BLOCK_SIZE`, the value is
`min(length, size - offset, cap)` when `offset <= size` and `min(length, cap)`
when `offset > size`.  Neither a pointer value nor a block content enters the
value; a zero pointer is read like any other block.  The pointer slots are
assumed to hold block numbers of the device (0 included) and the inode number
to yield a readable record, so that the run is defined. -/
theorem C20_read_value_from_size_length_offset (w : World) (inumber : Int) (data : List Nat)
    (length offset : Int) (hino : inumber_readable inumber)
    (hptr : pointers_in_range w.disk (inode_of w.disk inumber))
    (hoff0 : 0 ≤ offset) (hlen : 0 ≤ length) :
    ∃ buf, tfs_read inumber data length offset w =
      (.ok (read_value (inode_of w.disk inumber).size
        (decide ((inode_of w.disk inumber).indirect = 0)) length offset, buf), w) := by
  rw [read_run w inumber data length offset hino hptr hoff0 hlen, read_result_eq_value]
  exact ⟨_, rfl⟩

/-- C20 on the scenario image (inode 2: size 10, direct pointers 10, 0, 0, 0, 0,
no indirect block): a read of 5 bytes at offset 4096, beyond the size, goes
through the zero pointer `direct[1]` and returns `min(5, 4 * 4096) = 5`. -/
theorem C20_read_value_from_size_length_offset_witness :
    read_value (inode_of exWorld.disk 2).size
      (decide ((inode_of exWorld.disk 2).indirect = 0)) 5 4096 = 5 ∧
    ∃ buf, tfs_read 2 [] 5 4096 exWorld =
      (.ok (read_value (inode_of exWorld.disk 2).size
        (decide ((inode_of exWorld.disk 2).indirect = 0)) 5 4096, buf), exWorld) :=
  ⟨by decide, C20_read_value_from_size_length_offset exWorld 2 [] 5 4096 (by decide) (by decide)
    (by decide) (by decide)⟩

/-- C15 fails on the code: inode 2 of the scenario image has size 10; a read
of 4 bytes at offset 4096, beyond the end of the file, returns 4 and copies
the first four bytes of the block named by `direct[1]` (block 0, the
superblock), where `max(0, size - offset) = 0`: with `offset > size` the test
`bytesRead + offset == size` never holds. -/
theorem C15_read_beyond_end_of_file :
    (inode_of exWorld.disk 2).size = 10 ∧
    max 0 ((inode_of exWorld.disk 2).size - 4096) = 0 ∧
    (tfs_read 2 [] 4 4096 exWorld).1 = .ok (4, [34, 32, 95, 52]) := by
  refine ⟨by decide, by decide, by rfl⟩

/-! ## Reads at an offset inside a block -/

theorem scanned_take (d : Disk) (node : tfs_inode) (i a b : Nat) (h : a ≤ b) :
    scanned d node i a = (scanned d node i b).take a := by
  unfold scanned
  rw [← List.map_take, List.take_range, Nat.min_eq_left h]

theorem read_unaligned (w : World) (inumber : Int) (data : List Nat) (length offset : Int)
    (hino : inumber_readable inumber)
    (hptr : pointers_in_range w.disk (inode_of w.disk inumber))
    (hoff0 : 0 ≤ offset) (hoff1 : offset < (inode_of w.disk inumber).size)
    (hlen : 1 ≤ length) :
    ∃ ku ka : Nat,
      tfs_read inumber data length offset w =
        (.ok ((ku : Int), text_of (scanned w.disk (inode_of w.disk inumber)
          (offset / 4096).toNat ku)), w) ∧
      tfs_read inumber data length (4096 * (offset / 4096)) w =
        (.ok ((ka : Int), text_of (scanned w.disk (inode_of w.disk inumber)
          (offset / 4096).toNat ka)), w) ∧
      scanned w.disk (inode_of w.disk inumber) (offset / 4096).toNat ku =
        (scanned w.disk (inode_of w.disk inumber) (offset / 4096).toNat ka).take
          (min length ((inode_of w.disk inumber).size - offset)).toNat := by
  have hal0 : (0 : Int) ≤ 4096 * (offset / 4096) := by omega
  have hdiv : 4096 * (offset / 4096) / 4096 = offset / 4096 := by omega
  have hu := read_run w inumber data length offset hino hptr hoff0 (by omega)
  have ha := read_run w inumber data length (4096 * (offset / 4096)) hino hptr hal0 (by omega)
  rw [hdiv] at ha
  generalize hnode : inode_of w.disk inumber = node at hptr hoff1 hu ha ⊢
  have hru : 0 ≤ read_result node length offset := by
    unfold read_result read_stop read_cap
    simp only [DISK_BLOCK_SIZE, Nat.cast_ofNat]
    split <;> omega
  have hra : 0 ≤ read_result node length (4096 * (offset / 4096)) := by
    unfold read_result read_stop read_cap
    simp only [DISK_BLOCK_SIZE, Nat.cast_ofNat]
    split <;> omega
  have hmin : read_result node length offset =
      min (min length (node.size - offset)) (read_result node length (4096 * (offset / 4096))) := by
    unfold read_result read_stop read_cap
    simp only [DISK_BLOCK_SIZE, Nat.cast_ofNat, hdiv]
    rw [if_pos (by omega), if_pos (by omega)]
    omega
  refine ⟨(read_result node length offset).toNat,
    (read_result node length (4096 * (offset / 4096))).toNat, ?_, ?_, ?_⟩
  · rw [hu, Int.toNat_of_nonneg hru]
  · rw [ha, Int.toNat_of_nonneg hra]
  · by_cases hle : (min length (node.size - offset)).toNat ≤
        (read_result node length (4096 * (offset / 4096))).toNat
    · have e : (read_result node length offset).toNat = (min length (node.size - offset)).toNat := by
        omega
      rw [e]
      exact scanned_take _ _ _ _ _ hle
    · have e : (read_result node length offset).toNat =
          (read_result node length (4096 * (offset / 4096))).toNat := by
        omega
      rw [e, List.take_of_length_le]
      unfold scanned
      rw [List.length_map, List.length_range]
      omega

theorem text_of_eq_self (l : List Nat) (h : ∀ c, c ∈ l → c ≠ 0) : text_of l = l := by
  unfold text_of
  exact List.filter_eq_self.mpr (fun c hc => by simpa using h c hc)

/-- Where the bytes scanned by the aligned read hold no zero byte, the bytes
the unaligned read copies are the first `min(length, size - offset)` bytes the
aligned read copies. -/
theorem read_unaligned_no_zero (w : World) (inumber : Int) (data : List Nat)
    (length offset : Int) (hino : inumber_readable inumber)
    (hptr : pointers_in_range w.disk (inode_of w.disk inumber))
    (hoff0 : 0 ≤ offset) (hoff1 : offset < (inode_of w.disk inumber).size)
    (hlen : 1 ≤ length) :
    ∃ (ku ka : Nat) (bufU bufA : List Nat),
      tfs_read inumber data length offset w = (.ok ((ku : Int), bufU), w) ∧
      tfs_read inumber data length (4096 * (offset / 4096)) w = (.ok ((ka : Int), bufA), w) ∧
      ((∀ c, c ∈ scanned w.disk (inode_of w.disk inumber) (offset / 4096).toNat ka → c ≠ 0) →
        bufU = bufA.take (min length ((inode_of w.disk inumber).size - offset)).toNat) := by
  obtain ⟨ku, ka, h1, h2, h3⟩ := read_unaligned w inumber data length offset hino hptr hoff0
    hoff1 hlen
  refine ⟨ku, ka, _, _, h1, h2, ?_⟩
  intro hz
  rw [h3, text_of_eq_self _ hz, text_of_eq_self]
  intro c hc
  exact hz c (List.mem_of_mem_take hc)

/-- C17 fails on the code: on the scenario image whose file content has a zero
byte at position 4 (size 10), the offset 3 is inside the file and not a
multiple of `BLOCK_SIZE`, and `min(40, 10 - 3) = 7`.  `tfs_read(2, buf, 40, 3)`
starts at byte 0 of block `3 / BLOCK_SIZE = 0` of the file (the first byte
copied is byte 0 of the block, not byte 3) and returns 7, but it copies the 6
bytes `012356`; the read at the aligned offset 0 copies `012356789`, whose
first 7 bytes are `0123567`.  The zero byte is counted by both reads and
appended by neither, so the count of the unaligned read is used up one copied
byte early. -/
theorem C17_unaligned_read_copies_fewer_bytes :
    (inode_of exWorldZero.disk 2).size = 10 ∧
    (3 : Int) % DISK_BLOCK_SIZE ≠ 0 ∧
    min (40 : Int) ((inode_of exWorldZero.disk 2).size - 3) = 7 ∧
    block_data (exWorldZero.disk 10) 0 = 48 ∧
    block_data (exWorldZero.disk 10) 3 = 51 ∧
    block_data (exWorldZero.disk 10) 4 = 0 ∧
    (tfs_read 2 [] 40 3 exWorldZero).1 = .ok (7, [48, 49, 50, 51, 53, 54]) ∧
    (tfs_read 2 [] 40 (4096 * ((3 : Int) / 4096)) exWorldZero).1 =
      .ok (10, [48, 49, 50, 51, 53, 54, 55, 56, 57]) ∧
    ([48, 49, 50, 51, 53, 54, 55, 56, 57] : List Nat).take 7 = [48, 49, 50, 51, 53, 54, 55] ∧
    ([48, 49, 50, 51, 53, 54] : List Nat) ≠
      ([48, 49, 50, 51, 53, 54, 55, 56, 57] : List Nat).take 7 := by
  refine ⟨by decide, by decide, by decide, by decide, by decide, by decide, by rfl, by rfl,
    by decide, by decide⟩

/-! ## The destination buffer of `tfs_read` -/

theorem returns_only_pure {α : Type} (a : α) (P : α → Prop) (h : P a) :
    returns_only (pure a : FS α) P := by
  intro w r w' hr
  rw [pure_run] at hr
  cases hr
  exact h

theorem returns_only_fault {α : Type} (e : Fault) (P : α → Prop) :
    returns_only (fault e : FS α) P := by
  intro w r w' hr
  cases hr

theorem returns_only_true {α : Type} (m : FS α) : returns_only m (fun _ => True) :=
  fun _ _ _ _ => trivial

theorem returns_only_bind {α β : Type} (m : FS α) (f : α → FS β) (P : α → Prop) (Q : β → Prop)
    (hm : returns_only m P) (hf : ∀ a, P a → returns_only (f a) Q) :
    returns_only (m >>= f) Q := by
  intro w r w' hr
  rw [bind_run] at hr
  cases hmw : m w with
  | mk x w1 =>
    rw [hmw] at hr
    cases x with
    | error e => cases hr
    | ok a => exact hf a (hm w a w1 hmw) w1 r w' hr

theorem strncat1_length (data : List Nat) (c : Nat) :
    (strncat1 data c).length ≤ data.length + 1 := by
  unfold strncat1
  split
  · omega
  · simp

/-- The byte loop keeps the counter at most `length` and the text at most as
long as the counter. -/
theorem copy_bytes_inv (block : Block) (size length offset : Int) :
    ∀ (k : Nat) (c : Int) (data : List Nat), 0 ≤ c → c ≤ length → (data.length : Int) ≤ c →
      0 ≤ (copy_bytes block size length offset k c data).bytesRead ∧
      (copy_bytes block size length offset k c data).bytesRead ≤ length ∧
      ((copy_bytes block size length offset k c data).data.length : Int) ≤
        (copy_bytes block size length offset k c data).bytesRead := by
  intro k
  induction k with
  | zero => intro c data h0 h1 h2; exact ⟨h0, h1, h2⟩
  | succ k ih =>
    intro c data h0 h1 h2
    rw [copy_bytes]
    split
    · exact ⟨h0, h1, h2⟩
    · split
      · exact ⟨h0, h1, h2⟩
      · rename_i hne
        have := strncat1_length data (block_data block (DISK_BLOCK_SIZE - (k + 1)))
        exact ih (c + 1) _ (by omega) (by omega) (by omega)

theorem read_blocks_inv (ptr : Nat → Int) (bound : Nat) (size length offset : Int) :
    ∀ (k : Nat) (c : Int) (data : List Nat), 0 ≤ c → c ≤ length → (data.length : Int) ≤ c →
      returns_only (read_blocks ptr bound size length offset k c data)
        (fun r => 0 ≤ r.bytesRead ∧ r.bytesRead ≤ length ∧ (r.data.length : Int) ≤ r.bytesRead) := by
  intro k
  induction k with
  | zero =>
    intro c data h0 h1 h2
    exact returns_only_pure _ _ ⟨h0, h1, h2⟩
  | succ k ih =>
    intro c data h0 h1 h2
    rw [read_blocks]
    refine returns_only_bind _ _ (fun _ => True) _ (returns_only_true _) (fun block _ => ?_)
    have hinv := copy_bytes_inv block size length offset DISK_BLOCK_SIZE c data h0 h1 h2
    generalize copy_bytes block size length offset DISK_BLOCK_SIZE c data = r at hinv
    simp only []
    split
    · exact returns_only_pure _ _ hinv
    · exact ih _ _ hinv.1 hinv.2.1 hinv.2.2

theorem read_inv (inumber : Int) (data : List Nat) (length offset : Int) (hlen : 0 ≤ length) :
    returns_only (tfs_read inumber data length offset)
      (fun r => 0 ≤ r.1 ∧ r.1 ≤ length ∧ (r.2.length : Int) ≤ r.1) := by
  unfold tfs_read
  refine returns_only_bind _ _ (fun _ => True) _ (returns_only_true _) (fun block _ => ?_)
  refine returns_only_bind _ _ (fun _ => True) _ (returns_only_true _) (fun tempNode _ => ?_)
  simp only []
  split
  · exact returns_only_fault _ _
  · refine returns_only_bind _ _ _ _
      (read_blocks_inv _ _ _ length offset _ 0 (strcpy data []) (le_refl _) hlen
        (by simp [strcpy])) (fun r hr => ?_)
    split
    · exact returns_only_pure _ _ hr
    · split
      · exact returns_only_pure _ _ hr
      · refine returns_only_bind _ _ (fun _ => True) _ (returns_only_true _) (fun block _ => ?_)
        refine returns_only_bind _ _ _ _
          (read_blocks_inv _ _ _ length offset _ r.bytesRead r.data hr.1 hr.2.1 hr.2.2)
          (fun r2 hr2 => ?_)
        exact returns_only_pure _ _ hr2

/-- C16: for every inode, every `length >= 0` and every offset, whatever the
destination held before the call: the call does what it does on an empty
destination (nothing of the earlier content survives); whenever it returns,
the count `k` satisfies `0 <= k <= length` and the destination holds at most
`k` bytes, so that the text and its terminator fit in `length + 1` bytes; and
it does return, on the image it started from, when the inode number and the
pointer slots of the inode are in range and the offset is not negative. -/
theorem C16_read_resets_and_fits_buffer (w : World) (inumber : Int) (data : List Nat)
    (length offset : Int) (hlen : 0 ≤ length) :
    tfs_read inumber data length offset w = tfs_read inumber [] length offset w ∧
    (∀ (k : Int) (buf : List Nat) (w' : World),
      tfs_read inumber data length offset w = (.ok (k, buf), w') →
        0 ≤ k ∧ k ≤ length ∧ (buf.length : Int) ≤ k ∧ (buf.length : Int) + 1 ≤ length + 1) ∧
    (inumber_readable inumber ∧ pointers_in_range w.disk (inode_of w.disk inumber) ∧
        0 ≤ offset →
      ∃ (k : Int) (buf : List Nat), tfs_read inumber data length offset w = (.ok (k, buf), w)) := by
  refine ⟨rfl, ?_, ?_⟩
  · intro k buf w' h
    have hinv := read_inv inumber data length offset hlen w (k, buf) w' h
    simp only [] at hinv
    exact ⟨hinv.1, hinv.2.1, hinv.2.2, by omega⟩
  · intro h
    exact ⟨_, _, read_run w inumber data length offset h.1 h.2.1 h.2.2 hlen⟩

/-- C16 on the scenario image: a read of 4 bytes into a destination that held
three bytes returns 4 and leaves `0123` in the destination. -/
theorem C16_read_resets_and_fits_buffer_witness :
    (tfs_read 2 [7, 7, 7] 4 0 exWorld).1 = .ok (4, [48, 49, 50, 51]) ∧
    tfs_read 2 [7, 7, 7] 4 0 exWorld = tfs_read 2 [] 4 0 exWorld ∧
    (∀ (k : Int) (buf : List Nat) (w' : World),
      tfs_read 2 [7, 7, 7] 4 0 exWorld = (.ok (k, buf), w') →
        0 ≤ k ∧ k ≤ 4 ∧ (buf.length : Int) ≤ k ∧ (buf.length : Int) + 1 ≤ 4 + 1) ∧
    (inumber_readable 2 ∧ pointers_in_range exWorld.disk (inode_of exWorld.disk 2) ∧
        (0 : Int) ≤ 0 →
      ∃ (k : Int) (buf : List Nat), tfs_read 2 [7, 7, 7] 4 0 exWorld = (.ok (k, buf), exWorld)) :=
  ⟨by rfl, C16_read_resets_and_fits_buffer exWorld 2 [7, 7, 7] 4 0 (by decide)⟩

/-! ## The root inode's indirect pointer is never followed -/

theorem same_footprint_of_differ (d d' : Disk) (m : Nat) (S : Nat → Prop)
    (h : differ_behind_root_indirect d d' m S) : same_footprint d d' m := by
  obtain ⟨hd, hS0, hS1, hdir, hfile⟩ := h
  have hblk : ∀ blk, ¬ S blk → blk ≠ 1 → d' blk = d blk := by
    intro blk hs h1
    funext x
    rcases hd blk x with h | ⟨h, _⟩ | h
    · exact h
    · exact absurd h h1
    · exact absurd h hs
  refine ⟨?_, ?_, ?_, ?_⟩
  · exact hblk 0 hS0 (by norm_num)
  · intro x _ hx
    rcases hd 1 x with h | ⟨_, h⟩ | h
    · exact h
    · omega
    · exact absurd h hS1
  · intro i' hi'
    exact hblk _ (hdir i' hi').1 (hdir i' hi').2
  · intro i' hi' j' hj' hv
    obtain ⟨hs, hrec, hind⟩ := hfile i' hi' j' hj' hv
    refine ⟨?_, ?_⟩
    · intro x hx1 hx2
      rcases hd (Int.tdiv (dentry_inum (dir_page d i') j') 128 + 1).toNat x with h | ⟨h1, h2⟩ | h
      · exact h
      · exfalso
        have := hrec h1
        omega
      · exact absurd h hs
    · intro hnz
      exact hblk _ (hind hnz).1 (hind hnz).2

theorem footprint_root (d d' : Disk) (m : Nat) (h : same_footprint d d' m) :
    root_inode (d' 0) = root_inode (d 0) ∧
    ∀ k, k < 5 → (root_node d').direct k = (root_node d).direct k := by
  have hr : root_inode (d' 0) = root_inode (d 0) := by rw [h.1]
  refine ⟨hr, ?_⟩
  intro k hk
  unfold root_node inode_record
  simp only []
  rw [hr, h.2.1 _ (by omega) (by omega)]

theorem footprint_page (d d' : Disk) (m : Nat) (hm : m ≤ 5) (h : same_footprint d d' m)
    (i' : Nat) (hi' : i' < m) : dir_page d' i' = dir_page d i' := by
  unfold dir_page
  rw [(footprint_root d d' m h).2 i' (by omega)]
  exact h.2.2.1 i' hi'

theorem footprint_first_match (d d' : Disk) (m : Nat) (hm : m ≤ 5) (h : same_footprint d d' m)
    (filename : List Nat) (i j : Nat) (hi : i < m) (hf : first_match d filename i j) :
    first_match d' filename i j := by
  obtain ⟨hroot, hi5, hj, hptr, hent, hb, ha⟩ := hf
  have hr := footprint_root d d' m h
  refine ⟨?_, hi5, hj, ?_, ?_, ?_, ?_⟩
  · unfold root_ok
    rw [hr.1]
    exact hroot
  · intro i' hi'
    unfold dir_ptr_ok
    rw [hr.2 i' (by omega)]
    exact hptr i' hi'
  · rw [footprint_page d d' m hm h i hi]
    exact hent
  · intro j' hj'
    rw [footprint_page d d' m hm h i hi]
    exact hb j' hj'
  · intro i' hi' j' hj'
    rw [footprint_page d d' m hm h i' (by omega)]
    exact ha i' hi' j' hj'

theorem footprint_no_match (d d' : Disk) (m : Nat) (h : same_footprint d d' m)
    (filename : List Nat) (hf : no_match d filename m) : no_match d' filename m := by
  obtain ⟨hroot, hend, hptr, hno⟩ := hf
  have hm : m ≤ 5 := by rcases hend with h | h <;> omega
  have hr := footprint_root d d' m h
  refine ⟨?_, ?_, ?_, ?_⟩
  · unfold root_ok
    rw [hr.1]
    exact hroot
  · rcases hend with h1 | ⟨h1, h2⟩
    · exact Or.inl h1
    · exact Or.inr ⟨h1, by rw [hr.2 m h1]; exact h2⟩
  · intro i' hi'
    unfold dir_ptr_ok
    rw [hr.2 i' (by omega)]
    exact hptr i' hi'
  · intro i' hi' j' hj'
    rw [footprint_page d d' m hm h i' hi']
    exact hno i' hi' j' hj'

/-- The inode record of a valid entry reads the same on both images. -/
theorem footprint_file_node (d d' : Disk) (m : Nat) (hm : m ≤ 5) (h : same_footprint d d' m)
    (i j : Nat) (hi : i < m) (hj : j < 128) (hv : dentry_valid (dir_page d i) j ≠ 0) :
    (file_node d' i j).size = (file_node d i j).size ∧
    (file_node d' i j).indirect = (file_node d i j).indirect ∧
    (∀ k, k < 5 → (file_node d' i j).direct k = (file_node d i j).direct k) ∧
    ((file_node d i j).indirect ≠ 0 →
      d' (file_node d i j).indirect.toNat = d (file_node d i j).indirect.toNat) := by
  obtain ⟨hrec, hind⟩ := h.2.2.2 i hi j hj hv
  have hp := footprint_page d d' m hm h i hi
  unfold file_node inode_record
  simp only []
  rw [hp]
  refine ⟨?_, ?_, ?_, ?_⟩
  · rw [hrec _ (by omega) (by omega)]
  · rw [hrec _ (by omega) (by omega)]
  · intro k hk
    rw [hrec _ (by omega) (by omega)]
  · intro hnz
    exact hind hnz

theorem ptrs_end_congr (ptr ptr' : Nat → Int) (bound N : Nat)
    (h : ∀ k, k < bound → ptr' k = ptr k) (hN : ptrs_end ptr bound N) :
    ptrs_end ptr' bound N := by
  obtain ⟨h1, h2⟩ := hN
  have hNb : N ≤ bound := by rcases h2 with h | h <;> omega
  refine ⟨?_, ?_⟩
  · intro k hk
    rw [h k (by omega)]
    exact h1 k hk
  · rcases h2 with h2 | ⟨h2, h3⟩
    · exact Or.inl h2
    · exact Or.inr ⟨h2, by rw [h N h2]; exact h3⟩

theorem ptr_list_congr (ptr ptr' : Nat → Int) (bound N : Nat) (hN : N ≤ bound)
    (h : ∀ k, k < bound → ptr' k = ptr k) : ptr_list ptr' N = ptr_list ptr N := by
  unfold ptr_list
  apply List.map_congr_left
  intro k hk
  rw [h k (by have := List.mem_range.mp hk; omega)]

/-- On two images that agree on the footprint, a file found at `(i, j)` is
deleted with the same freed blocks, the same new superblock and the same new
directory page. -/
theorem footprint_delete_found (d d' : Disk) (m : Nat) (hm : m ≤ 5)
    (h : same_footprint d d' m) (i j N M : Nat) (hi : i < m) (hj : j < 128)
    (hv : dentry_valid (dir_page d i) j ≠ 0)
    (hN : ptrs_end (file_node d i j).direct 5 N) (hI : indirect_ok d (file_node d i j) M) :
    ptrs_end (file_node d' i j).direct 5 N ∧ indirect_ok d' (file_node d' i j) M ∧
    ind_count (file_node d' i j) M = ind_count (file_node d i j) M ∧
    sb_after_blocks d' i j N M = sb_after_blocks d i j N M ∧
    dentry_inum (dir_page d' i) j = dentry_inum (dir_page d i) j ∧
    disk_after_delete d' i j N M =
      Function.update (Function.update d' 0
        (clr_inode (sb_after_blocks d i j N M) (dentry_inum (dir_page d i) j).toNat))
        ((root_node d).direct i).toNat (Function.update (dir_page d i) (8 * j) 0) := by
  obtain ⟨_, hind, hdir, hblk⟩ := footprint_file_node d d' m hm h i j hi hj hv
  have hp := footprint_page d d' m hm h i hi
  have hNb : N ≤ 5 := by rcases hN.2 with h | h <;> omega
  have hN' : ptrs_end (file_node d' i j).direct 5 N := ptrs_end_congr _ _ 5 N hdir hN
  have hI' : indirect_ok d' (file_node d' i j) M := by
    rcases hI with hI | ⟨h0, h1, hM⟩
    · exact Or.inl (by rw [hind]; exact hI)
    · by_cases hz : (file_node d i j).indirect = 0
      · exact Or.inl (by rw [hind]; exact hz)
      · refine Or.inr ⟨by rw [hind]; exact h0, by rw [hind]; exact h1, ?_⟩
        rw [hind, hblk hz]
        exact hM
  have hcnt : ind_count (file_node d' i j) M = ind_count (file_node d i j) M := by
    unfold ind_count
    rw [hind]
  have hfreed : freed_blocks d' (file_node d' i j) N M = freed_blocks d (file_node d i j) N M := by
    unfold freed_blocks
    rw [ptr_list_congr _ _ 5 N hNb hdir, hind]
    by_cases hz : (file_node d i j).indirect = 0
    · rw [if_pos hz, if_pos hz]
    · rw [if_neg hz, if_neg hz, hblk hz]
  have hsb : sb_after_blocks d' i j N M = sb_after_blocks d i j N M := by
    unfold sb_after_blocks
    rw [hfreed, h.1]
  refine ⟨hN', hI', hcnt, hsb, by rw [hp], ?_⟩
  unfold disk_after_delete
  rw [hsb, hp, (footprint_root d d' m h).2 i (by omega)]

theorem update_pair_cases (d d' : Disk) (X Y : Block) (di blk x : Nat) :
    Function.update (Function.update d' 0 X) di Y blk x =
        Function.update (Function.update d 0 X) di Y blk x ∨
      (Function.update (Function.update d 0 X) di Y blk x = d blk x ∧
        Function.update (Function.update d' 0 X) di Y blk x = d' blk x) := by
  by_cases h1 : blk = di
  · left
    subst h1
    rw [Function.update_same, Function.update_same]
  · rw [Function.update_noteq h1, Function.update_noteq h1]
    by_cases h2 : blk = 0
    · left
      subst h2
      rw [Function.update_same, Function.update_same]
    · right
      rw [Function.update_noteq h2, Function.update_noteq h2]
      exact ⟨rfl, rfl⟩

/-- The three directory operations on two images with the same footprint:
same results, same blocks written with the same contents, and a name without a
valid entry in the `m` directory pages is not found on either. -/
theorem footprint_ops (w : World) (d' : Disk) (filename : List Nat) (m : Nat)
    (h0 : 0 ∉ filename) (hr : in_range w.disk m) (h : same_footprint w.disk d' m) :
    (tfs_get_inumber filename ⟨d', w.out⟩).1 = (tfs_get_inumber filename w).1 ∧
    (tfs_getsize filename ⟨d', w.out⟩).1 = (tfs_getsize filename w).1 ∧
    (tfs_delete filename ⟨d', w.out⟩).1 = (tfs_delete filename w).1 ∧
    (∀ blk x,
      (tfs_delete filename ⟨d', w.out⟩).2.disk blk x = (tfs_delete filename w).2.disk blk x ∨
      ((tfs_delete filename w).2.disk blk x = w.disk blk x ∧
        (tfs_delete filename ⟨d', w.out⟩).2.disk blk x = d' blk x)) ∧
    (no_match w.disk filename m →
      (tfs_get_inumber filename ⟨d', w.out⟩).1 = .ok 0 ∧
      (tfs_getsize filename ⟨d', w.out⟩).1 = .ok (-1) ∧
      (tfs_delete filename ⟨d', w.out⟩).1 = .ok 0) := by
  obtain ⟨hroot, hend, hptr, hentries⟩ := hr
  have hm : m ≤ 5 := by rcases hend with h | h <;> omega
  have hterm : names_terminated w.disk m := fun i' hi' j' hj' hv => (hentries i' hi' j' hj' hv).1
  have hterm' : names_terminated d' m := by
    intro i' hi' j' hj'
    rw [footprint_page w.disk d' m hm h i' hi']
    exact hterm i' hi' j' hj'
  have hnone : no_match w.disk filename m →
      tfs_get_inumber filename ⟨d', w.out⟩ = (.ok 0, ⟨d', w.out⟩) ∧
      tfs_getsize filename ⟨d', w.out⟩ = (.ok (-1), ⟨d', w.out⟩) ∧
      tfs_delete filename ⟨d', w.out⟩ = (.ok 0, ⟨d', w.out⟩) := by
    intro hno
    have hno' : no_match d' filename m := footprint_no_match w.disk d' m h filename hno
    exact ⟨get_inumber_not_found ⟨d', w.out⟩ filename m h0 (Or.inr hterm') hno',
      getsize_not_found ⟨d', w.out⟩ filename m h0 (Or.inr hterm') hno',
      delete_not_found ⟨d', w.out⟩ filename m h0 (Or.inr hterm') hno'⟩
  rcases match_cases w.disk filename m hroot hend hptr with ⟨i, j, him, hfm⟩ | hno
  · have hfm' : first_match d' filename i j :=
      footprint_first_match w.disk d' m hm h filename i j him hfm
    have hj : j < 128 := hfm.2.2.1
    have hval : dentry_valid (dir_page w.disk i) j ≠ 0 := hfm.2.2.2.2.1.1
    obtain ⟨_, hn0, hn1, hpir⟩ := hentries i him j hj hval
    obtain ⟨N, hN⟩ := exists_ptrs_end (file_node w.disk i j).direct 5 hpir.1
    obtain ⟨M, hI⟩ := exists_indirect_ok w.disk (file_node w.disk i j) hpir
    obtain ⟨hN', hI', hcnt, hsb, hinum, hdisk⟩ :=
      footprint_delete_found w.disk d' m hm h i j N M him hj hval hN hI
    have hsize := (footprint_file_node w.disk d' m hm h i j him hj hval).1
    have hread := inum_readable_of_range w.disk i j hn0 hn1
    have hn0' : 0 ≤ dentry_inum (dir_page d' i) j := by rw [hinum]; exact hn0
    have hn1' : dentry_inum (dir_page d' i) j < 512 := by rw [hinum]; exact hn1
    have hread' := inum_readable_of_range d' i j hn0' hn1'
    have hrun := delete_run w filename i j N M hfm hread hN hI (fun _ => ⟨hn0, hn1⟩)
    have hrun' := delete_run ⟨d', w.out⟩ filename i j N M hfm' hread' hN' hI'
      (fun _ => ⟨hn0', hn1'⟩)
    simp only [] at hrun'
    rw [hcnt, hinum] at hrun'
    refine ⟨?_, ?_, ?_, ?_, ?_⟩
    · rw [get_inumber_found w filename i j hfm, get_inumber_found ⟨d', w.out⟩ filename i j hfm']
      simp only []
      rw [hinum]
    · rw [getsize_found w filename i j hfm hread.1 hread.2.1 hread.2.2,
        getsize_found ⟨d', w.out⟩ filename i j hfm' hread'.1 hread'.2.1 hread'.2.2]
      exact congrArg Except.ok hsize
    · rw [hrun, hrun']
      by_cases hc : N + ind_count (file_node w.disk i j) M ≠ 0
      · rw [if_pos hc, if_pos hc]
      · rw [if_neg hc, if_neg hc]
    · intro blk x
      rw [hrun, hrun']
      by_cases hc : N + ind_count (file_node w.disk i j) M ≠ 0
      · rw [if_pos hc, if_pos hc]
        simp only []
        rw [hdisk]
        unfold disk_after_delete
        exact update_pair_cases w.disk d' _ _ _ blk x
      · rw [if_neg hc, if_neg hc]
        simp only []
        rw [hsb]
        by_cases h2 : blk = 0
        · left
          subst h2
          rw [Function.update_same, Function.update_same]
        · right
          rw [Function.update_noteq h2, Function.update_noteq h2]
          exact ⟨rfl, rfl⟩
    · intro hno
      obtain ⟨a, b, c⟩ := hnone hno
      rw [a, b, c]
      exact ⟨rfl, rfl, rfl⟩
  · obtain ⟨a, b, c⟩ := hnone hno
    rw [a, b, c, get_inumber_not_found w filename m h0 (Or.inr hterm) hno,
      getsize_not_found w filename m h0 (Or.inr hterm) hno,
      delete_not_found w filename m h0 (Or.inr hterm) hno]
    exact ⟨rfl, rfl, rfl, fun blk x => Or.inr ⟨rfl, rfl⟩, fun _ => ⟨rfl, rfl, rfl⟩⟩

/-- C19: let image `d'` differ from `w.disk` only in the root inode's indirect
pointer and in blocks nothing else leads to (`differ_behind_root_indirect`),
on an image with `m` directory pages whose pointers are in range, and let the
filename be a C string.  Then `tfs_get_inumber` and `tfs_getsize` return the
same value on both, `tfs_delete` returns the same value on both and makes the
same changes (every word of the two final images is equal, or is on each side
the word the call started from), a name that has no valid entry in the `m`
pages named by the root's direct pointers is reported as not found on `d'`
whatever the root's indirect block lists there, and the entries examined are
those of `m ≤ POINTERS_PER_INODE` pages, at most 640. -/
theorem C19_root_indirect_is_never_followed (w : World) (d' : Disk) (S : Nat → Prop)
    (filename : List Nat) (m : Nat)
    (h0 : 0 ∉ filename) (hr : in_range w.disk m)
    (hd : differ_behind_root_indirect w.disk d' m S) :
    ((tfs_get_inumber filename ⟨d', w.out⟩).1 = (tfs_get_inumber filename w).1 ∧
      (tfs_getsize filename ⟨d', w.out⟩).1 = (tfs_getsize filename w).1 ∧
      (tfs_delete filename ⟨d', w.out⟩).1 = (tfs_delete filename w).1 ∧
      (∀ blk x,
        (tfs_delete filename ⟨d', w.out⟩).2.disk blk x = (tfs_delete filename w).2.disk blk x ∨
        ((tfs_delete filename w).2.disk blk x = w.disk blk x ∧
          (tfs_delete filename ⟨d', w.out⟩).2.disk blk x = d' blk x)) ∧
      (no_match w.disk filename m →
        (tfs_get_inumber filename ⟨d', w.out⟩).1 = .ok 0 ∧
        (tfs_getsize filename ⟨d', w.out⟩).1 = .ok (-1) ∧
        (tfs_delete filename ⟨d', w.out⟩).1 = .ok 0)) ∧
    m * NUM_DENTRIES_PER_BLOCK ≤ POINTERS_PER_INODE * NUM_DENTRIES_PER_BLOCK ∧
    POINTERS_PER_INODE * NUM_DENTRIES_PER_BLOCK = 640 := by
  refine ⟨footprint_ops w d' filename m h0 hr (same_footprint_of_differ w.disk d' m S hd), ?_, rfl⟩
  have hm : m ≤ 5 := by rcases hr.2.1 with h | h <;> omega
  simp only [NUM_DENTRIES_PER_BLOCK, POINTERS_PER_INODE]
  omega

set_option maxRecDepth 100000 in
/-- The scenario image and the same image with a root indirect block that
lists a further directory page differ only behind the root inode's indirect
pointer. -/
theorem exBehind_differ :
    differ_behind_root_indirect exWorld.disk exWorldBehind.disk 1 (fun b => b = 30 ∨ b = 31) := by
  refine ⟨?_, by decide, by decide, by beta_reduce; decide, ?_⟩
  · intro blk x
    by_cases h1 : blk = 1
    · subst h1
      by_cases hx : x = 15
      · exact Or.inr (Or.inl ⟨rfl, hx⟩)
      · left
        show exTableRootInd x = exTable x
        unfold exTableRootInd
        rw [if_neg hx]
    · by_cases h30 : blk = 30
      · exact Or.inr (Or.inr (Or.inl h30))
      · by_cases h31 : blk = 31
        · exact Or.inr (Or.inr (Or.inr h31))
        · left
          show (if blk = 1 then exTableRootInd else if blk = 30 then exRootIndirect
            else if blk = 31 then exDirBehind else exDisk blk) x = exDisk blk x
          rw [if_neg h1, if_neg h30, if_neg h31]
  · beta_reduce
    intro i' hi'
    obtain rfl : i' = 0 := by omega
    decide

set_option maxRecDepth 100000 in
/-- C19 on the scenario image and the image in which the root inode's indirect
block (block 30) lists a directory page (block 31) with the valid entry
`b.txt`: the entry is there, and `b.txt` is not found. -/
theorem C19_root_indirect_is_never_followed_witness :
    (root_node exWorldBehind.disk).indirect = 30 ∧
    pointers (exWorldBehind.disk 30) 0 = 31 ∧
    entry_is b_txt (exWorldBehind.disk 31) 0 ∧
    (tfs_get_inumber b_txt ⟨exWorldBehind.disk, exWorld.out⟩).1 = .ok 0 ∧
    (tfs_getsize b_txt ⟨exWorldBehind.disk, exWorld.out⟩).1 = .ok (-1) ∧
    (tfs_delete b_txt ⟨exWorldBehind.disk, exWorld.out⟩).1 = .ok 0 ∧
    (tfs_get_inumber a_txt ⟨exWorldBehind.disk, exWorld.out⟩).1 =
      (tfs_get_inumber a_txt exWorld).1 :=
  ⟨by decide, by decide, by decide,
    (C19_root_indirect_is_never_followed exWorld exWorldBehind.disk (fun b => b = 30 ∨ b = 31)
      b_txt 1 (by decide) (by decide) exBehind_differ).1.2.2.2.2 (by decide) |>.1,
    (C19_root_indirect_is_never_followed exWorld exWorldBehind.disk (fun b => b = 30 ∨ b = 31)
      b_txt 1 (by decide) (by decide) exBehind_differ).1.2.2.2.2 (by decide) |>.2.1,
    (C19_root_indirect_is_never_followed exWorld exWorldBehind.disk (fun b => b = 30 ∨ b = 31)
      b_txt 1 (by decide) (by decide) exBehind_differ).1.2.2.2.2 (by decide) |>.2.2,
    (C19_root_indirect_is_never_followed exWorld exWorldBehind.disk (fun b => b = 30 ∨ b = 31)
      a_txt 1 (by decide) (by decide) exBehind_differ).1.1⟩

end TinyFS
